import Mathlib

/-!
# api2go: the marshaling engine of `marshal.go`

A shallow embedding of `src/marshal.go` (`toID`, `makeContext`, `addValue`,
`marshalStruct`, `Marshal`) and theorems about it.

Values inspected through `reflect` are modelled by `GoValue`; the tree that
`Marshal` returns is modelled by `Resource`, `DocVal` and finite maps with string
keys (`SMap`).  A panic and a returned `error` are the two constructors of `Fault`.
The helpers `jsonify` and `pluralize` live outside `marshal.go`; every definition
that calls them takes them as parameters.
-/

namespace Api2go

/-! ## Values seen through reflection -/

/-- The kinds of `reflect.Kind`. -/
inductive Kind
  | Invalid | Bool
  | Int | Int8 | Int16 | Int32 | Int64
  | Uint | Uint8 | Uint16 | Uint32 | Uint64 | Uintptr
  | Float32 | Float64 | Complex64 | Complex128
  | Array | Chan | Func | Interface | Map | Ptr | Slice | String | Struct
  | UnsafePointer
  deriving DecidableEq, Repr

/-- The signed integer types: `int`, `int8`, `int16`, `int32`, `int64`. -/
inductive IntKind
  | Int | Int8 | Int16 | Int32 | Int64
  deriving DecidableEq, Repr

/-- The unsigned integer types: `uint`, `uint8`, `uint16`, `uint32`, `uint64` and
`uintptr` (all of them are read with `reflect.Value.Uint`). -/
inductive UintKind
  | Uint | Uint8 | Uint16 | Uint32 | Uint64 | Uintptr
  deriving DecidableEq, Repr

/-- The kinds whose values the marshaler never looks into. -/
inductive OtherKind
  | Bool | Float32 | Float64 | Complex64 | Complex128
  | Array | Chan | Func | Interface | Map | Ptr | UnsafePointer
  deriving DecidableEq, Repr

/-- What the marshaler reads of a `reflect.Type`: its `Kind()` and its `Name()`. -/
structure GoType where
  kind : Kind
  name : String
  deriving DecidableEq, Repr

/-- A field of a struct value: `reflect.StructField.Name`, `reflect.StructField.PkgPath`
(empty exactly for an exported field) and the field's value. -/
structure StructField (α : Type) where
  Name : String
  PkgPath : String
  value : α
  deriving Repr

/-- A Go value as `reflect` shows it.  Integers carry the number they denote, a value
of a kind the marshaler does not look into carries an uninterpreted payload, a struct
carries its type name and its fields in declaration order (anonymous fields are not
modelled), a slice carries its element type and its elements. -/
inductive GoValue
  | int (k : IntKind) (v : Int)
  | uint (k : UintKind) (v : Nat)
  | str (s : String)
  | other (k : OtherKind) (payload : String)
  | struct (typeName : String) (fields : List (StructField GoValue))
  | slice (elem : GoType) (elems : List GoValue)

mutual
/-- Equality of two Go values is decidable. -/
def GoValue.decEq : (a b : GoValue) → Decidable (a = b)
  | .int k v, .int k2 v2 =>
    if h : k = k2 ∧ v = v2 then isTrue (by rw [h.1, h.2])
    else isFalse (fun e => h (by cases e; exact ⟨rfl, rfl⟩))
  | .uint k v, .uint k2 v2 =>
    if h : k = k2 ∧ v = v2 then isTrue (by rw [h.1, h.2])
    else isFalse (fun e => h (by cases e; exact ⟨rfl, rfl⟩))
  | .str s, .str s2 =>
    if h : s = s2 then isTrue (by rw [h])
    else isFalse (fun e => h (by cases e; rfl))
  | .other k p, .other k2 p2 =>
    if h : k = k2 ∧ p = p2 then isTrue (by rw [h.1, h.2])
    else isFalse (fun e => h (by cases e; exact ⟨rfl, rfl⟩))
  | .struct n fs, .struct n2 fs2 =>
    if h : n = n2 then
      match GoValue.decEqFields fs fs2 with
      | isTrue h2 => isTrue (by rw [h, h2])
      | isFalse h2 => isFalse (fun e => h2 (by cases e; rfl))
    else isFalse (fun e => h (by cases e; rfl))
  | .slice t es, .slice t2 es2 =>
    if h : t = t2 then
      match GoValue.decEqElems es es2 with
      | isTrue h2 => isTrue (by rw [h, h2])
      | isFalse h2 => isFalse (fun e => h2 (by cases e; rfl))
    else isFalse (fun e => h (by cases e; rfl))
  | .int _ _, .uint _ _ => isFalse nofun
  | .int _ _, .str _ => isFalse nofun
  | .int _ _, .other _ _ => isFalse nofun
  | .int _ _, .struct _ _ => isFalse nofun
  | .int _ _, .slice _ _ => isFalse nofun
  | .uint _ _, .int _ _ => isFalse nofun
  | .uint _ _, .str _ => isFalse nofun
  | .uint _ _, .other _ _ => isFalse nofun
  | .uint _ _, .struct _ _ => isFalse nofun
  | .uint _ _, .slice _ _ => isFalse nofun
  | .str _, .int _ _ => isFalse nofun
  | .str _, .uint _ _ => isFalse nofun
  | .str _, .other _ _ => isFalse nofun
  | .str _, .struct _ _ => isFalse nofun
  | .str _, .slice _ _ => isFalse nofun
  | .other _ _, .int _ _ => isFalse nofun
  | .other _ _, .uint _ _ => isFalse nofun
  | .other _ _, .str _ => isFalse nofun
  | .other _ _, .struct _ _ => isFalse nofun
  | .other _ _, .slice _ _ => isFalse nofun
  | .struct _ _, .int _ _ => isFalse nofun
  | .struct _ _, .uint _ _ => isFalse nofun
  | .struct _ _, .str _ => isFalse nofun
  | .struct _ _, .other _ _ => isFalse nofun
  | .struct _ _, .slice _ _ => isFalse nofun
  | .slice _ _, .int _ _ => isFalse nofun
  | .slice _ _, .uint _ _ => isFalse nofun
  | .slice _ _, .str _ => isFalse nofun
  | .slice _ _, .other _ _ => isFalse nofun
  | .slice _ _, .struct _ _ => isFalse nofun
/-- Equality of two field lists is decidable. -/
def GoValue.decEqFields : (a b : List (StructField GoValue)) → Decidable (a = b)
  | [], [] => isTrue rfl
  | [], _ :: _ => isFalse nofun
  | _ :: _, [] => isFalse nofun
  | ⟨n, p, v⟩ :: r, ⟨n2, p2, v2⟩ :: r2 =>
    if h : n = n2 ∧ p = p2 then
      match GoValue.decEq v v2 with
      | isTrue h2 =>
        match GoValue.decEqFields r r2 with
        | isTrue h3 => isTrue (by rw [h.1, h.2, h2, h3])
        | isFalse h3 => isFalse (fun e => h3 (by cases e; rfl))
      | isFalse h2 => isFalse (fun e => h2 (by cases e; rfl))
    else isFalse (fun e => h (by cases e; exact ⟨rfl, rfl⟩))
/-- Equality of two element lists is decidable. -/
def GoValue.decEqElems : (a b : List GoValue) → Decidable (a = b)
  | [], [] => isTrue rfl
  | [], _ :: _ => isFalse nofun
  | _ :: _, [] => isFalse nofun
  | v :: r, v2 :: r2 =>
    match GoValue.decEq v v2 with
    | isTrue h2 =>
      match GoValue.decEqElems r r2 with
      | isTrue h3 => isTrue (by rw [h2, h3])
      | isFalse h3 => isFalse (fun e => h3 (by cases e; rfl))
    | isFalse h2 => isFalse (fun e => h2 (by cases e; rfl))
end

instance : DecidableEq GoValue := GoValue.decEq

namespace IntKind

/-- The `reflect.Kind` of a signed integer type. -/
def toKind : IntKind → Kind
  | Int => Kind.Int
  | Int8 => Kind.Int8
  | Int16 => Kind.Int16
  | Int32 => Kind.Int32
  | Int64 => Kind.Int64

end IntKind

namespace UintKind

/-- The `reflect.Kind` of an unsigned integer type. -/
def toKind : UintKind → Kind
  | Uint => Kind.Uint
  | Uint8 => Kind.Uint8
  | Uint16 => Kind.Uint16
  | Uint32 => Kind.Uint32
  | Uint64 => Kind.Uint64
  | Uintptr => Kind.Uintptr

end UintKind

namespace OtherKind

/-- The `reflect.Kind` of the remaining kinds. -/
def toKind : OtherKind → Kind
  | Bool => Kind.Bool
  | Float32 => Kind.Float32
  | Float64 => Kind.Float64
  | Complex64 => Kind.Complex64
  | Complex128 => Kind.Complex128
  | Array => Kind.Array
  | Chan => Kind.Chan
  | Func => Kind.Func
  | Interface => Kind.Interface
  | Map => Kind.Map
  | Ptr => Kind.Ptr
  | UnsafePointer => Kind.UnsafePointer

end OtherKind

namespace GoValue

/-- The method `reflect.Value.Kind`. -/
def kind : GoValue → Kind
  | int k _ => k.toKind
  | uint k _ => k.toKind
  | str _ => Kind.String
  | other k _ => k.toKind
  | struct _ _ => Kind.Struct
  | slice _ _ => Kind.Slice

/-- The method `reflect.Value.Int`; it is only read on a value of a signed integer kind. -/
def asInt : GoValue → Int
  | int _ v => v
  | _ => 0

/-- The method `reflect.Value.Uint`; it is only read on a value of an unsigned integer kind. -/
def asUint : GoValue → Nat
  | uint _ v => v
  | _ => 0

/-- The method `reflect.Value.String`; it is only read on a value of kind `String`. -/
def asString : GoValue → String
  | str s => s
  | _ => ""

/-- The method `reflect.Value.FieldByName` on a struct value: the value of the first field
with that name, `none` for the zero `Value` (the one whose `IsValid` is false); on a value
that is no struct the method panics, which is `none` at the outer level.  The structs of
the model have no embedded fields, so the fields a struct declares are all the method
searches; on a struct with embedded fields `reflect` would also search the promoted ones. -/
def FieldByName : GoValue → String → Option (Option GoValue)
  | struct _ fields, name => some ((fields.find? (fun f => f.Name == name)).map (fun f => f.value))
  | _, _ => none

end GoValue

/-! ## Failures -/

/-- The two ways a call can fail: a panic, or an `error` handed back to the caller. -/
inductive Fault
  | panic (msg : String)
  | error (msg : String)
  deriving DecidableEq, Repr

deriving instance DecidableEq for Except

/-! ## The ID codec -/

/-- The function `strconv.FormatUint`, used with base 10 only. -/
def FormatUint (i : Nat) (base : Nat) : String :=
  String.mk (Nat.toDigits base i)

/-- The function `strconv.FormatInt`, used with base 10 only: a minus sign before the
digits of a negative number. -/
def FormatInt (i : Int) (base : Nat) : String :=
  match i with
  | Int.ofNat n => FormatUint n base
  | Int.negSucc n => "-" ++ FormatUint (n + 1) base

/-- toID converts a value to a ID string (`marshal.go`, lines 178-190). -/
def toID (v : GoValue) : Except Fault String :=
  match v.kind with
  | Kind.Int | Kind.Int8 | Kind.Int16 | Kind.Int32 | Kind.Int64 =>
    Except.ok (FormatInt v.asInt 10)
  | Kind.Uint | Kind.Uint8 | Kind.Uint16 | Kind.Uint32 | Kind.Uint64 =>
    Except.ok (FormatUint v.asUint 10)
  | Kind.String => Except.ok v.asString
  | _ => Except.error (Fault.error "need int or string as type of ID")

/-! ## The output tree -/

/-- A Go map with string keys, as the list of its entries; a key occurs at most once in
a map built with `mapSet`. -/
abbrev SMap (β : Type) := List (String × β)

/-- The map read `m[k]`: `none` stands for the nil a missing key yields. -/
def mapGet {β : Type} : SMap β → String → Option β
  | [], _ => none
  | (k2, v) :: rest, k => if k2 = k then some v else mapGet rest k

/-- The map write `m[k] = v`. -/
def mapSet {β : Type} : SMap β → String → β → SMap β
  | [], k, v => [(k, v)]
  | (k2, v2) :: rest, k, v => if k2 = k then (k, v) :: rest else (k2, v2) :: mapSet rest k v

/-- A value of `linksMap`: the id string of a to-one relation, or the `[]interface` of id
strings of a to-many relation. -/
inductive LinkVal
  | one (id : String)
  | many (ids : List String)
  deriving DecidableEq, Repr

/-- A value stored in `result` under a key other than "id": a field value copied by
`field.Interface()`, or the `linksMap` stored under "links". -/
inductive JVal
  | raw (v : GoValue)
  | links (m : SMap LinkVal)
  deriving DecidableEq

/-- The map `result` of `marshalStruct`.  Its entry under the key "id" is kept apart from
the others: line 120 is the only place that writes that key and it writes a string, so
`id` is `none` (key absent, read as nil) or that string; `fields` holds all other keys. -/
structure Resource where
  id : Option String
  fields : SMap JVal
  deriving DecidableEq

/-- A value of the map `ctx.root`: a `[]interface` of resources (the root list) or the
`map[string][]interface` stored under "linked". -/
inductive DocVal
  | list (l : List Resource)
  | linked (m : SMap (List Resource))
  deriving DecidableEq

/-- The struct `marshalingContext` (lines 11-14). -/
structure marshalingContext where
  root : SMap DocVal
  rootName : String
  deriving DecidableEq

/-! ## The document builder -/

/-- The constructor `makeContext` (lines 16-22). -/
def makeContext (rootName : String) : marshalingContext :=
  { rootName := rootName, root := mapSet [] rootName (DocVal.list []) }

/-- addValue adds an object to the context's root (lines 146-176).  The two type
assertions of the Go code panic when the stored value has the other shape. -/
def addValue (ctx : marshalingContext) (name : String) (val : Resource) :
    Except Fault marshalingContext :=
  if name = ctx.rootName then
    match mapGet ctx.root name with
    | some (DocVal.list l) =>
      Except.ok { ctx with root := mapSet ctx.root name (DocVal.list (l ++ [val])) }
    | _ => Except.error (Fault.panic "interface conversion: not a []interface")
  else
    match mapGet ctx.root "linked" with
    | some (DocVal.list _) =>
      Except.error (Fault.panic "interface conversion: not a map[string][]interface")
    | some (DocVal.linked linkedMap) =>
      match mapGet linkedMap name with
      | some s =>
        if s.any (fun m => decide (val.id = m.id)) then Except.ok ctx
        else Except.ok { ctx with
          root := mapSet ctx.root "linked" (DocVal.linked (mapSet linkedMap name (s ++ [val]))) }
      | none => Except.ok { ctx with
          root := mapSet ctx.root "linked" (DocVal.linked (mapSet linkedMap name [val])) }
    | none => Except.ok { ctx with
          root := mapSet ctx.root "linked" (DocVal.linked (mapSet [] name [val])) }

/-! ## The struct visitor -/

/-- The function `strings.TrimSuffix`. -/
def TrimSuffix (s suffix : String) : String :=
  if suffix.toList.isSuffixOf s.toList then
    String.mk (s.toList.take (s.toList.length - suffix.toList.length))
  else s

/-- The loop of lines 104-110: convert every element with `toID`, stop at the first error. -/
def toIDs : List GoValue → List String → Except Fault (List String)
  | [], ids => Except.ok ids
  | e :: rest, ids =>
    match toID e with
    | Except.error err => Except.error err
    | Except.ok id => toIDs rest (ids ++ [id])

mutual
/-- marshalStruct marshals a struct and places it in the context's root (lines 66-142).
The flag `ro` is the read-only flag `reflect` puts on a value reached through an unexported
field; `Interface()` panics on such a value. -/
def marshalStruct (jsonify pluralize : String → String) (ctx : marshalingContext)
    (val : GoValue) (ro : Bool) : Except Fault marshalingContext :=
  match val with
  | GoValue.struct typeName fields =>
    match marshalFields jsonify pluralize ctx fields ro ⟨none, []⟩ [] with
    | Except.error err => Except.error err
    | Except.ok (ctx1, result, linksMap) =>
      addValue ctx1 (pluralize (jsonify typeName))
        (if linksMap.length > 0 then
          { result with fields := mapSet result.fields "links" (JVal.links linksMap) }
        else result)
  | _ => Except.error (Fault.panic "reflect: call of reflect.Value.NumField on non-struct Value")
/-- The loop over the fields of one struct (lines 71-134), from the fields not yet visited
and the current `ctx`, `result` and `linksMap`. -/
def marshalFields (jsonify pluralize : String → String) (ctx : marshalingContext)
    (fields : List (StructField GoValue)) (ro : Bool)
    (result : Resource) (linksMap : SMap LinkVal) :
    Except Fault (marshalingContext × Resource × SMap LinkVal) :=
  match fields with
  | [] => Except.ok (ctx, result, linksMap)
  | ⟨fname, pkg, field⟩ :: rest =>
    match field with
    | GoValue.slice elem elems =>
      if elem.kind = Kind.Struct then
        match marshalElems jsonify pluralize ctx elems (ro || decide (pkg ≠ "")) [] with
        | Except.error err => Except.error err
        | Except.ok (ctx1, ids) =>
          marshalFields jsonify pluralize ctx1 rest ro result
            (mapSet linksMap (jsonify fname) (LinkVal.many ids))
      else
        if (match mapGet linksMap (TrimSuffix (jsonify fname) "IDs") with
            | none => true
            | some (LinkVal.many l) => l.length == 0
            | some (LinkVal.one _) => false) then
          match toIDs elems [] with
          | Except.error err => Except.error err
          | Except.ok ids =>
            marshalFields jsonify pluralize ctx rest ro result
              (mapSet linksMap (TrimSuffix (jsonify fname) "IDs") (LinkVal.many ids))
        else marshalFields jsonify pluralize ctx rest ro result linksMap
    | field =>
      if jsonify fname = "id" then
        match toID field with
        | Except.error err => Except.error err
        | Except.ok id =>
          marshalFields jsonify pluralize ctx rest ro { result with id := some id } linksMap
      else if field.kind = Kind.Struct then
        match field.FieldByName "ID" with
        | some (some value) =>
          match toID value with
          | Except.error err => Except.error err
          | Except.ok id =>
            if id ≠ "0" then
              marshalFields jsonify pluralize ctx rest ro result
                (mapSet linksMap (jsonify fname) (LinkVal.one id))
            else marshalFields jsonify pluralize ctx rest ro result linksMap
        | _ => marshalFields jsonify pluralize ctx rest ro result linksMap
      else if ro || decide (pkg ≠ "") then
        Except.error (Fault.panic
          "reflect.Value.Interface: cannot return value obtained from unexported field or method")
      else
        marshalFields jsonify pluralize ctx rest ro
          { result with fields := mapSet result.fields (jsonify fname) (JVal.raw field) } linksMap
/-- The loop over the elements of a slice of structs (lines 81-95), from the elements not
yet visited, the current `ctx` and the `ids` collected so far. -/
def marshalElems (jsonify pluralize : String → String) (ctx : marshalingContext)
    (elems : List GoValue) (ro : Bool)
    (ids : List String) : Except Fault (marshalingContext × List String) :=
  match elems with
  | [] => Except.ok (ctx, ids)
  | e :: rest =>
    match e.FieldByName "ID" with
    | none =>
      Except.error (Fault.panic "reflect: call of reflect.Value.FieldByName on non-struct Value")
    | some none =>
      Except.error (Fault.panic "structs passed to Marshal need to contain ID fields")
    | some (some idVal) =>
      match toID idVal with
      | Except.error err => Except.error err
      | Except.ok idString =>
        match marshalStruct jsonify pluralize ctx e ro with
        | Except.error err => Except.error err
        | Except.ok ctx1 => marshalElems jsonify pluralize ctx1 rest ro (ids ++ [idString])
end

/-! ## The entry point -/

/-- The loop of lines 46-50: one `marshalStruct` per element of the slice passed in. -/
def marshalAll (jsonify pluralize : String → String) (ctx : marshalingContext) :
    List GoValue → Except Fault marshalingContext
  | [] => Except.ok ctx
  | e :: rest =>
    match marshalStruct jsonify pluralize ctx e false with
    | Except.error err => Except.error err
    | Except.ok ctx1 => marshalAll jsonify pluralize ctx1 rest

/-- The name `reflect.TypeOf(data).Name()` of a struct type; for a value of another kind
the name plays no part, since `marshalStruct` panics on such a value. -/
def GoValue.typeName : GoValue → String
  | GoValue.struct typeName _ => typeName
  | _ => ""

/-- Marshal takes a struct (or slice of structs) and marshals them to a json encodable
value (lines 25-63); `none` is the nil interface. -/
def Marshal (jsonify pluralize : String → String) (data : Option GoValue) :
    Except Fault (SMap DocVal) :=
  match data with
  | none => Except.error (Fault.panic "nil passed to Marshal")
  | some (GoValue.slice elem elems) =>
    if pluralize (jsonify elem.name) = "" then
      Except.error (Fault.panic "You passed a slice of interfaces to Marshal")
    else
      match marshalAll jsonify pluralize (makeContext (pluralize (jsonify elem.name))) elems with
      | Except.error err => Except.error err
      | Except.ok ctx => Except.ok ctx.root
  | some d =>
    match marshalStruct jsonify pluralize (makeContext (pluralize (jsonify d.typeName))) d false with
    | Except.error err => Except.error err
    | Except.ok ctx => Except.ok ctx.root

/-! ## Submission traces

The calls of `addValue` a visit makes, in the order it makes them, together with the way
the visit ends when every one of those calls returns.  `marshalStruct_eq_replay` below shows
that running `marshalStruct` is replaying its trace on the builder. -/

/-- A sequence of `addValue` calls applied to a builder, stopping at the first panic. -/
def addValues (ctx : marshalingContext) : List (String × Resource) → Except Fault marshalingContext
  | [] => Except.ok ctx
  | (name, r) :: rest =>
    match addValue ctx name r with
    | Except.error err => Except.error err
    | Except.ok ctx1 => addValues ctx1 rest

/-- Replay a trace on a builder: make its calls, then end the way the trace ends. -/
def replay {α : Type} (ctx : marshalingContext)
    (t : List (String × Resource) × Except Fault α) : Except Fault (marshalingContext × α) :=
  match addValues ctx t.1 with
  | Except.error err => Except.error err
  | Except.ok ctx1 =>
    match t.2 with
    | Except.error err => Except.error err
    | Except.ok a => Except.ok (ctx1, a)

/-- The resource a visit submits once all fields are read (lines 136-140). -/
def finishResource (result : Resource) (linksMap : SMap LinkVal) : Resource :=
  if linksMap.length > 0 then
    { result with fields := mapSet result.fields "links" (JVal.links linksMap) }
  else result

mutual
/-- The trace of `marshalStruct` on a value. -/
def traceStruct (jsonify pluralize : String → String) (val : GoValue) (ro : Bool) :
    List (String × Resource) × Except Fault Unit :=
  match val with
  | GoValue.struct typeName fields =>
    match traceFields jsonify pluralize fields ro ⟨none, []⟩ [] with
    | (subs, Except.error err) => (subs, Except.error err)
    | (subs, Except.ok (result, linksMap)) =>
      (subs ++ [(pluralize (jsonify typeName), finishResource result linksMap)], Except.ok ())
  | _ => ([], Except.error
      (Fault.panic "reflect: call of reflect.Value.NumField on non-struct Value"))
/-- The trace of `marshalFields`. -/
def traceFields (jsonify pluralize : String → String)
    (fields : List (StructField GoValue)) (ro : Bool)
    (result : Resource) (linksMap : SMap LinkVal) :
    List (String × Resource) × Except Fault (Resource × SMap LinkVal) :=
  match fields with
  | [] => ([], Except.ok (result, linksMap))
  | ⟨fname, pkg, field⟩ :: rest =>
    match field with
    | GoValue.slice elem elems =>
      if elem.kind = Kind.Struct then
        match traceElems jsonify pluralize elems (ro || decide (pkg ≠ "")) [] with
        | (subs, Except.error err) => (subs, Except.error err)
        | (subs, Except.ok ids) =>
          (subs ++ (traceFields jsonify pluralize rest ro result
              (mapSet linksMap (jsonify fname) (LinkVal.many ids))).1,
            (traceFields jsonify pluralize rest ro result
              (mapSet linksMap (jsonify fname) (LinkVal.many ids))).2)
      else
        if (match mapGet linksMap (TrimSuffix (jsonify fname) "IDs") with
            | none => true
            | some (LinkVal.many l) => l.length == 0
            | some (LinkVal.one _) => false) then
          match toIDs elems [] with
          | Except.error err => ([], Except.error err)
          | Except.ok ids =>
            traceFields jsonify pluralize rest ro result
              (mapSet linksMap (TrimSuffix (jsonify fname) "IDs") (LinkVal.many ids))
        else traceFields jsonify pluralize rest ro result linksMap
    | field =>
      if jsonify fname = "id" then
        match toID field with
        | Except.error err => ([], Except.error err)
        | Except.ok id =>
          traceFields jsonify pluralize rest ro { result with id := some id } linksMap
      else if field.kind = Kind.Struct then
        match field.FieldByName "ID" with
        | some (some value) =>
          match toID value with
          | Except.error err => ([], Except.error err)
          | Except.ok id =>
            if id ≠ "0" then
              traceFields jsonify pluralize rest ro result
                (mapSet linksMap (jsonify fname) (LinkVal.one id))
            else traceFields jsonify pluralize rest ro result linksMap
        | _ => traceFields jsonify pluralize rest ro result linksMap
      else if ro || decide (pkg ≠ "") then
        ([], Except.error (Fault.panic
          "reflect.Value.Interface: cannot return value obtained from unexported field or method"))
      else
        traceFields jsonify pluralize rest ro
          { result with fields := mapSet result.fields (jsonify fname) (JVal.raw field) } linksMap
/-- The trace of `marshalElems`. -/
def traceElems (jsonify pluralize : String → String)
    (elems : List GoValue) (ro : Bool)
    (ids : List String) : List (String × Resource) × Except Fault (List String) :=
  match elems with
  | [] => ([], Except.ok ids)
  | e :: rest =>
    match e.FieldByName "ID" with
    | none => ([], Except.error
        (Fault.panic "reflect: call of reflect.Value.FieldByName on non-struct Value"))
    | some none => ([], Except.error
        (Fault.panic "structs passed to Marshal need to contain ID fields"))
    | some (some idVal) =>
      match toID idVal with
      | Except.error err => ([], Except.error err)
      | Except.ok idString =>
        match traceStruct jsonify pluralize e ro with
        | (subs, Except.error err) => (subs, Except.error err)
        | (subs, Except.ok _) =>
          (subs ++ (traceElems jsonify pluralize rest ro (ids ++ [idString])).1,
            (traceElems jsonify pluralize rest ro (ids ++ [idString])).2)
end

/-- The trace of `marshalAll`. -/
def traceAll (jsonify pluralize : String → String) :
    List GoValue → List (String × Resource) × Except Fault Unit
  | [] => ([], Except.ok ())
  | e :: rest =>
    match traceStruct jsonify pluralize e false with
    | (subs, Except.error err) => (subs, Except.error err)
    | (subs, Except.ok _) =>
      (subs ++ (traceAll jsonify pluralize rest).1, (traceAll jsonify pluralize rest).2)

/-- The root name `Marshal` computes for its argument (lines 35 and 53). -/
def rootNameOf (jsonify pluralize : String → String) : GoValue → String
  | GoValue.slice elem _ => pluralize (jsonify elem.name)
  | d => pluralize (jsonify d.typeName)

/-- The trace of a call of `Marshal` that got past the checks of lines 26-40. -/
def traceMarshal (jsonify pluralize : String → String) :
    GoValue → List (String × Resource) × Except Fault Unit
  | GoValue.slice _ elems => traceAll jsonify pluralize elems
  | d => traceStruct jsonify pluralize d false

/-- The resources a call of `Marshal` submits to its builder, each with the name it is
submitted under, in submission order. -/
def submissions (jsonify pluralize : String → String) (data : GoValue) :
    List (String × Resource) :=
  (traceMarshal jsonify pluralize data).1

/-! ## Relations of one record -/

/-- The id string of an element of a collection of records (lines 82-87), when the element
has an ID field that toID converts. -/
def idOf (e : GoValue) : Option String :=
  match e.FieldByName "ID" with
  | some (some idVal) =>
    match toID idVal with
    | Except.ok idString => some idString
    | Except.error _ => none
  | _ => none

/-- The ordered ids of a collection of records. -/
def recordIDs (elems : List GoValue) : List String := elems.filterMap idOf

/-- The ordered ids of a collection of scalars: the elements toID converts. -/
def rawIDs (elems : List GoValue) : List String :=
  elems.filterMap (fun e =>
    match toID e with
    | Except.ok id => some id
    | Except.error _ => none)

/-- The key of `linksMap` a field can write to, if any: the transformed name for a
collection of records and for a single record, the transformed name without a trailing
"IDs" for a collection of scalars. -/
def linkKey (jsonify : String → String) (f : StructField GoValue) : Option String :=
  match f.value with
  | GoValue.slice elem _ =>
    if elem.kind = Kind.Struct then some (jsonify f.Name)
    else some (TrimSuffix (jsonify f.Name) "IDs")
  | v =>
    if jsonify f.Name = "id" then none
    else if v.kind = Kind.Struct then some (jsonify f.Name)
    else none

/-- The entry `links[k]` of a resource, `none` when the resource has no links or no such
entry. -/
def Resource.link (r : Resource) (k : String) : Option LinkVal :=
  match mapGet r.fields "links" with
  | some (JVal.links m) => mapGet m k
  | _ => none

/-- The resource `marshalStruct` submits for the record it is called on, when the visit of
its fields goes through. -/
def resourceOf (jsonify pluralize : String → String) (val : GoValue) (ro : Bool) :
    Except Fault Resource :=
  match val with
  | GoValue.struct _ fields =>
    match (traceFields jsonify pluralize fields ro ⟨none, []⟩ []).2 with
    | Except.error err => Except.error err
    | Except.ok (result, linksMap) => Except.ok (finishResource result linksMap)
  | _ => Except.error (Fault.panic "reflect: call of reflect.Value.NumField on non-struct Value")

/-! ## Sample naming helpers and sample records, used to evaluate the code -/

/-- A stand-in for `jsonify` on the names used by the sample records. -/
def sampleJsonify : String → String
  | "ID" => "id"
  | "Post" => "post"
  | "Comment" => "comment"
  | "Comments" => "comments"
  | "CommentsIDs" => "commentsIDs"
  | "Title" => "title"
  | "Author" => "author"
  | "Replies" => "replies"
  | "Body" => "body"
  | s => s

/-- A stand-in for `pluralize`: append an s. -/
def samplePluralize (s : String) : String := s ++ "s"

/-- A comment record with the given id and body. -/
def sampleComment (id : Int) (body : String) : GoValue :=
  GoValue.struct "Comment" [⟨"ID", "", GoValue.int IntKind.Int id⟩, ⟨"Body", "", GoValue.str body⟩]

/-- The resource `marshalStruct` builds from `sampleComment id body`. -/
def sampleCommentResource (id : String) (body : String) : Resource :=
  ⟨some id, [("body", JVal.raw (GoValue.str body))]⟩

/-- A post record with the given id and nested comments. -/
def samplePost (id : Int) (comments : List GoValue) : GoValue :=
  GoValue.struct "Post" [⟨"ID", "", GoValue.int IntKind.Int id⟩,
    ⟨"Comments", "", GoValue.slice ⟨Kind.Struct, "Comment"⟩ comments⟩]

/-- The resource `marshalStruct` builds from `samplePost id comments`, given the ids of the
comments. -/
def samplePostResource (id : String) (commentIDs : List String) : Resource :=
  ⟨some id, [("links", JVal.links [("comments", LinkVal.many commentIDs)])]⟩

/-- A post record with the given id that nests posts (records of its own type) as replies. -/
def sampleThread (id : Int) (replies : List GoValue) : GoValue :=
  GoValue.struct "Post" [⟨"ID", "", GoValue.int IntKind.Int id⟩,
    ⟨"Replies", "", GoValue.slice ⟨Kind.Struct, "Post"⟩ replies⟩]

/-- The resource `marshalStruct` builds from `sampleThread id replies`, given the ids of the
replies. -/
def sampleThreadResource (id : String) (replyIDs : List String) : Resource :=
  ⟨some id, [("links", JVal.links [("replies", LinkVal.many replyIDs)])]⟩

/-- A builder with root name "posts" whose linked map holds one comment with id "1". -/
def sampleBuilder : marshalingContext :=
  { rootName := "posts"
    root := [("posts", DocVal.list []),
      ("linked", DocVal.linked [("comments", [sampleCommentResource "1" "first"])])] }

/-- Four submissions: three comments, two of them with the id "1", and one post. -/
def sampleCalls : List (String × Resource) :=
  [("comments", sampleCommentResource "1" "first"), ("posts", samplePostResource "5" ["1", "1", "2"]),
    ("comments", sampleCommentResource "1" "again"), ("comments", sampleCommentResource "2" "second")]

/-- Two posts that between them nest three comments, all with the identifier 7. -/
def sampleSharedComments : GoValue :=
  GoValue.slice ⟨Kind.Struct, "Post"⟩
    [samplePost 1 [sampleComment 7 "a", sampleComment 7 "b"], samplePost 2 [sampleComment 7 "c"]]

/-- The builder the sample calls leave behind when made on a fresh builder for "posts". -/
def sampleBuilt : marshalingContext :=
  { rootName := "posts"
    root := [("posts", DocVal.list [samplePostResource "5" ["1", "1", "2"]]),
      ("linked", DocVal.linked [("comments",
        [sampleCommentResource "1" "first", sampleCommentResource "2" "second"])])] }

/-- The document `Marshal` returns for `sampleSharedComments`. -/
def sampleSharedDoc : SMap DocVal :=
  [("posts", DocVal.list [samplePostResource "1" ["7", "7"], samplePostResource "2" ["7"]]),
    ("linked", DocVal.linked [("comments", [sampleCommentResource "7" "a"])])]

/-- A post whose collection of comment records is declared before a parallel list of raw
comment ids. -/
def samplePostBoth (comments : List GoValue) (commentIDs : List Int) : GoValue :=
  GoValue.struct "Post" [⟨"ID", "", GoValue.int IntKind.Int 1⟩,
    ⟨"Comments", "", GoValue.slice ⟨Kind.Struct, "Comment"⟩ comments⟩,
    ⟨"CommentsIDs", "", GoValue.slice ⟨Kind.Int, "int"⟩
      (commentIDs.map (fun i => GoValue.int IntKind.Int i))⟩]

/-- Whether a field holds a collection of records (a slice whose element kind is Struct). -/
def hasNestedCollection (f : StructField GoValue) : Bool :=
  match f.value with
  | GoValue.slice elem _ => decide (elem.kind = Kind.Struct)
  | _ => false

/-- A record of the type named `name` none of whose fields holds a collection of records. -/
def plainRecord (name : String) : GoValue → Bool
  | GoValue.struct typeName fields =>
    decide (typeName = name) && fields.all (fun f => !hasNestedCollection f)
  | _ => false

/-- An argument of `Marshal` made of records without nested collections of records: one such
record, or a sequence of such records of the sequence's element type. -/
def plainInput : GoValue → Bool
  | GoValue.slice elem elems => elems.all (plainRecord elem.name)
  | GoValue.struct typeName fields => plainRecord typeName (GoValue.struct typeName fields)
  | _ => false

/-! ## Kinds named by the specification -/

/-- The kinds of the signed integer types. -/
def isSignedIntegerKind (k : Kind) : Bool :=
  k = Kind.Int || k = Kind.Int8 || k = Kind.Int16 || k = Kind.Int32 || k = Kind.Int64

/-- The kinds of the unsigned integer types of the Go language: `uint`, the four sized
ones, and `uintptr`. -/
def isUnsignedIntegerKind (k : Kind) : Bool :=
  k = Kind.Uint || k = Kind.Uint8 || k = Kind.Uint16 || k = Kind.Uint32 || k = Kind.Uint64
    || k = Kind.Uintptr

/-! ## What a builder holds, in terms of the calls made on it -/

/-- The resources among `calls` that were submitted under `name`, in submission order. -/
def subsUnder (name : String) (calls : List (String × Resource)) : List Resource :=
  (calls.filter (fun c => decide (c.1 = name))).map Prod.snd

/-- The sub-sequence of `l` from which every resource is removed whose id was already
carried by a resource of `earlier` or by a resource standing before it in `l`. -/
def firstSeenFrom : List Resource → List Resource → List Resource
  | _, [] => []
  | earlier, r :: rest =>
    if earlier.any (fun m => decide (r.id = m.id)) then firstSeenFrom (earlier ++ [r]) rest
    else r :: firstSeenFrom (earlier ++ [r]) rest

/-- The sub-sequence of `l` from which every resource whose id occurred earlier in `l` is
removed: the first resource seen for each id, in first-seen order. -/
def firstSeen (l : List Resource) : List Resource := firstSeenFrom [] l

/-- Whether some call was made under a name other than the root name. -/
def hasNonRoot (rootName : String) (calls : List (String × Resource)) : Bool :=
  calls.any (fun c => decide (c.1 ≠ rootName))

/-- The bucket the calls should leave under `name` in the linked map: none for the root name
and for a name nothing was submitted under, else the first-seen resources of that name. -/
def bucketSpec (rootName name : String) (calls : List (String × Resource)) :
    Option (List Resource) :=
  if name = rootName then none
  else if subsUnder name calls = [] then none
  else some (firstSeen (subsUnder name calls))

/-- The bucket of `name` in the linked map of a document, `none` when the document has no
linked map or the map has no such bucket. -/
def linkedBucket (doc : SMap DocVal) (name : String) : Option (List Resource) :=
  match mapGet doc "linked" with
  | some (DocVal.linked m) => mapGet m name
  | _ => none

/-- The keys of a map, in the order of its entries. -/
def mapKeys {β : Type} (m : SMap β) : List String := m.map Prod.fst

/-- The builder state `ctx` is what the calls `calls`, made on a fresh builder with root
name `rootName`, leave behind. -/
structure Built (rootName : String) (calls : List (String × Resource))
    (ctx : marshalingContext) : Prop where
  name_eq : ctx.rootName = rootName
  rootList : mapGet ctx.root rootName = some (DocVal.list (subsUnder rootName calls))
  keys : mapKeys ctx.root = if hasNonRoot rootName calls then [rootName, "linked"] else [rootName]
  sep : hasNonRoot rootName calls = true → rootName ≠ "linked"
  linked : hasNonRoot rootName calls = true →
    ∃ M, mapGet ctx.root "linked" = some (DocVal.linked M)
      ∧ ∀ name, mapGet M name = bucketSpec rootName name calls

/-- The bucket `s` after `addValue` has been given `r` for it (lines 160-171): unchanged when
an entry of `s` carries the id of `r`, else `r` appended. -/
def dedupAppend (s : List Resource) (r : Resource) : List Resource :=
  if s.any (fun m => decide (r.id = m.id)) then s else s ++ [r]

/-! ## Reading an id back -/

/-- The value of a decimal digit character. -/
def digitValue (c : Char) : Nat := c.toNat - 48

/-- Read a sequence of decimal digits, most significant first, onto `acc`. -/
def readDigits (acc : Nat) (cs : List Char) : Nat :=
  cs.foldl (fun a c => a * 10 + digitValue c) acc

/-- The function `strconv.ParseInt` with base 10, on the strings `FormatInt` and
`FormatUint` produce: an optional minus sign followed by decimal digits. -/
def ParseInt (s : String) : Int :=
  match s.data with
  | '-' :: cs => - (readDigits 0 cs : Int)
  | cs => (readDigits 0 cs : Int)

/-- The integer a value of a signed or unsigned integer kind denotes. -/
def GoValue.integer : GoValue → Option Int
  | GoValue.int _ v => some v
  | GoValue.uint _ v => some (v : Int)
  | _ => none

/-! ## One field at a time -/

/-- What the visit of one field that is no slice does to `result` and `linksMap` (lines
114-133); such a field makes no call of `addValue`. -/
def fieldStep (jsonify : String → String) (fname pkg : String) (field : GoValue) (ro : Bool)
    (result : Resource) (linksMap : SMap LinkVal) : Except Fault (Resource × SMap LinkVal) :=
  if jsonify fname = "id" then
    match toID field with
    | Except.error err => Except.error err
    | Except.ok id => Except.ok ({ result with id := some id }, linksMap)
  else if field.kind = Kind.Struct then
    match field.FieldByName "ID" with
    | some (some value) =>
      match toID value with
      | Except.error err => Except.error err
      | Except.ok id =>
        if id ≠ "0" then Except.ok (result, mapSet linksMap (jsonify fname) (LinkVal.one id))
        else Except.ok (result, linksMap)
    | _ => Except.ok (result, linksMap)
  else if ro || decide (pkg ≠ "") then
    Except.error (Fault.panic
      "reflect.Value.Interface: cannot return value obtained from unexported field or method")
  else
    Except.ok ({ result with fields := mapSet result.fields (jsonify fname) (JVal.raw field) },
      linksMap)

/-- The key of `result` under which a field is copied as an attribute, if it is: the
transformed name of a field that is no slice, no struct and not keyed "id". -/
def attrKey (jsonify : String → String) (f : StructField GoValue) : Option String :=
  if f.value.kind = Kind.Slice then none
  else if jsonify f.Name = "id" then none
  else if f.value.kind = Kind.Struct then none
  else some (jsonify f.Name)

/-- The attribute of a resource under the key `k`: the field value copied there, if any. -/
def Resource.attr (r : Resource) (k : String) : Option GoValue :=
  match mapGet r.fields k with
  | some (JVal.raw v) => some v
  | _ => none

/-- No entry of the map is a links map: every entry is a copied field value. -/
def rawOnly (m : SMap JVal) : Prop := ∀ k lm, mapGet m k ≠ some (JVal.links lm)

/-- A post with a single nested author record; the author carries the given identifier. -/
def samplePostWithAuthor (authorID : GoValue) : GoValue :=
  GoValue.struct "Post" [⟨"ID", "", GoValue.int IntKind.Int 1⟩,
    ⟨"Author", "", GoValue.struct "User" [⟨"ID", "", authorID⟩]⟩]

/-- A post with a nested record that has no ID field. -/
def samplePostWithMeta : GoValue :=
  GoValue.struct "Post" [⟨"ID", "", GoValue.int IntKind.Int 1⟩,
    ⟨"Meta", "", GoValue.struct "Meta" [⟨"Note", "", GoValue.str "n"⟩]⟩,
    ⟨"Title", "", GoValue.str "t"⟩]

/-- The call of `addValue` that the visit of a record ends with: the record's pluralized
transformed type name and its resource; `none` when the visit of its fields fails. -/
def ownSubmission (jsonify pluralize : String → String) (ro : Bool) (e : GoValue) :
    Option (String × Resource) :=
  match resourceOf jsonify pluralize e ro with
  | Except.ok r => some (pluralize (jsonify e.typeName), r)
  | Except.error _ => none

/-! ## Records reached through collections of records -/

mutual
/-- The elements of the collections of records that the visit of a value reaches, at any
depth, in visiting order. -/
def nestedStruct : GoValue → List GoValue
  | GoValue.struct _ fields => nestedFields fields
  | _ => []
/-- The elements of the collections of records reached from a list of fields. -/
def nestedFields : List (StructField GoValue) → List GoValue
  | [] => []
  | ⟨_, _, field⟩ :: rest =>
    match field with
    | GoValue.slice elem elems =>
      (if elem.kind = Kind.Struct then nestedElems elems else []) ++ nestedFields rest
    | _ => nestedFields rest
/-- The elements of a collection of records and the elements reached from them. -/
def nestedElems : List GoValue → List GoValue
  | [] => []
  | e :: rest => e :: (nestedStruct e ++ nestedElems rest)
end

/-- The elements of collections of records reached from the elements of a sequence passed
to `Marshal`. -/
def nestedAll : List GoValue → List GoValue
  | [] => []
  | e :: rest => nestedStruct e ++ nestedAll rest

/-- The elements of collections of records that a call of `Marshal` reaches. -/
def nestedOf : GoValue → List GoValue
  | GoValue.slice _ elems => nestedAll elems
  | d => nestedStruct d

/-- The record `e` has an id that toID converts and is submitted in `trace`. -/
def submittedIn (jsonify pluralize : String → String) (e : GoValue)
    (trace : List (String × Resource)) : Prop :=
  ∃ id own ro, idOf e = some id ∧ ownSubmission jsonify pluralize ro e = some own ∧ own ∈ trace

/-- The record declares a field named "ID" itself, and every field of it that is keyed
"id" holds the value that `FieldByName "ID"` returns. -/
def idKeyedByID (jsonify : String → String) (e : GoValue) : Prop :=
  ∀ typeName fields, e = GoValue.struct typeName fields →
    (∃ f ∈ fields, f.Name = "ID")
    ∧ ∀ f ∈ fields, jsonify f.Name = "id" → e.FieldByName "ID" = some (some f.value)

/-- A comment with two fields keyed "id": the field `ID` with the number 7 and, declared
after it, the unexported field `id` with the string "x". -/
def sampleCommentTwoIDs : GoValue :=
  GoValue.struct "Comment"
    [⟨"ID", "", GoValue.int IntKind.Int 7⟩, ⟨"id", "main", GoValue.str "x"⟩]

/-- A post that nests the comment with two fields keyed "id". -/
def samplePostTwoIDs : GoValue := samplePost 1 [sampleCommentTwoIDs]

/-- The collection of a document that holds the resources of the type named `name`: the
root list for the root name, else the linked bucket of that name. -/
def collectionOf (doc : SMap DocVal) (rootName name : String) : Option (List Resource) :=
  if name = rootName then
    match mapGet doc rootName with
    | some (DocVal.list l) => some l
    | _ => none
  else linkedBucket doc name

/-- A sequence of two posts: the first nests a comment with id 7, the second nests a comment
whose ID field is a floating-point number. -/
def sampleLateFailure : GoValue :=
  GoValue.slice ⟨Kind.Struct, "Post"⟩
    [samplePost 1 [sampleComment 7 "a"],
      samplePost 2 [GoValue.struct "Comment" [⟨"ID", "", GoValue.other OtherKind.Float64 "7.5"⟩]]]

/-- A post whose ID field is a floating-point number and whose nested tag records have no
ID field. -/
def sampleBadIDAndTags : GoValue :=
  GoValue.struct "Post" [⟨"ID", "", GoValue.other OtherKind.Float64 "1.5"⟩,
    ⟨"Tags", "", GoValue.slice ⟨Kind.Struct, "Tag"⟩
      [GoValue.struct "Tag" [⟨"Name", "", GoValue.str "x"⟩]]⟩]

/-- A post whose nested tag records have no ID field. -/
def samplePostWithTags : GoValue :=
  GoValue.struct "Post" [⟨"ID", "", GoValue.int IntKind.Int 1⟩,
    ⟨"Tags", "", GoValue.slice ⟨Kind.Struct, "Tag"⟩
      [GoValue.struct "Tag" [⟨"Name", "", GoValue.str "x"⟩]]⟩]

/-- An exported field that is copied as an attribute: no slice, no struct, not keyed "id". -/
def scalarAttribute (jsonify : String → String) (f : StructField GoValue) : Prop :=
  f.PkgPath = "" ∧ f.value.kind ≠ Kind.Slice ∧ f.value.kind ≠ Kind.Struct
    ∧ jsonify f.Name ≠ "id"

/-- The entry of `result` that copies an attribute field: its transformed name and its
value. -/
def attrEntry (jsonify : String → String) (f : StructField GoValue) : String × JVal :=
  (jsonify f.Name, JVal.raw f.value)

/-- A post with the identifier 42 and an unexported title. -/
def samplePostUnexported : GoValue :=
  GoValue.struct "Post" [⟨"ID", "", GoValue.int IntKind.Int 42⟩,
    ⟨"title", "main", GoValue.str "t"⟩]

/-! ## Finite maps -/

theorem mapGet_mapSet_same {β : Type} (m : SMap β) (k : String) (v : β) :
    mapGet (mapSet m k v) k = some v := by
  induction m with
  | nil => simp [mapSet, mapGet]
  | cons hd tl ih =>
    obtain ⟨k2, v2⟩ := hd
    by_cases h : k2 = k
    · simp [mapSet, mapGet, h]
    · simp [mapSet, mapGet, h, ih]

theorem mapGet_mapSet_ne {β : Type} (m : SMap β) (k j : String) (v : β) (h : k ≠ j) :
    mapGet (mapSet m k v) j = mapGet m j := by
  induction m with
  | nil => simp [mapSet, mapGet, h]
  | cons hd tl ih =>
    obtain ⟨k2, v2⟩ := hd
    by_cases h2 : k2 = k
    · subst h2
      simp [mapSet, mapGet, h]
    · by_cases h3 : k2 = j
      · subst h3
        simp [mapSet, mapGet, h2]
      · simp [mapSet, mapGet, h2, h3, ih]

/-! ## Running a visit is replaying its trace -/

theorem addValues_append (ctx : marshalingContext) (a b : List (String × Resource)) :
    addValues ctx (a ++ b)
      = match addValues ctx a with
        | Except.error err => Except.error err
        | Except.ok ctx1 => addValues ctx1 b := by
  induction a generalizing ctx with
  | nil => simp [addValues]
  | cons hd tl ih =>
    obtain ⟨name, r⟩ := hd
    simp only [List.cons_append, addValues]
    cases addValue ctx name r with
    | error e => rfl
    | ok c => exact ih c

theorem replay_append {α : Type} (ctx : marshalingContext) (a b : List (String × Resource))
    (out : Except Fault α) :
    replay ctx (a ++ b, out)
      = match addValues ctx a with
        | Except.error err => Except.error err
        | Except.ok ctx1 => replay ctx1 (b, out) := by
  simp only [replay, addValues_append]
  cases addValues ctx a with
  | error e => rfl
  | ok c => rfl

mutual
theorem marshalStruct_eq_replay (jsonify pluralize : String → String) :
    ∀ (val : GoValue) (ctx : marshalingContext) (ro : Bool),
      marshalStruct jsonify pluralize ctx val ro
        = match replay ctx (traceStruct jsonify pluralize val ro) with
          | Except.error err => Except.error err
          | Except.ok (ctx1, _) => Except.ok ctx1
  | GoValue.struct typeName fields, ctx, ro => by
    have ih := marshalFields_eq_replay jsonify pluralize fields ctx ro ⟨none, []⟩ []
    simp only [marshalStruct, traceStruct, ih]
    generalize traceFields jsonify pluralize fields ro ⟨none, []⟩ [] = t
    obtain ⟨subs, out⟩ := t
    cases out with
    | error e =>
      simp only [replay]
      cases addValues ctx subs <;> rfl
    | ok a =>
      obtain ⟨result, linksMap⟩ := a
      simp only [replay_append]
      simp only [replay]
      cases addValues ctx subs with
      | error e => rfl
      | ok c =>
        simp only [addValues, finishResource]
        cases addValue c (pluralize (jsonify typeName))
          (if linksMap.length > 0 then
            { result with fields := mapSet result.fields "links" (JVal.links linksMap) }
          else result) <;> rfl
  | GoValue.int _ _, ctx, ro => by simp [marshalStruct, traceStruct, replay, addValues]
  | GoValue.uint _ _, ctx, ro => by simp [marshalStruct, traceStruct, replay, addValues]
  | GoValue.str _, ctx, ro => by simp [marshalStruct, traceStruct, replay, addValues]
  | GoValue.other _ _, ctx, ro => by simp [marshalStruct, traceStruct, replay, addValues]
  | GoValue.slice _ _, ctx, ro => by simp [marshalStruct, traceStruct, replay, addValues]
theorem marshalFields_eq_replay (jsonify pluralize : String → String) :
    ∀ (fields : List (StructField GoValue)) (ctx : marshalingContext) (ro : Bool)
      (result : Resource) (linksMap : SMap LinkVal),
      marshalFields jsonify pluralize ctx fields ro result linksMap
        = replay ctx (traceFields jsonify pluralize fields ro result linksMap)
  | [], ctx, ro, result, linksMap => by
    simp [marshalFields, traceFields, replay, addValues]
  | ⟨fname, pkg, field⟩ :: rest, ctx, ro, result, linksMap => by
    have ihR := marshalFields_eq_replay jsonify pluralize rest
    cases field with
    | slice elem elems =>
      have ihE := marshalElems_eq_replay jsonify pluralize elems ctx (ro || decide (pkg ≠ "")) []
      simp only [marshalFields, traceFields]
      split
      · rw [ihE]
        generalize traceElems jsonify pluralize elems (ro || decide (pkg ≠ "")) [] = t
        obtain ⟨subs, out⟩ := t
        cases out with
        | error err =>
          simp only [replay]
          cases addValues ctx subs <;> rfl
        | ok ids =>
          simp only [replay_append]
          simp only [replay]
          cases addValues ctx subs with
          | error err => rfl
          | ok c => exact ihR c ro result _
      · split
        · cases toIDs elems [] with
          | error err => simp [replay, addValues]
          | ok ids => exact ihR ctx ro result _
        · exact ihR ctx ro result linksMap
    | int k v =>
      simp only [marshalFields, traceFields]
      repeat' split
      all_goals first | exact ihR _ _ _ _ | simp [replay, addValues]
    | uint k v =>
      simp only [marshalFields, traceFields]
      repeat' split
      all_goals first | exact ihR _ _ _ _ | simp [replay, addValues]
    | str s =>
      simp only [marshalFields, traceFields]
      repeat' split
      all_goals first | exact ihR _ _ _ _ | simp [replay, addValues]
    | other k p =>
      simp only [marshalFields, traceFields]
      repeat' split
      all_goals first | exact ihR _ _ _ _ | simp [replay, addValues]
    | struct tn fs =>
      simp only [marshalFields, traceFields]
      repeat' split
      all_goals first | exact ihR _ _ _ _ | simp [replay, addValues]
theorem marshalElems_eq_replay (jsonify pluralize : String → String) :
    ∀ (elems : List GoValue) (ctx : marshalingContext) (ro : Bool) (ids : List String),
      marshalElems jsonify pluralize ctx elems ro ids
        = replay ctx (traceElems jsonify pluralize elems ro ids)
  | [], ctx, ro, ids => by simp [marshalElems, traceElems, replay, addValues]
  | e :: rest, ctx, ro, ids => by
    have ih1 := marshalStruct_eq_replay jsonify pluralize e ctx ro
    have ih2 := marshalElems_eq_replay jsonify pluralize rest
    simp only [marshalElems, traceElems]
    cases e.FieldByName "ID" with
    | none => simp [replay, addValues]
    | some o =>
      cases o with
      | none => simp [replay, addValues]
      | some idVal =>
        simp only
        cases toID idVal with
        | error err => simp [replay, addValues]
        | ok idString =>
          simp only [ih1]
          generalize traceStruct jsonify pluralize e ro = t
          obtain ⟨subs, out⟩ := t
          cases out with
          | error err =>
            simp only [replay]
            cases addValues ctx subs <;> rfl
          | ok u =>
            simp only [replay_append]
            simp only [replay]
            cases addValues ctx subs with
            | error err => rfl
            | ok c => exact ih2 c ro (ids ++ [idString])
end

/-! ## The ID codec: theorems -/

theorem FormatUint_eq_toString (n : Nat) : FormatUint n 10 = toString n := rfl

theorem FormatInt_eq_toString (i : Int) : FormatInt i 10 = toString i := by
  cases i <;> rfl

/-- C1 (as amended): toID returns, without error, the decimal string of every signed integer
value of kind int, int8, int16, int32 or int64, the decimal string of every unsigned integer
value of kind uint, uint8, uint16, uint32 or uint64, and every string value unchanged;
integer 7 gives "7", unsigned 7 gives "7", the string "abc" gives "abc"; a value of kind
uintptr is answered with the error. -/
theorem toID_integer_and_string (k : IntKind) (i : Int) (n : Nat) (s : String) :
    toID (GoValue.int k i) = Except.ok (toString i)
    ∧ toID (GoValue.uint UintKind.Uint n) = Except.ok (toString n)
    ∧ toID (GoValue.uint UintKind.Uint8 n) = Except.ok (toString n)
    ∧ toID (GoValue.uint UintKind.Uint16 n) = Except.ok (toString n)
    ∧ toID (GoValue.uint UintKind.Uint32 n) = Except.ok (toString n)
    ∧ toID (GoValue.uint UintKind.Uint64 n) = Except.ok (toString n)
    ∧ toID (GoValue.str s) = Except.ok s
    ∧ toID (GoValue.uint UintKind.Uintptr n)
        = Except.error (Fault.error "need int or string as type of ID")
    ∧ toID (GoValue.int IntKind.Int 7) = Except.ok "7"
    ∧ toID (GoValue.int IntKind.Int64 (-12)) = Except.ok "-12"
    ∧ toID (GoValue.uint UintKind.Uint 7) = Except.ok "7"
    ∧ toID (GoValue.str "abc") = Except.ok "abc" := by
  refine ⟨?_, rfl, rfl, rfl, rfl, rfl, rfl, rfl, by decide, by decide, by decide, by decide⟩
  cases k <;> simp [toID, GoValue.kind, IntKind.toKind, GoValue.asInt, FormatInt_eq_toString]

/-- C1 (counterexample): the unsigned integer value `uintptr(7)` is not converted to "7":
toID returns an error for it. -/
theorem toID_uintptr_not_decimal :
    toID (GoValue.uint UintKind.Uintptr 7) ≠ Except.ok (toString 7)
    ∧ toID (GoValue.uint UintKind.Uintptr 7)
        = Except.error (Fault.error "need int or string as type of ID") := by
  decide

/-- C2 (as amended): toID returns an error exactly for the values whose kind is none of
Int, Int8, Int16, Int32, Int64, Uint, Uint8, Uint16, Uint32, Uint64 and String; the
unsigned kind Uintptr is among the rejected ones. -/
theorem toID_error_iff (v : GoValue) :
    (∃ e, toID v = Except.error e)
      ↔ (isSignedIntegerKind v.kind = false
          ∧ (isUnsignedIntegerKind v.kind = false ∨ v.kind = Kind.Uintptr)
          ∧ v.kind ≠ Kind.String) := by
  cases v with
  | int k i => cases k <;> simp [toID, GoValue.kind, IntKind.toKind, isSignedIntegerKind]
  | uint k n =>
    cases k <;>
      simp [toID, GoValue.kind, UintKind.toKind, isSignedIntegerKind, isUnsignedIntegerKind]
  | str s => simp [toID, GoValue.kind]
  | other k p =>
    cases k <;>
      simp [toID, GoValue.kind, OtherKind.toKind, isSignedIntegerKind, isUnsignedIntegerKind]
  | struct n fs => simp [toID, GoValue.kind, isSignedIntegerKind, isUnsignedIntegerKind]
  | slice t es => simp [toID, GoValue.kind, isSignedIntegerKind, isUnsignedIntegerKind]

/-- C2 (counterexample): `uintptr(7)` has an unsigned integer kind and toID fails on it, so
failing is not the same as having a kind that is neither integer nor string. -/
theorem toID_fails_on_unsigned_kind :
    ¬ ((∃ e, toID (GoValue.uint UintKind.Uintptr 7) = Except.error e)
        ↔ (isSignedIntegerKind (GoValue.uint UintKind.Uintptr 7).kind = false
            ∧ isUnsignedIntegerKind (GoValue.uint UintKind.Uintptr 7).kind = false
            ∧ (GoValue.uint UintKind.Uintptr 7).kind ≠ Kind.String)) := by
  intro h
  have h2 := h.mp ⟨_, rfl⟩
  exact absurd h2.2.1 (by decide)

/-! ## The document builder: theorems -/

/-- C3: addValue on a non-root name is idempotent.  When the linked bucket of that name
already holds an entry with the id of r, addValue(name, r) returns the builder state it was
given; consequently, after one successful submission of r a second submission of r leaves
the state as the first one made it. -/
theorem addValue_nonroot_idempotent (ctx : marshalingContext) (name : String) (r : Resource)
    (hname : name ≠ ctx.rootName) :
    (∀ linkedMap s, mapGet ctx.root "linked" = some (DocVal.linked linkedMap) →
        mapGet linkedMap name = some s → (∃ m ∈ s, m.id = r.id) →
        addValue ctx name r = Except.ok ctx)
    ∧ (∀ ctx1, addValue ctx name r = Except.ok ctx1 → addValue ctx1 name r = Except.ok ctx1) := by
  constructor
  · intro linkedMap s h1 h2 h3
    obtain ⟨m, hm, hid⟩ := h3
    have hany : s.any (fun m => decide (r.id = m.id)) = true :=
      List.any_eq_true.mpr ⟨m, hm, by simp [hid]⟩
    simp [addValue, hname, h1, h2, hany]
  · intro ctx1 h
    unfold addValue at h
    rw [if_neg hname] at h
    have key : ∀ (lm : SMap (List Resource)) (s : List Resource),
        addValue { ctx with root := mapSet ctx.root "linked" (DocVal.linked (mapSet lm name (s ++ [r]))) }
          name r
        = Except.ok { ctx with
            root := mapSet ctx.root "linked" (DocVal.linked (mapSet lm name (s ++ [r]))) } := by
      intro lm s
      simp [addValue, hname, mapGet_mapSet_same]
    cases hl : mapGet ctx.root "linked" with
    | none =>
      rw [hl] at h
      simp only [Except.ok.injEq] at h
      subst h
      exact key [] []
    | some d =>
      cases d with
      | list l => rw [hl] at h; simp at h
      | linked lm =>
        rw [hl] at h
        simp only at h
        cases hb : mapGet lm name with
        | none =>
          rw [hb] at h
          simp only [Except.ok.injEq] at h
          subst h
          exact key lm []
        | some s =>
          rw [hb] at h
          simp only at h
          by_cases hany : s.any (fun m => decide (r.id = m.id)) = true
          · rw [if_pos hany] at h
            simp only [Except.ok.injEq] at h
            subst h
            simp [addValue, hname, hl, hb, hany]
          · rw [if_neg hany] at h
            simp only [Except.ok.injEq] at h
            subst h
            exact key lm s

/-- C3 (witness): the sample builder already holds a comment with id "1" under "comments";
submitting another comment with that id returns the same builder. -/
theorem addValue_nonroot_idempotent_witness :
    "comments" ≠ sampleBuilder.rootName
    ∧ addValue sampleBuilder "comments" (sampleCommentResource "1" "again")
        = Except.ok sampleBuilder :=
  ⟨by decide,
    (addValue_nonroot_idempotent sampleBuilder "comments" (sampleCommentResource "1" "again")
      (by decide)).1 [("comments", [sampleCommentResource "1" "first"])]
      [sampleCommentResource "1" "first"] rfl rfl
      ⟨sampleCommentResource "1" "first", List.mem_singleton.mpr rfl, rfl⟩⟩

/-! ## The builder state after a sequence of calls -/

theorem mapSet_self {β : Type} (m : SMap β) (k : String) (v : β) (h : mapGet m k = some v) :
    mapSet m k v = m := by
  induction m with
  | nil => simp [mapGet] at h
  | cons hd tl ih =>
    obtain ⟨k2, v2⟩ := hd
    by_cases h2 : k2 = k
    · subst h2
      simp [mapGet] at h
      simp [mapSet, h]
    · simp [mapGet, h2] at h
      simp [mapSet, h2, ih h]

theorem mapKeys_mapSet {β : Type} (m : SMap β) (k : String) (v : β) :
    mapKeys (mapSet m k v) = if k ∈ mapKeys m then mapKeys m else mapKeys m ++ [k] := by
  induction m with
  | nil => simp [mapSet, mapKeys]
  | cons hd tl ih =>
    obtain ⟨k2, v2⟩ := hd
    by_cases h2 : k2 = k
    · subst h2
      simp [mapSet, mapKeys]
    · have h3 : ¬ k = k2 := fun e => h2 e.symm
      simp only [mapKeys] at ih
      simp only [mapSet, if_neg h2, mapKeys, List.map_cons, List.mem_cons, h3, false_or, ih]
      split <;> simp

theorem mapGet_eq_none_of_not_mem {β : Type} (m : SMap β) (k : String) (h : k ∉ mapKeys m) :
    mapGet m k = none := by
  induction m with
  | nil => rfl
  | cons hd tl ih =>
    obtain ⟨k2, v2⟩ := hd
    simp only [mapKeys, List.map_cons, List.mem_cons, not_or] at h
    have h2 : ¬ k2 = k := fun e => h.1 e.symm
    simp only [mapGet, if_neg h2]
    exact ih h.2

theorem subsUnder_append (name : String) (a b : List (String × Resource)) :
    subsUnder name (a ++ b) = subsUnder name a ++ subsUnder name b := by
  simp [subsUnder]

theorem subsUnder_singleton (name n : String) (r : Resource) :
    subsUnder name [(n, r)] = if n = name then [r] else [] := by
  by_cases h : n = name <;> simp [subsUnder, h]

theorem hasNonRoot_append (rn : String) (a b : List (String × Resource)) :
    hasNonRoot rn (a ++ b) = (hasNonRoot rn a || hasNonRoot rn b) := by
  simp [hasNonRoot]

theorem firstSeenFrom_snoc (earlier l : List Resource) (r : Resource) :
    firstSeenFrom earlier (l ++ [r])
      = firstSeenFrom earlier l
          ++ (if (earlier ++ l).any (fun m => decide (r.id = m.id)) then [] else [r]) := by
  induction l generalizing earlier with
  | nil =>
    simp only [List.nil_append, firstSeenFrom, List.append_nil]
  | cons hd tl ih =>
    have e : earlier ++ hd :: tl = (earlier ++ [hd]) ++ tl := by simp
    rw [List.cons_append, firstSeenFrom, firstSeenFrom, ih, e]
    split <;> simp

theorem mem_ids_firstSeenFrom (earlier l : List Resource) (x : Option String) :
    (x ∈ (firstSeenFrom earlier l).map Resource.id ∨ x ∈ earlier.map Resource.id)
      ↔ (x ∈ l.map Resource.id ∨ x ∈ earlier.map Resource.id) := by
  induction l generalizing earlier with
  | nil => simp [firstSeenFrom]
  | cons hd tl ih =>
    have ih2 := ih (earlier ++ [hd])
    simp only [List.map_append, List.mem_append, List.map_cons, List.map_nil,
      List.mem_singleton] at ih2
    simp only [firstSeenFrom]
    split
    · rename_i hany
      have hmem : hd.id ∈ earlier.map Resource.id := by
        obtain ⟨m, hm, hid⟩ := List.any_eq_true.mp hany
        simp only [decide_eq_true_eq] at hid
        exact List.mem_map.mpr ⟨m, hm, hid.symm⟩
      simp only [List.map_cons, List.mem_cons]
      constructor
      · intro h
        have := ih2.mp (h.elim Or.inl (fun h => Or.inr (Or.inl h)))
        tauto
      · intro h
        have h3 : x ∈ tl.map Resource.id ∨ x ∈ earlier.map Resource.id ∨ x = hd.id := by
          tauto
        have := ih2.mpr h3
        rcases this with h4 | h4 | h4
        · exact Or.inl h4
        · exact Or.inr h4
        · exact Or.inr (h4 ▸ hmem)
    · simp only [List.map_cons, List.mem_cons]
      constructor
      · intro h
        have h3 : x ∈ (firstSeenFrom (earlier ++ [hd]) tl).map Resource.id
            ∨ x ∈ earlier.map Resource.id ∨ x = hd.id := by tauto
        have := ih2.mp h3
        tauto
      · intro h
        have h3 : x ∈ tl.map Resource.id ∨ x ∈ earlier.map Resource.id ∨ x = hd.id := by
          tauto
        have := ih2.mpr h3
        tauto

theorem any_id_firstSeen (l : List Resource) (x : Option String) :
    (firstSeen l).any (fun m => decide (x = m.id)) = l.any (fun m => decide (x = m.id)) := by
  have h := mem_ids_firstSeenFrom [] l x
  simp only [List.map_nil, List.not_mem_nil, or_false, List.mem_map] at h
  rw [Bool.eq_iff_iff, List.any_eq_true, List.any_eq_true]
  simp only [decide_eq_true_eq]
  constructor
  · rintro ⟨m, hm, hid⟩
    obtain ⟨m2, hm2, hid2⟩ := h.mp ⟨m, hm, hid.symm⟩
    exact ⟨m2, hm2, hid2.symm⟩
  · rintro ⟨m, hm, hid⟩
    obtain ⟨m2, hm2, hid2⟩ := h.mpr ⟨m, hm, hid.symm⟩
    exact ⟨m2, hm2, hid2.symm⟩

theorem firstSeen_snoc (l : List Resource) (r : Resource) :
    firstSeen (l ++ [r])
      = if (firstSeen l).any (fun m => decide (r.id = m.id)) then firstSeen l
        else firstSeen l ++ [r] := by
  rw [any_id_firstSeen]
  simp only [firstSeen, firstSeenFrom_snoc, List.nil_append]
  split <;> simp

theorem firstSeen_nil : firstSeen [] = [] := rfl

theorem addValue_root_eq (ctx : marshalingContext) (r : Resource) (l : List Resource)
    (h : mapGet ctx.root ctx.rootName = some (DocVal.list l)) :
    addValue ctx ctx.rootName r
      = Except.ok { ctx with root := mapSet ctx.root ctx.rootName (DocVal.list (l ++ [r])) } := by
  simp [addValue, h]

theorem addValue_nonroot_eq (ctx : marshalingContext) (name : String) (r : Resource)
    (M : SMap (List Resource)) (hname : name ≠ ctx.rootName)
    (h : mapGet ctx.root "linked" = some (DocVal.linked M)
      ∨ (mapGet ctx.root "linked" = none ∧ M = [])) :
    addValue ctx name r
      = Except.ok { ctx with
          root := mapSet ctx.root "linked"
            (DocVal.linked (mapSet M name (dedupAppend ((mapGet M name).getD []) r))) } := by
  rcases h with h | ⟨h, hM⟩
  · cases hb : mapGet M name with
    | none => simp [addValue, hname, h, hb, dedupAppend]
    | some s =>
      by_cases hany : s.any (fun m => decide (r.id = m.id)) = true
      · have e1 : mapSet M name s = M := mapSet_self M name s hb
        have e2 : mapSet ctx.root "linked" (DocVal.linked M) = ctx.root := mapSet_self _ _ _ h
        simp [addValue, hname, h, hb, dedupAppend, hany, e1, e2]
      · simp [addValue, hname, h, hb, dedupAppend, hany]
  · subst hM
    simp [addValue, hname, h, mapGet, dedupAppend]

theorem subsUnder_eq_nil_of_allRoot (rn name : String) (calls : List (String × Resource))
    (h : hasNonRoot rn calls = false) (hname : name ≠ rn) : subsUnder name calls = [] := by
  induction calls with
  | nil => rfl
  | cons hd tl ih =>
    obtain ⟨n, r⟩ := hd
    simp only [hasNonRoot, List.any_cons, Bool.or_eq_false_iff, decide_eq_false_iff_not,
      Decidable.not_not] at h
    have h2 : hasNonRoot rn tl = false := h.2
    have h3 : ¬ n = name := fun e => hname (e ▸ h.1)
    have := ih h2
    simp only [subsUnder] at this
    simp [subsUnder, h3, this]

theorem bucketSpec_eq_none_of_allRoot (rn name : String) (calls : List (String × Resource))
    (h : hasNonRoot rn calls = false) : bucketSpec rn name calls = none := by
  unfold bucketSpec
  by_cases hname : name = rn
  · simp [hname]
  · simp [hname, subsUnder_eq_nil_of_allRoot rn name calls h hname]

theorem built_makeContext (rn : String) : Built rn [] (makeContext rn) where
  name_eq := rfl
  rootList := by simp [makeContext, mapSet, mapGet, subsUnder]
  keys := by simp [makeContext, mapSet, mapKeys, hasNonRoot]
  sep := by simp [hasNonRoot]
  linked := by simp [hasNonRoot]

theorem built_root_step (rn : String) (calls : List (String × Resource)) (ctx : marshalingContext)
    (r : Resource) (h : Built rn calls ctx) :
    addValue ctx rn r
        = Except.ok { ctx with
            root := mapSet ctx.root rn (DocVal.list (subsUnder rn calls ++ [r])) }
      ∧ Built rn (calls ++ [(rn, r)])
          { ctx with root := mapSet ctx.root rn (DocVal.list (subsUnder rn calls ++ [r])) } := by
  have hname := h.name_eq
  subst hname
  have hroot := h.rootList
  constructor
  · exact addValue_root_eq ctx r (subsUnder ctx.rootName calls) hroot
  · have hnr : hasNonRoot ctx.rootName (calls ++ [(ctx.rootName, r)])
        = hasNonRoot ctx.rootName calls := by
      simp [hasNonRoot]
    refine ⟨rfl, ?_, ?_, ?_, ?_⟩
    · simp [mapGet_mapSet_same, subsUnder_append, subsUnder_singleton]
    · rw [hnr, mapKeys_mapSet, h.keys]
      split <;> simp
    · rw [hnr]; exact h.sep
    · rw [hnr]
      intro hh
      obtain ⟨M, hM, hb⟩ := h.linked hh
      refine ⟨M, ?_, ?_⟩
      · show mapGet (mapSet ctx.root ctx.rootName _) "linked" = _
        rw [mapGet_mapSet_ne _ _ _ _ (h.sep hh)]
        exact hM
      · intro name
        rw [hb name]
        unfold bucketSpec
        by_cases hn : name = ctx.rootName
        · simp [hn]
        · have hn2 : ¬ ctx.rootName = name := fun e => hn e.symm
          simp [hn, subsUnder_append, subsUnder_singleton, hn2]

theorem built_nonroot_step (rn : String) (calls : List (String × Resource))
    (ctx : marshalingContext) (name : String) (r : Resource) (h : Built rn calls ctx)
    (hname : name ≠ rn) (hsep : rn ≠ "linked") :
    ∃ ctx1, addValue ctx name r = Except.ok ctx1 ∧ Built rn (calls ++ [(name, r)]) ctx1 := by
  have hrn := h.name_eq
  have hM : ∃ M, (mapGet ctx.root "linked" = some (DocVal.linked M)
      ∨ (mapGet ctx.root "linked" = none ∧ M = []))
      ∧ ∀ k, mapGet M k = bucketSpec rn k calls := by
    cases hh : hasNonRoot rn calls with
    | true =>
      obtain ⟨M, h1, h2⟩ := h.linked hh
      exact ⟨M, Or.inl h1, h2⟩
    | false =>
      refine ⟨[], Or.inr ⟨?_, rfl⟩, ?_⟩
      · apply mapGet_eq_none_of_not_mem
        rw [h.keys, hh]
        simp
        exact fun e => hsep e.symm
      · intro k
        rw [bucketSpec_eq_none_of_allRoot rn k calls hh]
        rfl
  obtain ⟨M, hlinked, hspec⟩ := hM
  have hadd := addValue_nonroot_eq ctx name r M (by rw [hrn]; exact hname) hlinked
  refine ⟨_, hadd, ?_⟩
  have hnr : hasNonRoot rn (calls ++ [(name, r)]) = true := by
    simp [hasNonRoot, hname]
  have hsep2 : ¬ "linked" = rn := fun e => hsep e.symm
  refine ⟨hrn, ?_, ?_, fun _ => hsep, ?_⟩
  · show mapGet (mapSet ctx.root "linked" _) rn = _
    rw [mapGet_mapSet_ne _ _ _ _ hsep2, h.rootList]
    simp [subsUnder_append, subsUnder_singleton, hname]
  · show mapKeys (mapSet ctx.root "linked" _) = _
    rw [hnr, mapKeys_mapSet, h.keys]
    cases hasNonRoot rn calls <;> simp [hsep2]
  · intro _
    refine ⟨_, mapGet_mapSet_same _ _ _, ?_⟩
    intro k
    by_cases hk : k = name
    · subst hk
      rw [mapGet_mapSet_same, hspec k]
      unfold bucketSpec
      simp only [if_neg hname, subsUnder_append, subsUnder_singleton, if_true]
      have e : (if subsUnder k calls = [] then none
          else some (firstSeen (subsUnder k calls))).getD [] = firstSeen (subsUnder k calls) := by
        by_cases hs : subsUnder k calls = []
        · simp [hs, firstSeen_nil]
        · simp [hs]
      rw [e, firstSeen_snoc]
      simp [dedupAppend]
    · have hk2 : name ≠ k := fun e => hk e.symm
      rw [mapGet_mapSet_ne _ _ _ _ hk2, hspec k]
      unfold bucketSpec
      simp [subsUnder_append, subsUnder_singleton, hk2]

theorem built_step (rn : String) (calls : List (String × Resource)) (ctx ctx1 : marshalingContext)
    (name : String) (r : Resource) (h : Built rn calls ctx)
    (hadd : addValue ctx name r = Except.ok ctx1) : Built rn (calls ++ [(name, r)]) ctx1 := by
  by_cases hname : name = rn
  · subst hname
    obtain ⟨h1, h2⟩ := built_root_step name calls ctx r h
    rw [h1] at hadd
    simp only [Except.ok.injEq] at hadd
    rw [← hadd]
    exact h2
  · have hsep : rn ≠ "linked" := by
      intro e
      have hroot := h.rootList
      rw [e] at hroot
      have hn : name ≠ ctx.rootName := by rw [h.name_eq]; exact hname
      simp [addValue, hn, hroot] at hadd
    obtain ⟨c, h1, h2⟩ := built_nonroot_step rn calls ctx name r h hname hsep
    rw [h1] at hadd
    simp only [Except.ok.injEq] at hadd
    rw [← hadd]
    exact h2

theorem addValues_built_from (rn : String) (calls pre : List (String × Resource))
    (ctx0 ctx : marshalingContext) (h : Built rn pre ctx0)
    (hrun : addValues ctx0 calls = Except.ok ctx) : Built rn (pre ++ calls) ctx := by
  induction calls generalizing pre ctx0 with
  | nil =>
    simp only [addValues, Except.ok.injEq] at hrun
    subst hrun
    simpa using h
  | cons hd tl ih =>
    obtain ⟨name, r⟩ := hd
    simp only [addValues] at hrun
    cases hadd : addValue ctx0 name r with
    | error e => rw [hadd] at hrun; simp at hrun
    | ok c =>
      rw [hadd] at hrun
      have := ih (pre ++ [(name, r)]) c (built_step rn pre ctx0 c name r h hadd) hrun
      simpa using this

theorem addValues_built (rn : String) (calls : List (String × Resource))
    (ctx : marshalingContext) (hrun : addValues (makeContext rn) calls = Except.ok ctx) :
    Built rn calls ctx := by
  have := addValues_built_from rn calls [] (makeContext rn) ctx (built_makeContext rn) hrun
  simpa using this

theorem addValues_total_from (rn : String) (calls pre : List (String × Resource))
    (ctx0 : marshalingContext) (h : Built rn pre ctx0)
    (hsep : rn ≠ "linked" ∨ hasNonRoot rn calls = false) :
    ∃ ctx, addValues ctx0 calls = Except.ok ctx := by
  induction calls generalizing pre ctx0 with
  | nil => exact ⟨ctx0, rfl⟩
  | cons hd tl ih =>
    obtain ⟨name, r⟩ := hd
    have hsep2 : rn ≠ "linked" ∨ hasNonRoot rn tl = false := by
      rcases hsep with h1 | h1
      · exact Or.inl h1
      · simp only [hasNonRoot, List.any_cons, Bool.or_eq_false_iff] at h1
        exact Or.inr h1.2
    by_cases hname : name = rn
    · subst hname
      obtain ⟨h1, h2⟩ := built_root_step name pre ctx0 r h
      obtain ⟨c, hc⟩ := ih (pre ++ [(name, r)]) _ h2 hsep2
      exact ⟨c, by simp only [addValues, h1]; exact hc⟩
    · have hs : rn ≠ "linked" := by
        rcases hsep with h1 | h1
        · exact h1
        · simp [hasNonRoot, hname] at h1
      obtain ⟨c1, h1, h2⟩ := built_nonroot_step rn pre ctx0 name r h hname hs
      obtain ⟨c, hc⟩ := ih (pre ++ [(name, r)]) c1 h2 hsep2
      exact ⟨c, by simp only [addValues, h1]; exact hc⟩

theorem marshalAll_eq_replay (jsonify pluralize : String → String) (elems : List GoValue)
    (ctx : marshalingContext) :
    marshalAll jsonify pluralize ctx elems
      = match replay ctx (traceAll jsonify pluralize elems) with
        | Except.error err => Except.error err
        | Except.ok (ctx1, _) => Except.ok ctx1 := by
  induction elems generalizing ctx with
  | nil => simp [marshalAll, traceAll, replay, addValues]
  | cons e rest ih =>
    simp only [marshalAll, traceAll, marshalStruct_eq_replay]
    generalize traceStruct jsonify pluralize e false = t
    obtain ⟨subs, out⟩ := t
    cases out with
    | error err =>
      simp only [replay]
      cases addValues ctx subs <;> rfl
    | ok u =>
      simp only [replay_append]
      simp only [replay]
      cases addValues ctx subs with
      | error err => rfl
      | ok c => exact ih c

theorem Marshal_ok_iff (jsonify pluralize : String → String) (data : GoValue)
    (doc : SMap DocVal) :
    Marshal jsonify pluralize (some data) = Except.ok doc
      ↔ ((∀ elem elems, data = GoValue.slice elem elems → pluralize (jsonify elem.name) ≠ "")
          ∧ (traceMarshal jsonify pluralize data).2 = Except.ok ()
          ∧ ∃ ctx, addValues (makeContext (rootNameOf jsonify pluralize data))
                (submissions jsonify pluralize data) = Except.ok ctx
              ∧ ctx.root = doc) := by
  have key : ∀ (rn : String) (t : List (String × Resource) × Except Fault Unit),
      ((match (match replay (makeContext rn) t with
          | Except.error err => Except.error err
          | Except.ok (ctx1, _) => Except.ok ctx1 : Except Fault marshalingContext) with
        | Except.error err => Except.error err
        | Except.ok ctx => Except.ok ctx.root) = Except.ok doc)
      ↔ (t.2 = Except.ok () ∧ ∃ ctx, addValues (makeContext rn) t.1 = Except.ok ctx
          ∧ ctx.root = doc) := by
    intro rn t
    obtain ⟨subs, out⟩ := t
    simp only [replay]
    cases addValues (makeContext rn) subs with
    | error e => simp
    | ok c =>
      cases out with
      | error e => simp
      | ok u => simp
  cases data with
  | slice elem elems =>
    simp only [Marshal, marshalAll_eq_replay, rootNameOf, submissions, traceMarshal]
    by_cases hrn : pluralize (jsonify elem.name) = ""
    · simp [hrn]
    · rw [if_neg hrn, key]
      simp [hrn]
  | int k v =>
    simp only [Marshal, marshalStruct_eq_replay, rootNameOf, submissions, traceMarshal, key]
    simp
  | uint k v =>
    simp only [Marshal, marshalStruct_eq_replay, rootNameOf, submissions, traceMarshal, key]
    simp
  | str s =>
    simp only [Marshal, marshalStruct_eq_replay, rootNameOf, submissions, traceMarshal, key]
    simp
  | other k p =>
    simp only [Marshal, marshalStruct_eq_replay, rootNameOf, submissions, traceMarshal, key]
    simp
  | struct tn fs =>
    simp only [Marshal, marshalStruct_eq_replay, rootNameOf, submissions, traceMarshal, key]
    simp

theorem Marshal_built (jsonify pluralize : String → String) (data : GoValue)
    (doc : SMap DocVal) (h : Marshal jsonify pluralize (some data) = Except.ok doc) :
    Built (rootNameOf jsonify pluralize data) (submissions jsonify pluralize data)
      ⟨doc, rootNameOf jsonify pluralize data⟩ := by
  obtain ⟨_, _, ctx, hrun, hdoc⟩ := (Marshal_ok_iff jsonify pluralize data doc).mp h
  have hb := addValues_built _ _ ctx hrun
  have hn := hb.name_eq
  obtain ⟨root, rootName⟩ := ctx
  simp only at hdoc hn
  subst hdoc
  subst hn
  exact hb

theorem mapGet_eq_none_iff {β : Type} (m : SMap β) (k : String) :
    mapGet m k = none ↔ k ∉ mapKeys m := by
  constructor
  · intro h hmem
    induction m with
    | nil => simp [mapKeys] at hmem
    | cons hd tl ih =>
      obtain ⟨k2, v2⟩ := hd
      by_cases h2 : k2 = k
      · simp [mapGet, h2] at h
      · simp only [mapGet, if_neg h2] at h
        simp only [mapKeys, List.map_cons, List.mem_cons] at hmem
        rcases hmem with e | e
        · exact h2 e.symm
        · exact ih h e
  · exact mapGet_eq_none_of_not_mem m k

theorem firstSeenFrom_subset (earlier l : List Resource) (r : Resource)
    (h : r ∈ firstSeenFrom earlier l) : r ∈ l := by
  induction l generalizing earlier with
  | nil => simp [firstSeenFrom] at h
  | cons hd tl ih =>
    simp only [firstSeenFrom] at h
    split at h
    · exact List.mem_cons_of_mem _ (ih _ h)
    · rcases List.mem_cons.mp h with e | e
      · exact e ▸ List.mem_cons_self _ _
      · exact List.mem_cons_of_mem _ (ih _ e)

theorem nodup_ids_firstSeenFrom (earlier l : List Resource) :
    ((firstSeenFrom earlier l).map Resource.id).Nodup
      ∧ ∀ x ∈ (firstSeenFrom earlier l).map Resource.id, x ∉ earlier.map Resource.id := by
  induction l generalizing earlier with
  | nil => simp [firstSeenFrom]
  | cons hd tl ih =>
    obtain ⟨ih1, ih2⟩ := ih (earlier ++ [hd])
    simp only [firstSeenFrom]
    split
    · refine ⟨ih1, ?_⟩
      intro x hx hmem
      exact ih2 x hx (by rw [List.map_append]; exact List.mem_append_left _ hmem)
    · rename_i hany
      have hnot : hd.id ∉ earlier.map Resource.id := by
        intro hmem
        apply hany
        obtain ⟨m, hm, hid⟩ := List.mem_map.mp hmem
        exact List.any_eq_true.mpr ⟨m, hm, by simp [hid]⟩
      refine ⟨?_, ?_⟩
      · rw [List.map_cons, List.nodup_cons]
        refine ⟨?_, ih1⟩
        intro hmem
        exact ih2 _ hmem (by simp)
      · intro x hx hmem
        rw [List.map_cons, List.mem_cons] at hx
        rcases hx with e | e
        · exact hnot (e ▸ hmem)
        · exact ih2 x e (by rw [List.map_append]; exact List.mem_append_left _ hmem)

theorem mem_subsUnder (name : String) (r : Resource) (calls : List (String × Resource)) :
    r ∈ subsUnder name calls ↔ (name, r) ∈ calls := by
  simp only [subsUnder, List.mem_map, List.mem_filter, decide_eq_true_eq]
  constructor
  · rintro ⟨⟨n, r2⟩, ⟨hm, hn⟩, hr⟩
    simp only at hn hr
    subst hn
    subst hr
    exact hm
  · intro h
    exact ⟨(name, r), ⟨h, rfl⟩, rfl⟩

theorem built_linkedBucket (rn : String) (calls : List (String × Resource))
    (ctx : marshalingContext) (h : Built rn calls ctx) (name : String) :
    linkedBucket ctx.root name = bucketSpec rn name calls := by
  cases hh : hasNonRoot rn calls with
  | true =>
    obtain ⟨M, hM, hb⟩ := h.linked hh
    simp [linkedBucket, hM, hb]
  | false =>
    rw [bucketSpec_eq_none_of_allRoot rn name calls hh]
    by_cases hsep : rn = "linked"
    · have := h.rootList
      rw [hsep] at this
      simp [linkedBucket, this]
    · have : mapGet ctx.root "linked" = none := by
        apply mapGet_eq_none_of_not_mem
        rw [h.keys, hh]
        simp
        exact fun e => hsep e.symm
      simp [linkedBucket, this]

theorem built_linked_key (rn : String) (calls : List (String × Resource))
    (ctx : marshalingContext) (h : Built rn calls ctx) (hsep : rn ≠ "linked") :
    "linked" ∈ mapKeys ctx.root ↔ hasNonRoot rn calls = true := by
  rw [h.keys]
  cases hasNonRoot rn calls
  · simp
    exact fun e => hsep e.symm
  · simp


/-! ## The document builder: what a sequence of calls leaves behind -/

/-- C4: for every sequence of addValue calls applied to a fresh builder (the calls all
return when the root name is not "linked"), the linked bucket of every non-root name is the
sub-sequence of the resources submitted under that name, in submission order, from which
every resource whose id was submitted earlier under that name is removed; a name nothing
was submitted under has no bucket. -/
theorem linked_bucket_is_first_seen (rootName : String) (calls : List (String × Resource)) :
    (rootName ≠ "linked" → ∃ ctx, addValues (makeContext rootName) calls = Except.ok ctx)
    ∧ ∀ ctx, addValues (makeContext rootName) calls = Except.ok ctx →
        ∀ name, name ≠ rootName →
          linkedBucket ctx.root name
            = if subsUnder name calls = [] then none
              else some (firstSeen (subsUnder name calls)) := by
  constructor
  · intro hsep
    exact addValues_total_from rootName calls [] (makeContext rootName)
      (built_makeContext rootName) (Or.inl hsep)
  · intro ctx hrun name hname
    rw [built_linkedBucket rootName calls ctx (addValues_built rootName calls ctx hrun) name]
    simp [bucketSpec, hname]

/-- C4 (witness): of the three comments of the sample calls the second repeats the id "1"
of the first with another body; the bucket keeps the first and the third. -/
theorem linked_bucket_is_first_seen_witness :
    "posts" ≠ "linked" ∧ "comments" ≠ "posts"
    ∧ ∃ ctx, addValues (makeContext "posts") sampleCalls = Except.ok ctx
        ∧ linkedBucket ctx.root "comments"
            = some [sampleCommentResource "1" "first", sampleCommentResource "2" "second"] :=
  ⟨by decide, by decide,
    ((linked_bucket_is_first_seen "posts" sampleCalls).1 (by decide)).elim
      (fun ctx h => ⟨ctx, h,
        ((linked_bucket_is_first_seen "posts" sampleCalls).2 ctx h "comments" (by decide)).trans
          (by decide)⟩)⟩

/-- C6: in every state reached from makeContext(rootName) by addValue calls, the root list
is exactly the resources submitted under the root name, in order; the linked map has no
bucket keyed by the root name; and every resource of a linked bucket was submitted under
the name of that bucket, a name different from the root name. -/
theorem root_and_linked_placement (rootName : String) (calls : List (String × Resource))
    (ctx : marshalingContext) (h : addValues (makeContext rootName) calls = Except.ok ctx) :
    ctx.rootName = rootName
    ∧ mapGet ctx.root rootName
        = some (DocVal.list ((calls.filter (fun c => decide (c.1 = rootName))).map Prod.snd))
    ∧ linkedBucket ctx.root rootName = none
    ∧ ∀ name bucket, linkedBucket ctx.root name = some bucket →
        name ≠ rootName ∧ ∀ r ∈ bucket, (name, r) ∈ calls := by
  have hb := addValues_built rootName calls ctx h
  refine ⟨hb.name_eq, hb.rootList, ?_, ?_⟩
  · rw [built_linkedBucket rootName calls ctx hb rootName]
    simp [bucketSpec]
  · intro name bucket hbucket
    rw [built_linkedBucket rootName calls ctx hb name] at hbucket
    unfold bucketSpec at hbucket
    by_cases hname : name = rootName
    · simp [hname] at hbucket
    · refine ⟨hname, ?_⟩
      rw [if_neg hname] at hbucket
      by_cases hs : subsUnder name calls = []
      · simp [hs] at hbucket
      · rw [if_neg hs] at hbucket
        simp only [Option.some.injEq] at hbucket
        subst hbucket
        intro r hr
        exact (mem_subsUnder name r calls).mp (firstSeenFrom_subset [] _ r hr)

/-- C6 (witness): the sample calls return the sample builder, whose root list holds the one
post submitted under "posts". -/
theorem root_and_linked_placement_witness :
    addValues (makeContext "posts") sampleCalls = Except.ok sampleBuilt
    ∧ mapGet sampleBuilt.root "posts" = some (DocVal.list [samplePostResource "5" ["1", "1", "2"]]) :=
  ⟨by decide, (root_and_linked_placement "posts" sampleCalls sampleBuilt (by decide)).2.1⟩

/-- C7: root entries are never deduplicated.  On a builder whose root list is l,
addValue(rootName, r) returns, and afterwards the root list is l with r appended (whether or
not l holds an entry with the id of r) and every other key of the document, the linked map
among them, is as before.  Hence after a successful Marshal the root list is the sequence of
all resources submitted under the root name, those of nested records of the root type
included, duplicates kept: a post that nests two posts with the same id 2 gives a root list
of three entries. -/
theorem root_entries_never_deduplicated (ctx : marshalingContext) (r : Resource)
    (l : List Resource) (h : mapGet ctx.root ctx.rootName = some (DocVal.list l))
    (jsonify pluralize : String → String) (data : GoValue) (doc : SMap DocVal)
    (hdoc : Marshal jsonify pluralize (some data) = Except.ok doc) :
    (∃ ctx1, addValue ctx ctx.rootName r = Except.ok ctx1
        ∧ ctx1.rootName = ctx.rootName
        ∧ mapGet ctx1.root ctx.rootName = some (DocVal.list (l ++ [r]))
        ∧ ∀ k, k ≠ ctx.rootName → mapGet ctx1.root k = mapGet ctx.root k)
    ∧ mapGet doc (rootNameOf jsonify pluralize data)
        = some (DocVal.list
            (subsUnder (rootNameOf jsonify pluralize data) (submissions jsonify pluralize data)))
    ∧ Marshal sampleJsonify samplePluralize
        (some (sampleThread 1 [sampleThread 2 [], sampleThread 2 []]))
        = Except.ok [("posts", DocVal.list [sampleThreadResource "2" [],
            sampleThreadResource "2" [], sampleThreadResource "1" ["2", "2"]])] := by
  refine ⟨⟨_, addValue_root_eq ctx r l h, rfl, mapGet_mapSet_same _ _ _, ?_⟩, ?_, by decide⟩
  · intro k hk
    exact mapGet_mapSet_ne _ _ _ _ (fun e => hk e.symm)
  · exact (Marshal_built jsonify pluralize data doc hdoc).rootList

/-- C7 (witness): a resource with id "5" is appended to a root list that already holds a
resource with id "5". -/
theorem root_entries_never_deduplicated_witness :
    ∃ ctx1, addValue ⟨[("posts", DocVal.list [samplePostResource "5" []])], "posts"⟩ "posts"
          (samplePostResource "5" ["1"]) = Except.ok ctx1
      ∧ mapGet ctx1.root "posts"
          = some (DocVal.list [samplePostResource "5" [], samplePostResource "5" ["1"]]) :=
  (root_entries_never_deduplicated ⟨[("posts", DocVal.list [samplePostResource "5" []])], "posts"⟩
      (samplePostResource "5" ["1"]) [samplePostResource "5" []] rfl
      sampleJsonify samplePluralize (sampleThread 1 [])
      [("posts", DocVal.list [sampleThreadResource "1" []])] (by decide)).1.elim
    (fun ctx1 h => ⟨ctx1, h.1, h.2.2.1⟩)

/-! ## Documents returned by Marshal -/

theorem traceFields_plain (jsonify pluralize : String → String)
    (fields : List (StructField GoValue)) (ro : Bool) (result : Resource)
    (linksMap : SMap LinkVal) (h : fields.all (fun f => !hasNestedCollection f) = true) :
    (traceFields jsonify pluralize fields ro result linksMap).1 = [] := by
  induction fields generalizing result linksMap with
  | nil => simp [traceFields]
  | cons hd tl ih =>
    obtain ⟨fname, pkg, field⟩ := hd
    simp only [List.all_cons, Bool.and_eq_true] at h
    obtain ⟨h1, h2⟩ := h
    cases field with
    | slice elem elems =>
      have hk : ¬ elem.kind = Kind.Struct := by simpa [hasNestedCollection] using h1
      simp only [traceFields, if_neg hk]
      repeat' split
      all_goals first | exact ih _ _ h2 | rfl
    | int k v =>
      simp only [traceFields]
      repeat' split
      all_goals first | exact ih _ _ h2 | rfl
    | uint k v =>
      simp only [traceFields]
      repeat' split
      all_goals first | exact ih _ _ h2 | rfl
    | str s =>
      simp only [traceFields]
      repeat' split
      all_goals first | exact ih _ _ h2 | rfl
    | other k p =>
      simp only [traceFields]
      repeat' split
      all_goals first | exact ih _ _ h2 | rfl
    | struct tn fs =>
      simp only [traceFields]
      repeat' split
      all_goals first | exact ih _ _ h2 | rfl

theorem traceStruct_plain (jsonify pluralize : String → String) (name : String)
    (val : GoValue) (ro : Bool) (h : plainRecord name val = true) :
    ∀ c ∈ (traceStruct jsonify pluralize val ro).1, c.1 = pluralize (jsonify name) := by
  cases val with
  | struct tn fs =>
    simp only [plainRecord, Bool.and_eq_true, decide_eq_true_eq] at h
    obtain ⟨h1, h2⟩ := h
    subst h1
    have h3 := traceFields_plain jsonify pluralize fs ro ⟨none, []⟩ [] h2
    simp only [traceStruct]
    generalize traceFields jsonify pluralize fs ro ⟨none, []⟩ [] = t at h3
    obtain ⟨subs, out⟩ := t
    simp only at h3
    subst h3
    cases out with
    | error e => simp
    | ok a => simp
  | int k v => simp [plainRecord] at h
  | uint k v => simp [plainRecord] at h
  | str s => simp [plainRecord] at h
  | other k p => simp [plainRecord] at h
  | slice t es => simp [plainRecord] at h

theorem traceAll_plain (jsonify pluralize : String → String) (name : String)
    (elems : List GoValue) (h : elems.all (plainRecord name) = true) :
    ∀ c ∈ (traceAll jsonify pluralize elems).1, c.1 = pluralize (jsonify name) := by
  induction elems with
  | nil => simp [traceAll]
  | cons e rest ih =>
    simp only [List.all_cons, Bool.and_eq_true] at h
    have h1 := traceStruct_plain jsonify pluralize name e false h.1
    have h2 := ih h.2
    simp only [traceAll]
    generalize traceStruct jsonify pluralize e false = t at h1
    obtain ⟨subs, out⟩ := t
    cases out with
    | error err => exact h1
    | ok u =>
      intro c hc
      rcases List.mem_append.mp hc with hc | hc
      · exact h1 c hc
      · exact h2 c hc

theorem submissions_plain (jsonify pluralize : String → String) (data : GoValue)
    (h : plainInput data = true) :
    ∀ c ∈ submissions jsonify pluralize data, c.1 = rootNameOf jsonify pluralize data := by
  cases data with
  | slice elem elems => exact traceAll_plain jsonify pluralize elem.name elems h
  | struct tn fs => exact traceStruct_plain jsonify pluralize tn _ false h
  | int k v => simp [plainInput] at h
  | uint k v => simp [plainInput] at h
  | str s => simp [plainInput] at h
  | other k p => simp [plainInput] at h

theorem hasNonRoot_eq_true_iff (rn : String) (calls : List (String × Resource)) :
    hasNonRoot rn calls = true ↔ ∃ c ∈ calls, c.1 ≠ rn := by
  simp [hasNonRoot]

theorem countP_id_eq_one (l : List Resource) (x : Option String)
    (hnd : (l.map Resource.id).Nodup) (hx : x ∈ l.map Resource.id) :
    l.countP (fun m => decide (m.id = x)) = 1 := by
  induction l with
  | nil => simp at hx
  | cons hd tl ih =>
    rw [List.map_cons, List.nodup_cons] at hnd
    rw [List.map_cons, List.mem_cons] at hx
    by_cases hid : hd.id = x
    · have hzero : tl.countP (fun m => decide (m.id = x)) = 0 := by
        rw [List.countP_eq_zero]
        intro m hm
        simp only [decide_eq_true_eq]
        intro e
        exact hnd.1 (hid ▸ e ▸ List.mem_map.mpr ⟨m, hm, rfl⟩)
      simp [List.countP_cons, hid, hzero]
    · have hx2 : x ∈ tl.map Resource.id := by
        rcases hx with e | e
        · exact absurd e.symm hid
        · exact e
      simp [List.countP_cons, hid, ih hnd.2 hx2]

/-- C5: in every document returned by Marshal no linked bucket holds two entries with the
same id; and whenever a resource is submitted under a non-root name, however many times and
by however many parents, the bucket of that name holds exactly one entry with its id.  Two
posts that nest three comments with the identifier 7 give one entry under
linked["comments"]. -/
theorem linked_bucket_ids_unique (jsonify pluralize : String → String) (data : GoValue)
    (doc : SMap DocVal) (h : Marshal jsonify pluralize (some data) = Except.ok doc) :
    (∀ name bucket, linkedBucket doc name = some bucket → (bucket.map Resource.id).Nodup)
    ∧ (∀ name r, name ≠ rootNameOf jsonify pluralize data →
        (name, r) ∈ submissions jsonify pluralize data →
        ∃ bucket, linkedBucket doc name = some bucket
          ∧ bucket.countP (fun m => decide (m.id = r.id)) = 1)
    ∧ Marshal sampleJsonify samplePluralize (some sampleSharedComments)
        = Except.ok sampleSharedDoc := by
  have hb := Marshal_built jsonify pluralize data doc h
  have hbucket := built_linkedBucket _ _ _ hb
  simp only at hbucket
  refine ⟨?_, ?_, by decide⟩
  · intro name bucket hn
    rw [hbucket name] at hn
    unfold bucketSpec at hn
    split at hn
    · simp at hn
    · split at hn
      · simp at hn
      · simp only [Option.some.injEq] at hn
        subst hn
        exact (nodup_ids_firstSeenFrom [] _).1
  · intro name r hname hmem
    have hsub : r ∈ subsUnder name (submissions jsonify pluralize data) :=
      (mem_subsUnder name r _).mpr hmem
    have hne : subsUnder name (submissions jsonify pluralize data) ≠ [] :=
      List.ne_nil_of_mem hsub
    refine ⟨firstSeen (subsUnder name (submissions jsonify pluralize data)), ?_, ?_⟩
    · rw [hbucket name]
      simp [bucketSpec, hname, hne]
    · apply countP_id_eq_one _ _ (nodup_ids_firstSeenFrom [] _).1
      have := (mem_ids_firstSeenFrom [] (subsUnder name (submissions jsonify pluralize data))
        r.id).mpr (Or.inl (List.mem_map.mpr ⟨r, hsub, rfl⟩))
      simpa [firstSeen] using this

/-- C5 (witness): in the document of the two sample posts the bucket "comments" exists and
its ids are pairwise different. -/
theorem linked_bucket_ids_unique_witness :
    Marshal sampleJsonify samplePluralize (some sampleSharedComments) = Except.ok sampleSharedDoc
    ∧ ([sampleCommentResource "7" "a"].map Resource.id).Nodup :=
  ⟨by decide,
    (linked_bucket_ids_unique sampleJsonify samplePluralize sampleSharedComments sampleSharedDoc
      (by decide)).1 "comments" [sampleCommentResource "7" "a"] (by decide)⟩

/-- C8: when the root name is not the key "linked" itself, the document returned by Marshal
has a "linked" key if and only if at least one resource was submitted under a name different
from the root name during the call.  If none was, the root name is the only key of the
document; that is the case for an empty sequence, whose document maps the root name to the
empty list, and for records none of whose fields holds a collection of records. -/
theorem linked_key_iff_nonroot_submission (jsonify pluralize : String → String)
    (data : GoValue) (doc : SMap DocVal)
    (h : Marshal jsonify pluralize (some data) = Except.ok doc)
    (hsep : rootNameOf jsonify pluralize data ≠ "linked") :
    ("linked" ∈ mapKeys doc
        ↔ ∃ c ∈ submissions jsonify pluralize data, c.1 ≠ rootNameOf jsonify pluralize data)
    ∧ ((∀ c ∈ submissions jsonify pluralize data, c.1 = rootNameOf jsonify pluralize data) →
        mapKeys doc = [rootNameOf jsonify pluralize data])
    ∧ (∀ elem, data = GoValue.slice elem [] →
        doc = [(rootNameOf jsonify pluralize data, DocVal.list [])])
    ∧ (plainInput data = true → mapKeys doc = [rootNameOf jsonify pluralize data]) := by
  have hb := Marshal_built jsonify pluralize data doc h
  have hkey := built_linked_key _ _ _ hb hsep
  simp only at hkey
  have hall : (∀ c ∈ submissions jsonify pluralize data,
      c.1 = rootNameOf jsonify pluralize data) →
      mapKeys doc = [rootNameOf jsonify pluralize data] := by
    intro hroot
    have hk := hb.keys
    simp only at hk
    have hn : hasNonRoot (rootNameOf jsonify pluralize data)
        (submissions jsonify pluralize data) = false := by
      rw [Bool.eq_false_iff]
      intro ht
      obtain ⟨c, hc, hne⟩ := (hasNonRoot_eq_true_iff _ _).mp ht
      exact hne (hroot c hc)
    rw [hk, hn]
    rfl
  refine ⟨?_, hall, ?_, ?_⟩
  · rw [hkey, hasNonRoot_eq_true_iff]
  · intro elem hdata
    subst hdata
    by_cases hrn : pluralize (jsonify elem.name) = ""
    · simp [Marshal, hrn] at h
    · simp only [Marshal, if_neg hrn, marshalAll, Except.ok.injEq] at h
      rw [← h]
      rfl
  · intro hplain
    exact hall (submissions_plain jsonify pluralize data hplain)

/-- C8 (witness): a single comment record has no nested collection; its document has the one
key "comments". -/
theorem linked_key_iff_nonroot_submission_witness :
    Marshal sampleJsonify samplePluralize (some (sampleComment 42 "hello"))
        = Except.ok [("comments", DocVal.list [sampleCommentResource "42" "hello"])]
    ∧ rootNameOf sampleJsonify samplePluralize (sampleComment 42 "hello") ≠ "linked"
    ∧ plainInput (sampleComment 42 "hello") = true
    ∧ mapKeys [("comments", DocVal.list [sampleCommentResource "42" "hello"])]
        = [rootNameOf sampleJsonify samplePluralize (sampleComment 42 "hello")] :=
  ⟨by decide, by decide, by decide,
    (linked_key_iff_nonroot_submission sampleJsonify samplePluralize (sampleComment 42 "hello")
      [("comments", DocVal.list [sampleCommentResource "42" "hello"])] (by decide)
      (by decide)).2.2.2 (by decide)⟩

/-! ## Relations of one record: theorems -/

theorem marshalStruct_ok (jsonify pluralize : String → String) (ctx ctx1 : marshalingContext)
    (val : GoValue) (ro : Bool)
    (h : marshalStruct jsonify pluralize ctx val ro = Except.ok ctx1) :
    (traceStruct jsonify pluralize val ro).2 = Except.ok ()
      ∧ addValues ctx (traceStruct jsonify pluralize val ro).1 = Except.ok ctx1 := by
  rw [marshalStruct_eq_replay] at h
  generalize traceStruct jsonify pluralize val ro = t at h
  obtain ⟨subs, out⟩ := t
  simp only [replay] at h
  cases hrun : addValues ctx subs with
  | error e => rw [hrun] at h; simp at h
  | ok c =>
    rw [hrun] at h
    cases out with
    | error e => simp at h
    | ok u =>
      simp only [Except.ok.injEq] at h
      subst h
      exact ⟨rfl, rfl⟩

theorem traceStruct_ok_resourceOf (jsonify pluralize : String → String) (typeName : String)
    (fields : List (StructField GoValue)) (ro : Bool)
    (h : (traceStruct jsonify pluralize (GoValue.struct typeName fields) ro).2 = Except.ok ()) :
    ∃ r subs, resourceOf jsonify pluralize (GoValue.struct typeName fields) ro = Except.ok r
      ∧ (traceStruct jsonify pluralize (GoValue.struct typeName fields) ro).1
          = subs ++ [(pluralize (jsonify typeName), r)] := by
  simp only [traceStruct, resourceOf] at h ⊢
  generalize traceFields jsonify pluralize fields ro ⟨none, []⟩ [] = t at h ⊢
  obtain ⟨subs, out⟩ := t
  cases out with
  | error e => simp at h
  | ok a =>
    obtain ⟨result, linksMap⟩ := a
    exact ⟨finishResource result linksMap, subs, rfl, rfl⟩

theorem traceFields_append (jsonify pluralize : String → String)
    (a b : List (StructField GoValue)) (ro : Bool) (result : Resource)
    (linksMap : SMap LinkVal) :
    (traceFields jsonify pluralize (a ++ b) ro result linksMap).2
      = match (traceFields jsonify pluralize a ro result linksMap).2 with
        | Except.error err => Except.error err
        | Except.ok (result1, linksMap1) =>
          (traceFields jsonify pluralize b ro result1 linksMap1).2 := by
  induction a generalizing result linksMap with
  | nil => simp [traceFields]
  | cons hd tl ih =>
    obtain ⟨fname, pkg, field⟩ := hd
    cases field with
    | slice elem elems =>
      simp only [List.cons_append, traceFields]
      split
      · generalize traceElems jsonify pluralize elems (ro || decide (pkg ≠ "")) [] = t
        obtain ⟨subs, out⟩ := t
        cases out with
        | error e => rfl
        | ok ids => exact ih _ _
      · split
        · cases toIDs elems [] with
          | error e => rfl
          | ok ids => exact ih _ _
        · exact ih _ _
    | int k v =>
      simp only [List.cons_append, traceFields]
      by_cases h1 : jsonify fname = "id"
      · simp only [if_pos h1]
        cases toID (GoValue.int k v) with
        | error e => rfl
        | ok id => exact ih _ _
      · simp only [if_neg h1]
        by_cases h2 : (GoValue.int k v).kind = Kind.Struct
        · simp only [if_pos h2]
          cases (GoValue.int k v).FieldByName "ID" with
          | none => exact ih _ _
          | some o =>
            cases o with
            | none => exact ih _ _
            | some value =>
              simp only
              cases toID value with
              | error e => rfl
              | ok id =>
                simp only
                by_cases h4 : id = "0"
                · simp only [h4, ne_eq, not_true_eq_false, if_false]
                  exact ih _ _
                · simp only [ne_eq, h4, not_false_eq_true, if_true]
                  exact ih _ _
        · simp only [if_neg h2]
          by_cases h3 : (ro || decide (pkg ≠ "")) = true
          · simp only [if_pos h3]
          · simp only [if_neg h3]
            exact ih _ _
    | uint k v =>
      simp only [List.cons_append, traceFields]
      by_cases h1 : jsonify fname = "id"
      · simp only [if_pos h1]
        cases toID (GoValue.uint k v) with
        | error e => rfl
        | ok id => exact ih _ _
      · simp only [if_neg h1]
        by_cases h2 : (GoValue.uint k v).kind = Kind.Struct
        · simp only [if_pos h2]
          cases (GoValue.uint k v).FieldByName "ID" with
          | none => exact ih _ _
          | some o =>
            cases o with
            | none => exact ih _ _
            | some value =>
              simp only
              cases toID value with
              | error e => rfl
              | ok id =>
                simp only
                by_cases h4 : id = "0"
                · simp only [h4, ne_eq, not_true_eq_false, if_false]
                  exact ih _ _
                · simp only [ne_eq, h4, not_false_eq_true, if_true]
                  exact ih _ _
        · simp only [if_neg h2]
          by_cases h3 : (ro || decide (pkg ≠ "")) = true
          · simp only [if_pos h3]
          · simp only [if_neg h3]
            exact ih _ _
    | str s =>
      simp only [List.cons_append, traceFields]
      by_cases h1 : jsonify fname = "id"
      · simp only [if_pos h1]
        cases toID (GoValue.str s) with
        | error e => rfl
        | ok id => exact ih _ _
      · simp only [if_neg h1]
        by_cases h2 : (GoValue.str s).kind = Kind.Struct
        · simp only [if_pos h2]
          cases (GoValue.str s).FieldByName "ID" with
          | none => exact ih _ _
          | some o =>
            cases o with
            | none => exact ih _ _
            | some value =>
              simp only
              cases toID value with
              | error e => rfl
              | ok id =>
                simp only
                by_cases h4 : id = "0"
                · simp only [h4, ne_eq, not_true_eq_false, if_false]
                  exact ih _ _
                · simp only [ne_eq, h4, not_false_eq_true, if_true]
                  exact ih _ _
        · simp only [if_neg h2]
          by_cases h3 : (ro || decide (pkg ≠ "")) = true
          · simp only [if_pos h3]
          · simp only [if_neg h3]
            exact ih _ _
    | other k p =>
      simp only [List.cons_append, traceFields]
      by_cases h1 : jsonify fname = "id"
      · simp only [if_pos h1]
        cases toID (GoValue.other k p) with
        | error e => rfl
        | ok id => exact ih _ _
      · simp only [if_neg h1]
        by_cases h2 : (GoValue.other k p).kind = Kind.Struct
        · simp only [if_pos h2]
          cases (GoValue.other k p).FieldByName "ID" with
          | none => exact ih _ _
          | some o =>
            cases o with
            | none => exact ih _ _
            | some value =>
              simp only
              cases toID value with
              | error e => rfl
              | ok id =>
                simp only
                by_cases h4 : id = "0"
                · simp only [h4, ne_eq, not_true_eq_false, if_false]
                  exact ih _ _
                · simp only [ne_eq, h4, not_false_eq_true, if_true]
                  exact ih _ _
        · simp only [if_neg h2]
          by_cases h3 : (ro || decide (pkg ≠ "")) = true
          · simp only [if_pos h3]
          · simp only [if_neg h3]
            exact ih _ _
    | struct tn fs =>
      simp only [List.cons_append, traceFields]
      by_cases h1 : jsonify fname = "id"
      · simp only [if_pos h1]
        cases toID (GoValue.struct tn fs) with
        | error e => rfl
        | ok id => exact ih _ _
      · simp only [if_neg h1]
        by_cases h2 : (GoValue.struct tn fs).kind = Kind.Struct
        · simp only [if_pos h2]
          cases (GoValue.struct tn fs).FieldByName "ID" with
          | none => exact ih _ _
          | some o =>
            cases o with
            | none => exact ih _ _
            | some value =>
              simp only
              cases toID value with
              | error e => rfl
              | ok id =>
                simp only
                by_cases h4 : id = "0"
                · simp only [h4, ne_eq, not_true_eq_false, if_false]
                  exact ih _ _
                · simp only [ne_eq, h4, not_false_eq_true, if_true]
                  exact ih _ _
        · simp only [if_neg h2]
          by_cases h3 : (ro || decide (pkg ≠ "")) = true
          · simp only [if_pos h3]
          · simp only [if_neg h3]
            exact ih _ _

theorem traceFields_append_ok (jsonify pluralize : String → String)
    (a b : List (StructField GoValue)) (ro : Bool) (result : Resource)
    (linksMap : SMap LinkVal) (out : Resource × SMap LinkVal)
    (h : (traceFields jsonify pluralize (a ++ b) ro result linksMap).2 = Except.ok out) :
    ∃ result1 linksMap1,
      (traceFields jsonify pluralize a ro result linksMap).2 = Except.ok (result1, linksMap1)
      ∧ (traceFields jsonify pluralize b ro result1 linksMap1).2 = Except.ok out := by
  rw [traceFields_append] at h
  cases h1 : (traceFields jsonify pluralize a ro result linksMap).2 with
  | error e => rw [h1] at h; simp at h
  | ok p =>
    obtain ⟨r1, l1⟩ := p
    rw [h1] at h
    exact ⟨r1, l1, rfl, h⟩

theorem traceFields_cons_ok (jsonify pluralize : String → String)
    (f : StructField GoValue) (b : List (StructField GoValue)) (ro : Bool) (result : Resource)
    (linksMap : SMap LinkVal) (out : Resource × SMap LinkVal)
    (h : (traceFields jsonify pluralize (f :: b) ro result linksMap).2 = Except.ok out) :
    ∃ result1 linksMap1,
      (traceFields jsonify pluralize [f] ro result linksMap).2 = Except.ok (result1, linksMap1)
      ∧ (traceFields jsonify pluralize b ro result1 linksMap1).2 = Except.ok out :=
  traceFields_append_ok jsonify pluralize [f] b ro result linksMap out h

theorem traceElems_ids (jsonify pluralize : String → String) (elems : List GoValue)
    (ro : Bool) (ids out : List String)
    (h : (traceElems jsonify pluralize elems ro ids).2 = Except.ok out) :
    out = ids ++ recordIDs elems ∧ (recordIDs elems).length = elems.length := by
  induction elems generalizing ids with
  | nil =>
    simp only [traceElems, Except.ok.injEq] at h
    simp [recordIDs, h]
  | cons e rest ih =>
    simp only [traceElems] at h
    cases hf : e.FieldByName "ID" with
    | none => rw [hf] at h; simp at h
    | some o =>
      cases o with
      | none => rw [hf] at h; simp at h
      | some idVal =>
        rw [hf] at h
        simp only at h
        cases ht : toID idVal with
        | error err => rw [ht] at h; simp at h
        | ok idString =>
          rw [ht] at h
          simp only at h
          have hid : idOf e = some idString := by simp [idOf, hf, ht]
          generalize traceStruct jsonify pluralize e ro = t at h
          obtain ⟨subs, o2⟩ := t
          cases o2 with
          | error err => simp at h
          | ok u =>
            simp only at h
            obtain ⟨h1, h2⟩ := ih _ h
            simp only [recordIDs] at h1 h2
            simp [recordIDs, List.filterMap_cons, hid, h1, h2]

theorem toIDs_ids (elems : List GoValue) (ids out : List String)
    (h : toIDs elems ids = Except.ok out) : out = ids ++ rawIDs elems := by
  induction elems generalizing ids with
  | nil =>
    simp only [toIDs, Except.ok.injEq] at h
    simp [rawIDs, h]
  | cons e rest ih =>
    simp only [toIDs] at h
    cases ht : toID e with
    | error err => rw [ht] at h; simp at h
    | ok id =>
      rw [ht] at h
      have := ih _ h
      simp only [rawIDs] at this
      simp [rawIDs, List.filterMap_cons, ht, this]

theorem traceFields_records_ok (jsonify pluralize : String → String) (sname spkg : String)
    (selem : GoType) (records : List GoValue) (ro : Bool) (result result1 : Resource)
    (linksMap linksMap1 : SMap LinkVal) (hs : selem.kind = Kind.Struct)
    (h : (traceFields jsonify pluralize [⟨sname, spkg, GoValue.slice selem records⟩] ro result
        linksMap).2 = Except.ok (result1, linksMap1)) :
    linksMap1 = mapSet linksMap (jsonify sname) (LinkVal.many (recordIDs records))
      ∧ (recordIDs records).length = records.length := by
  simp only [traceFields, if_pos hs] at h
  have key := traceElems_ids jsonify pluralize records (ro || decide (spkg ≠ "")) []
  generalize traceElems jsonify pluralize records (ro || decide (spkg ≠ "")) [] = t at h key
  obtain ⟨subs, out⟩ := t
  cases out with
  | error err => simp at h
  | ok ids =>
    obtain ⟨h1, h2⟩ := key ids rfl
    simp only [Except.ok.injEq, Prod.mk.injEq] at h
    rw [← h.2, h1]
    exact ⟨rfl, h2⟩

theorem traceFields_scalars_ok (jsonify pluralize : String → String) (rname rpkg : String)
    (relem : GoType) (scalars : List GoValue) (ro : Bool) (result result1 : Resource)
    (linksMap linksMap1 : SMap LinkVal) (hr : relem.kind ≠ Kind.Struct)
    (h : (traceFields jsonify pluralize [⟨rname, rpkg, GoValue.slice relem scalars⟩] ro result
        linksMap).2 = Except.ok (result1, linksMap1)) :
    linksMap1
      = if (match mapGet linksMap (TrimSuffix (jsonify rname) "IDs") with
            | none => true
            | some (LinkVal.many l) => l.length == 0
            | some (LinkVal.one _) => false) = true then
          mapSet linksMap (TrimSuffix (jsonify rname) "IDs") (LinkVal.many (rawIDs scalars))
        else linksMap := by
  simp only [traceFields, if_neg hr] at h
  split at h
  · rename_i hfree
    rw [if_pos hfree]
    cases ht : toIDs scalars [] with
    | error err => rw [ht] at h; simp at h
    | ok ids =>
      rw [ht] at h
      simp only [Except.ok.injEq, Prod.mk.injEq] at h
      have := toIDs_ids scalars [] ids ht
      simp only [List.nil_append] at this
      rw [← h.2, this]
  · rename_i hfree
    rw [if_neg hfree]
    simp only [Except.ok.injEq, Prod.mk.injEq] at h
    exact h.2.symm

theorem traceFields_single_frame (jsonify pluralize : String → String) (k : String)
    (f : StructField GoValue) (ro : Bool) (result result1 : Resource)
    (linksMap linksMap1 : SMap LinkVal) (hk : linkKey jsonify f ≠ some k)
    (h : (traceFields jsonify pluralize [f] ro result linksMap).2
      = Except.ok (result1, linksMap1)) :
    mapGet linksMap1 k = mapGet linksMap k := by
  obtain ⟨fname, pkg, field⟩ := f
  cases field with
  | slice elem elems =>
    simp only [linkKey] at hk
    by_cases hs : elem.kind = Kind.Struct
    · simp only [if_pos hs] at hk
      have hne : jsonify fname ≠ k := fun e => hk (by rw [e])
      rw [(traceFields_records_ok jsonify pluralize fname pkg elem elems ro result result1
        linksMap linksMap1 hs h).1]
      exact mapGet_mapSet_ne _ _ _ _ hne
    · simp only [if_neg hs] at hk
      have hne : TrimSuffix (jsonify fname) "IDs" ≠ k := fun e => hk (by rw [e])
      rw [traceFields_scalars_ok jsonify pluralize fname pkg elem elems ro result result1
        linksMap linksMap1 hs h]
      split
      · exact mapGet_mapSet_ne _ _ _ _ hne
      · rfl
  | int kd v =>
    simp only [traceFields] at h
    simp only [linkKey] at hk
    by_cases h1 : jsonify fname = "id"
    · simp only [if_pos h1] at h
      cases ht : toID (GoValue.int kd v) with
      | error e => rw [ht] at h; simp at h
      | ok id =>
        rw [ht] at h
        simp only [Except.ok.injEq, Prod.mk.injEq] at h
        rw [← h.2]
    · simp only [if_neg h1] at h hk
      by_cases h2 : (GoValue.int kd v).kind = Kind.Struct
      · simp only [if_pos h2] at h hk
        have hne : jsonify fname ≠ k := fun e => hk (by rw [e])
        cases hf : (GoValue.int kd v).FieldByName "ID" with
        | none =>
          rw [hf] at h
          simp only [Except.ok.injEq, Prod.mk.injEq] at h
          rw [← h.2]
        | some o =>
          cases o with
          | none =>
            rw [hf] at h
            simp only [Except.ok.injEq, Prod.mk.injEq] at h
            rw [← h.2]
          | some value =>
            rw [hf] at h
            simp only at h
            cases ht : toID value with
            | error e => rw [ht] at h; simp at h
            | ok id =>
              rw [ht] at h
              simp only at h
              by_cases h4 : id = "0"
              · simp only [h4, ne_eq, not_true_eq_false, if_false, Except.ok.injEq,
                  Prod.mk.injEq] at h
                rw [← h.2]
              · simp only [ne_eq, h4, not_false_eq_true, if_true, Except.ok.injEq,
                  Prod.mk.injEq] at h
                rw [← h.2]
                exact mapGet_mapSet_ne _ _ _ _ hne
      · simp only [if_neg h2] at h
        by_cases h3 : (ro || decide (pkg ≠ "")) = true
        · simp only [if_pos h3] at h
          simp at h
        · simp only [if_neg h3, Except.ok.injEq, Prod.mk.injEq] at h
          rw [← h.2]
  | uint kd v =>
    simp only [traceFields] at h
    simp only [linkKey] at hk
    by_cases h1 : jsonify fname = "id"
    · simp only [if_pos h1] at h
      cases ht : toID (GoValue.uint kd v) with
      | error e => rw [ht] at h; simp at h
      | ok id =>
        rw [ht] at h
        simp only [Except.ok.injEq, Prod.mk.injEq] at h
        rw [← h.2]
    · simp only [if_neg h1] at h hk
      by_cases h2 : (GoValue.uint kd v).kind = Kind.Struct
      · simp only [if_pos h2] at h hk
        have hne : jsonify fname ≠ k := fun e => hk (by rw [e])
        cases hf : (GoValue.uint kd v).FieldByName "ID" with
        | none =>
          rw [hf] at h
          simp only [Except.ok.injEq, Prod.mk.injEq] at h
          rw [← h.2]
        | some o =>
          cases o with
          | none =>
            rw [hf] at h
            simp only [Except.ok.injEq, Prod.mk.injEq] at h
            rw [← h.2]
          | some value =>
            rw [hf] at h
            simp only at h
            cases ht : toID value with
            | error e => rw [ht] at h; simp at h
            | ok id =>
              rw [ht] at h
              simp only at h
              by_cases h4 : id = "0"
              · simp only [h4, ne_eq, not_true_eq_false, if_false, Except.ok.injEq,
                  Prod.mk.injEq] at h
                rw [← h.2]
              · simp only [ne_eq, h4, not_false_eq_true, if_true, Except.ok.injEq,
                  Prod.mk.injEq] at h
                rw [← h.2]
                exact mapGet_mapSet_ne _ _ _ _ hne
      · simp only [if_neg h2] at h
        by_cases h3 : (ro || decide (pkg ≠ "")) = true
        · simp only [if_pos h3] at h
          simp at h
        · simp only [if_neg h3, Except.ok.injEq, Prod.mk.injEq] at h
          rw [← h.2]
  | str s =>
    simp only [traceFields] at h
    simp only [linkKey] at hk
    by_cases h1 : jsonify fname = "id"
    · simp only [if_pos h1] at h
      cases ht : toID (GoValue.str s) with
      | error e => rw [ht] at h; simp at h
      | ok id =>
        rw [ht] at h
        simp only [Except.ok.injEq, Prod.mk.injEq] at h
        rw [← h.2]
    · simp only [if_neg h1] at h hk
      by_cases h2 : (GoValue.str s).kind = Kind.Struct
      · simp only [if_pos h2] at h hk
        have hne : jsonify fname ≠ k := fun e => hk (by rw [e])
        cases hf : (GoValue.str s).FieldByName "ID" with
        | none =>
          rw [hf] at h
          simp only [Except.ok.injEq, Prod.mk.injEq] at h
          rw [← h.2]
        | some o =>
          cases o with
          | none =>
            rw [hf] at h
            simp only [Except.ok.injEq, Prod.mk.injEq] at h
            rw [← h.2]
          | some value =>
            rw [hf] at h
            simp only at h
            cases ht : toID value with
            | error e => rw [ht] at h; simp at h
            | ok id =>
              rw [ht] at h
              simp only at h
              by_cases h4 : id = "0"
              · simp only [h4, ne_eq, not_true_eq_false, if_false, Except.ok.injEq,
                  Prod.mk.injEq] at h
                rw [← h.2]
              · simp only [ne_eq, h4, not_false_eq_true, if_true, Except.ok.injEq,
                  Prod.mk.injEq] at h
                rw [← h.2]
                exact mapGet_mapSet_ne _ _ _ _ hne
      · simp only [if_neg h2] at h
        by_cases h3 : (ro || decide (pkg ≠ "")) = true
        · simp only [if_pos h3] at h
          simp at h
        · simp only [if_neg h3, Except.ok.injEq, Prod.mk.injEq] at h
          rw [← h.2]
  | other kd p =>
    simp only [traceFields] at h
    simp only [linkKey] at hk
    by_cases h1 : jsonify fname = "id"
    · simp only [if_pos h1] at h
      cases ht : toID (GoValue.other kd p) with
      | error e => rw [ht] at h; simp at h
      | ok id =>
        rw [ht] at h
        simp only [Except.ok.injEq, Prod.mk.injEq] at h
        rw [← h.2]
    · simp only [if_neg h1] at h hk
      by_cases h2 : (GoValue.other kd p).kind = Kind.Struct
      · simp only [if_pos h2] at h hk
        have hne : jsonify fname ≠ k := fun e => hk (by rw [e])
        cases hf : (GoValue.other kd p).FieldByName "ID" with
        | none =>
          rw [hf] at h
          simp only [Except.ok.injEq, Prod.mk.injEq] at h
          rw [← h.2]
        | some o =>
          cases o with
          | none =>
            rw [hf] at h
            simp only [Except.ok.injEq, Prod.mk.injEq] at h
            rw [← h.2]
          | some value =>
            rw [hf] at h
            simp only at h
            cases ht : toID value with
            | error e => rw [ht] at h; simp at h
            | ok id =>
              rw [ht] at h
              simp only at h
              by_cases h4 : id = "0"
              · simp only [h4, ne_eq, not_true_eq_false, if_false, Except.ok.injEq,
                  Prod.mk.injEq] at h
                rw [← h.2]
              · simp only [ne_eq, h4, not_false_eq_true, if_true, Except.ok.injEq,
                  Prod.mk.injEq] at h
                rw [← h.2]
                exact mapGet_mapSet_ne _ _ _ _ hne
      · simp only [if_neg h2] at h
        by_cases h3 : (ro || decide (pkg ≠ "")) = true
        · simp only [if_pos h3] at h
          simp at h
        · simp only [if_neg h3, Except.ok.injEq, Prod.mk.injEq] at h
          rw [← h.2]
  | struct tn fs =>
    simp only [traceFields] at h
    simp only [linkKey] at hk
    by_cases h1 : jsonify fname = "id"
    · simp only [if_pos h1] at h
      cases ht : toID (GoValue.struct tn fs) with
      | error e => rw [ht] at h; simp at h
      | ok id =>
        rw [ht] at h
        simp only [Except.ok.injEq, Prod.mk.injEq] at h
        rw [← h.2]
    · simp only [if_neg h1] at h hk
      by_cases h2 : (GoValue.struct tn fs).kind = Kind.Struct
      · simp only [if_pos h2] at h hk
        have hne : jsonify fname ≠ k := fun e => hk (by rw [e])
        cases hf : (GoValue.struct tn fs).FieldByName "ID" with
        | none =>
          rw [hf] at h
          simp only [Except.ok.injEq, Prod.mk.injEq] at h
          rw [← h.2]
        | some o =>
          cases o with
          | none =>
            rw [hf] at h
            simp only [Except.ok.injEq, Prod.mk.injEq] at h
            rw [← h.2]
          | some value =>
            rw [hf] at h
            simp only at h
            cases ht : toID value with
            | error e => rw [ht] at h; simp at h
            | ok id =>
              rw [ht] at h
              simp only at h
              by_cases h4 : id = "0"
              · simp only [h4, ne_eq, not_true_eq_false, if_false, Except.ok.injEq,
                  Prod.mk.injEq] at h
                rw [← h.2]
              · simp only [ne_eq, h4, not_false_eq_true, if_true, Except.ok.injEq,
                  Prod.mk.injEq] at h
                rw [← h.2]
                exact mapGet_mapSet_ne _ _ _ _ hne
      · simp only [if_neg h2] at h
        by_cases h3 : (ro || decide (pkg ≠ "")) = true
        · simp only [if_pos h3] at h
          simp at h
        · simp only [if_neg h3, Except.ok.injEq, Prod.mk.injEq] at h
          rw [← h.2]

theorem traceFields_frame (jsonify pluralize : String → String) (k : String)
    (fields : List (StructField GoValue)) (ro : Bool) (result : Resource)
    (linksMap : SMap LinkVal) (out : Resource × SMap LinkVal)
    (hothers : ∀ f ∈ fields, linkKey jsonify f ≠ some k)
    (h : (traceFields jsonify pluralize fields ro result linksMap).2 = Except.ok out) :
    mapGet out.2 k = mapGet linksMap k := by
  induction fields generalizing result linksMap with
  | nil =>
    simp only [traceFields, Except.ok.injEq] at h
    rw [← h]
  | cons f rest ih =>
    obtain ⟨r1, l1, h1, h2⟩ := traceFields_cons_ok jsonify pluralize f rest ro result linksMap out h
    rw [ih r1 l1 (fun g hg => hothers g (List.mem_cons_of_mem _ hg)) h2]
    exact traceFields_single_frame jsonify pluralize k f ro result r1 linksMap l1
      (hothers f (List.mem_cons_self _ _)) h1

theorem finishResource_link (result : Resource) (linksMap : SMap LinkVal) (k : String)
    (v : LinkVal) (h : mapGet linksMap k = some v) :
    (finishResource result linksMap).link k = some v := by
  have hlen : linksMap.length > 0 := by
    cases linksMap with
    | nil => simp [mapGet] at h
    | cons hd tl => simp
  simp [finishResource, hlen, Resource.link, mapGet_mapSet_same, h]

theorem marshalStruct_submits (jsonify pluralize : String → String)
    (ctx ctx1 : marshalingContext) (typeName : String) (fields : List (StructField GoValue))
    (ro : Bool)
    (h : marshalStruct jsonify pluralize ctx (GoValue.struct typeName fields) ro = Except.ok ctx1) :
    ∃ r subs, resourceOf jsonify pluralize (GoValue.struct typeName fields) ro = Except.ok r
      ∧ (traceStruct jsonify pluralize (GoValue.struct typeName fields) ro).1
          = subs ++ [(pluralize (jsonify typeName), r)]
      ∧ addValues ctx (subs ++ [(pluralize (jsonify typeName), r)]) = Except.ok ctx1 := by
  obtain ⟨h1, h2⟩ := marshalStruct_ok jsonify pluralize ctx ctx1 _ ro h
  obtain ⟨r, subs, h3, h4⟩ := traceStruct_ok_resourceOf jsonify pluralize typeName fields ro h1
  exact ⟨r, subs, h3, h4, h4 ▸ h2⟩

theorem resourceOf_ok (jsonify pluralize : String → String) (typeName : String)
    (fields : List (StructField GoValue)) (ro : Bool) (r : Resource)
    (h : resourceOf jsonify pluralize (GoValue.struct typeName fields) ro = Except.ok r) :
    ∃ result linksMap,
      (traceFields jsonify pluralize fields ro ⟨none, []⟩ []).2 = Except.ok (result, linksMap)
      ∧ r = finishResource result linksMap := by
  simp only [resourceOf] at h
  cases ht : (traceFields jsonify pluralize fields ro ⟨none, []⟩ []).2 with
  | error e => rw [ht] at h; simp at h
  | ok p =>
    obtain ⟨result, linksMap⟩ := p
    rw [ht] at h
    simp only [Except.ok.injEq] at h
    exact ⟨result, linksMap, rfl, h.symm⟩

theorem link_records_after_scalars (jsonify pluralize : String → String) (typeName k : String)
    (pre mid post : List (StructField GoValue)) (sname spkg rname rpkg : String)
    (selem relem : GoType) (records scalars : List GoValue) (ro : Bool) (r : Resource)
    (hs : selem.kind = Kind.Struct) (hsk : jsonify sname = k)
    (hothers : ∀ f ∈ pre ++ mid ++ post, linkKey jsonify f ≠ some k)
    (h : resourceOf jsonify pluralize (GoValue.struct typeName
        (pre ++ ⟨rname, rpkg, GoValue.slice relem scalars⟩
          :: (mid ++ ⟨sname, spkg, GoValue.slice selem records⟩ :: post))) ro = Except.ok r) :
    r.link k = some (LinkVal.many (recordIDs records)) := by
  obtain ⟨result, linksMap, ht, hr⟩ := resourceOf_ok jsonify pluralize typeName _ ro r h
  obtain ⟨r1, l1, _, ht⟩ := traceFields_append_ok jsonify pluralize pre _ ro _ _ _ ht
  obtain ⟨r2, l2, _, ht⟩ := traceFields_cons_ok jsonify pluralize _ _ ro _ _ _ ht
  obtain ⟨r3, l3, _, ht⟩ := traceFields_append_ok jsonify pluralize mid _ ro _ _ _ ht
  obtain ⟨r4, l4, hS, hpost⟩ := traceFields_cons_ok jsonify pluralize _ _ ro _ _ _ ht
  have e4 := (traceFields_records_ok jsonify pluralize sname spkg selem records ro r3 r4 l3 l4
    hs hS).1
  have hframe := traceFields_frame jsonify pluralize k post ro r4 l4 (result, linksMap)
    (fun f hf => hothers f (by simp [hf])) hpost
  simp only at hframe
  rw [hr]
  apply finishResource_link
  rw [hframe, e4, hsk]
  exact mapGet_mapSet_same _ _ _

theorem link_records_before_scalars (jsonify pluralize : String → String) (typeName k : String)
    (pre mid post : List (StructField GoValue)) (sname spkg rname rpkg : String)
    (selem relem : GoType) (records scalars : List GoValue) (ro : Bool) (r : Resource)
    (hs : selem.kind = Kind.Struct) (hr : relem.kind ≠ Kind.Struct)
    (hsk : jsonify sname = k) (hrk : TrimSuffix (jsonify rname) "IDs" = k)
    (hothers : ∀ f ∈ pre ++ mid ++ post, linkKey jsonify f ≠ some k)
    (h : resourceOf jsonify pluralize (GoValue.struct typeName
        (pre ++ ⟨sname, spkg, GoValue.slice selem records⟩
          :: (mid ++ ⟨rname, rpkg, GoValue.slice relem scalars⟩ :: post))) ro = Except.ok r) :
    r.link k
      = some (LinkVal.many (if records = [] then rawIDs scalars else recordIDs records)) := by
  obtain ⟨result, linksMap, ht, hres⟩ := resourceOf_ok jsonify pluralize typeName _ ro r h
  obtain ⟨r1, l1, _, ht⟩ := traceFields_append_ok jsonify pluralize pre _ ro _ _ _ ht
  obtain ⟨r2, l2, hS, ht⟩ := traceFields_cons_ok jsonify pluralize _ _ ro _ _ _ ht
  obtain ⟨r3, l3, hmid, ht⟩ := traceFields_append_ok jsonify pluralize mid _ ro _ _ _ ht
  obtain ⟨r4, l4, hR, hpost⟩ := traceFields_cons_ok jsonify pluralize _ _ ro _ _ _ ht
  obtain ⟨e2, hlen⟩ := traceFields_records_ok jsonify pluralize sname spkg selem records ro r1 r2
    l1 l2 hs hS
  have hmidf := traceFields_frame jsonify pluralize k mid ro r2 l2 (r3, l3)
    (fun f hf => hothers f (by simp [hf])) hmid
  simp only at hmidf
  have h3 : mapGet l3 k = some (LinkVal.many (recordIDs records)) := by
    rw [hmidf, e2, hsk]
    exact mapGet_mapSet_same _ _ _
  have e4 := traceFields_scalars_ok jsonify pluralize rname rpkg relem scalars ro r3 r4 l3 l4
    hr hR
  rw [hrk, h3] at e4
  have hframe := traceFields_frame jsonify pluralize k post ro r4 l4 (result, linksMap)
    (fun f hf => hothers f (by simp [hf])) hpost
  simp only at hframe
  rw [hres]
  apply finishResource_link
  rw [hframe, e4]
  by_cases hrec : records = []
  · subst hrec
    simp [recordIDs, mapGet_mapSet_same]
  · have hpos : (recordIDs records).length ≠ 0 := by
      rw [hlen]
      exact fun e => hrec (List.length_eq_zero.mp e)
    simp [hrec, hpos, h3]

/-- C10 (as amended): for a record with a field holding a collection of records whose
transformed name is k and a field holding a collection of scalars whose transformed name
without the trailing "IDs" is k (no other field writing links[k]), the submitted resource
has links[k] equal to the ordered ids of the record collection, for either declaration
order and every content of the two collections, with one exception: when the record
collection is declared first and is empty, links[k] holds the ids of the scalar collection. -/
theorem struct_links_take_precedence (jsonify pluralize : String → String)
    (typeName k : String) (pre mid post : List (StructField GoValue))
    (sname spkg rname rpkg : String) (selem relem : GoType) (records scalars : List GoValue)
    (ro : Bool) (hs : selem.kind = Kind.Struct) (hr : relem.kind ≠ Kind.Struct)
    (hsk : jsonify sname = k) (hrk : TrimSuffix (jsonify rname) "IDs" = k)
    (hothers : ∀ f ∈ pre ++ mid ++ post, linkKey jsonify f ≠ some k) :
    (∀ ctx ctx1, marshalStruct jsonify pluralize ctx (GoValue.struct typeName
          (pre ++ ⟨rname, rpkg, GoValue.slice relem scalars⟩
            :: (mid ++ ⟨sname, spkg, GoValue.slice selem records⟩ :: post))) ro = Except.ok ctx1 →
        ∃ r subs, addValues ctx (subs ++ [(pluralize (jsonify typeName), r)]) = Except.ok ctx1
          ∧ r.link k = some (LinkVal.many (recordIDs records)))
    ∧ (∀ ctx ctx1, marshalStruct jsonify pluralize ctx (GoValue.struct typeName
          (pre ++ ⟨sname, spkg, GoValue.slice selem records⟩
            :: (mid ++ ⟨rname, rpkg, GoValue.slice relem scalars⟩ :: post))) ro = Except.ok ctx1 →
        ∃ r subs, addValues ctx (subs ++ [(pluralize (jsonify typeName), r)]) = Except.ok ctx1
          ∧ r.link k = some (LinkVal.many
              (if records = [] then rawIDs scalars else recordIDs records))) := by
  constructor
  · intro ctx ctx1 h
    obtain ⟨r, subs, h1, _, h3⟩ := marshalStruct_submits jsonify pluralize ctx ctx1 _ _ ro h
    exact ⟨r, subs, h3, link_records_after_scalars jsonify pluralize typeName k pre mid post
      sname spkg rname rpkg selem relem records scalars ro r hs hsk hothers h1⟩
  · intro ctx ctx1 h
    obtain ⟨r, subs, h1, _, h3⟩ := marshalStruct_submits jsonify pluralize ctx ctx1 _ _ ro h
    exact ⟨r, subs, h3, link_records_before_scalars jsonify pluralize typeName k pre mid post
      sname spkg rname rpkg selem relem records scalars ro r hs hr hsk hrk hothers h1⟩

/-- C10 (witness): a post that declares one comment record, with id 7, before the raw ids
1 and 2 is submitted with links["comments"] holding the id of the record. -/
theorem struct_links_take_precedence_witness :
    (⟨Kind.Struct, "Comment"⟩ : GoType).kind = Kind.Struct
    ∧ (⟨Kind.Int, "int"⟩ : GoType).kind ≠ Kind.Struct
    ∧ sampleJsonify "Comments" = "comments"
    ∧ TrimSuffix (sampleJsonify "CommentsIDs") "IDs" = "comments"
    ∧ ∃ r subs, addValues (makeContext "posts") (subs ++ [(samplePluralize (sampleJsonify "Post"), r)])
          = Except.ok ⟨[("posts", DocVal.list [samplePostResource "1" ["7"]]),
              ("linked", DocVal.linked [("comments", [sampleCommentResource "7" "a"])])], "posts"⟩
        ∧ r.link "comments" = some (LinkVal.many
            (if [sampleComment 7 "a"] = [] then
              rawIDs [GoValue.int IntKind.Int 1, GoValue.int IntKind.Int 2]
            else recordIDs [sampleComment 7 "a"])) :=
  ⟨by decide, by decide, by decide, by decide,
    (struct_links_take_precedence sampleJsonify samplePluralize "Post" "comments"
      [⟨"ID", "", GoValue.int IntKind.Int 1⟩] [] [] "Comments" "" "CommentsIDs" ""
      ⟨Kind.Struct, "Comment"⟩ ⟨Kind.Int, "int"⟩ [sampleComment 7 "a"]
      [GoValue.int IntKind.Int 1, GoValue.int IntKind.Int 2] false (by decide) (by decide)
      (by decide) (by decide) (by decide)).2 (makeContext "posts") _ (by decide)⟩

/-- C10 (counterexample): a post that declares an empty collection of comment records
before the raw ids 1 and 2 is submitted with links["comments"] holding "1" and "2", not the
(empty) ids of the record collection. -/
theorem raw_ids_replace_empty_record_collection :
    Marshal sampleJsonify samplePluralize (some (samplePostBoth [] [1, 2]))
        = Except.ok [("posts", DocVal.list [samplePostResource "1" ["1", "2"]])]
    ∧ (samplePostResource "1" ["1", "2"]).link "comments" = some (LinkVal.many ["1", "2"])
    ∧ (samplePostResource "1" ["1", "2"]).link "comments"
        ≠ some (LinkVal.many (recordIDs ([] : List GoValue))) := by
  decide

/-- C9 (the code at the failing input): a sequence of one post that nests one post of its
own type gives a root list of two entries, the nested post first: the root list is not one
entry per input element in input order. -/
theorem root_list_of_self_nesting_sequence :
    Marshal sampleJsonify samplePluralize
        (some (GoValue.slice ⟨Kind.Struct, "Post"⟩ [sampleThread 1 [sampleThread 2 []]]))
      = Except.ok [("posts", DocVal.list
          [sampleThreadResource "2" [], sampleThreadResource "1" ["2"]])] := by
  decide

/-! ## The ID codec: ids are lossless -/

theorem digitValue_digitChar (d : Nat) (h : d < 10) : digitValue (Nat.digitChar d) = d := by
  interval_cases d <;> rfl

theorem digitChar_ne_minus (d : Nat) (h : d < 10) : Nat.digitChar d ≠ '-' := by
  interval_cases d <;> decide

theorem readDigits_toDigitsCore (fuel n : Nat) (rest : List Char) (h : n < fuel) :
    readDigits 0 (Nat.toDigitsCore 10 fuel n rest) = readDigits n rest := by
  induction fuel generalizing n rest with
  | zero => omega
  | succ fuel ih =>
    have hd : digitValue (Nat.digitChar (n % 10)) = n % 10 :=
      digitValue_digitChar _ (Nat.mod_lt _ (by decide))
    simp only [Nat.toDigitsCore]
    split
    · simp only [readDigits, List.foldl_cons, hd]
      congr 1
      omega
    · rw [ih (n / 10) _ (by omega)]
      simp only [readDigits, List.foldl_cons, hd]
      congr 1
      omega

theorem readDigits_toDigits (n : Nat) : readDigits 0 (Nat.toDigits 10 n) = n := by
  simp only [Nat.toDigits]
  rw [readDigits_toDigitsCore (n + 1) n [] (by omega)]
  rfl

theorem toDigitsCore_head (fuel n : Nat) (rest : List Char) (h : n < fuel) :
    ∃ d tl, d < 10 ∧ Nat.toDigitsCore 10 fuel n rest = Nat.digitChar d :: tl := by
  induction fuel generalizing n rest with
  | zero => omega
  | succ fuel ih =>
    simp only [Nat.toDigitsCore]
    split
    · exact ⟨n % 10, rest, Nat.mod_lt _ (by decide), rfl⟩
    · exact ih (n / 10) _ (by omega)

theorem ParseInt_FormatUint (n : Nat) : ParseInt (FormatUint n 10) = (n : Int) := by
  obtain ⟨d, tl, hd, he⟩ := toDigitsCore_head (n + 1) n [] (by omega)
  have hr := readDigits_toDigits n
  simp only [Nat.toDigits] at hr
  simp only [ParseInt, FormatUint, Nat.toDigits]
  rw [he] at hr ⊢
  split
  · rename_i cs heq
    simp only [List.cons.injEq] at heq
    exact absurd heq.1 (digitChar_ne_minus d hd)
  · rw [hr]

theorem ParseInt_FormatInt (i : Int) : ParseInt (FormatInt i 10) = i := by
  cases i with
  | ofNat n => exact ParseInt_FormatUint n
  | negSucc n =>
    have hr := readDigits_toDigits (n + 1)
    have hs : ("-" ++ FormatUint (n + 1) 10).data = '-' :: Nat.toDigits 10 (n + 1) := rfl
    simp only [FormatInt, ParseInt, hs, hr]
    rfl

theorem toID_integer_eq (v : GoValue) (i : Int) (s : String) (hv : v.integer = some i)
    (h : toID v = Except.ok s) : s = FormatInt i 10 := by
  cases v with
  | int k a =>
    simp only [GoValue.integer, Option.some.injEq] at hv
    subst hv
    cases k <;> simp [toID, GoValue.kind, IntKind.toKind, GoValue.asInt] at h <;> exact h.symm
  | uint k a =>
    simp only [GoValue.integer, Option.some.injEq] at hv
    subst hv
    cases k <;> simp [toID, GoValue.kind, UintKind.toKind, GoValue.asUint] at h <;>
      exact h.symm
  | str s2 => simp [GoValue.integer] at hv
  | other k p => simp [GoValue.integer] at hv
  | struct tn fs => simp [GoValue.integer] at hv
  | slice t es => simp [GoValue.integer] at hv

/-- C16: a resource id is derived losslessly from its source value.  Parsing the string toID
returns for an integer value gives back the integer; two integer values that toID maps to
the same string denote the same integer; and toID returns a string value unchanged. -/
theorem toID_lossless :
    (∀ v i s, GoValue.integer v = some i → toID v = Except.ok s → ParseInt s = i)
    ∧ (∀ v1 v2 i1 i2 s, GoValue.integer v1 = some i1 → GoValue.integer v2 = some i2 →
        toID v1 = Except.ok s → toID v2 = Except.ok s → i1 = i2)
    ∧ (∀ s, toID (GoValue.str s) = Except.ok s) := by
  have h1 : ∀ v i s, GoValue.integer v = some i → toID v = Except.ok s → ParseInt s = i := by
    intro v i s hv h
    rw [toID_integer_eq v i s hv h]
    exact ParseInt_FormatInt i
  refine ⟨h1, ?_, fun s => rfl⟩
  intro v1 v2 i1 i2 s hv1 hv2 ht1 ht2
  rw [← h1 v1 i1 s hv1 ht1, ← h1 v2 i2 s hv2 ht2]

/-- C16 (witness): the id "-12" of the int8 value -12 parses back to -12. -/
theorem toID_lossless_witness :
    GoValue.integer (GoValue.int IntKind.Int8 (-12)) = some (-12)
    ∧ toID (GoValue.int IntKind.Int8 (-12)) = Except.ok "-12"
    ∧ ParseInt "-12" = -12 :=
  ⟨rfl, by decide,
    toID_lossless.1 (GoValue.int IntKind.Int8 (-12)) (-12) "-12" rfl (by decide)⟩

/-! ## One field at a time: theorems -/

theorem traceFields_cons_nonslice (jsonify pluralize : String → String) (fname pkg : String)
    (field : GoValue) (rest : List (StructField GoValue)) (ro : Bool) (result : Resource)
    (linksMap : SMap LinkVal) (hk : field.kind ≠ Kind.Slice) :
    traceFields jsonify pluralize (⟨fname, pkg, field⟩ :: rest) ro result linksMap
      = match fieldStep jsonify fname pkg field ro result linksMap with
        | Except.error err => ([], Except.error err)
        | Except.ok (result1, linksMap1) => traceFields jsonify pluralize rest ro result1 linksMap1 := by
  cases field with
  | slice elem elems => exact absurd rfl hk
  | int kd v =>
    simp only [List.cons_append, traceFields, fieldStep]
    by_cases h1 : jsonify fname = "id"
    · simp only [if_pos h1]
      cases toID (GoValue.int kd v) with
      | error e => rfl
      | ok id => rfl
    · simp only [if_neg h1]
      by_cases h2 : (GoValue.int kd v).kind = Kind.Struct
      · simp only [if_pos h2]
        cases (GoValue.int kd v).FieldByName "ID" with
        | none => rfl
        | some o =>
          cases o with
          | none => rfl
          | some value =>
            simp only
            cases toID value with
            | error e => rfl
            | ok id =>
              simp only
              by_cases h4 : id = "0"
              · simp only [h4, ne_eq, not_true_eq_false, if_false]
              · simp only [ne_eq, h4, not_false_eq_true, if_true]
      · simp only [if_neg h2]
        by_cases h3 : (ro || decide (pkg ≠ "")) = true
        · simp only [if_pos h3]
        · simp only [if_neg h3]
  | uint kd v =>
    simp only [List.cons_append, traceFields, fieldStep]
    by_cases h1 : jsonify fname = "id"
    · simp only [if_pos h1]
      cases toID (GoValue.uint kd v) with
      | error e => rfl
      | ok id => rfl
    · simp only [if_neg h1]
      by_cases h2 : (GoValue.uint kd v).kind = Kind.Struct
      · simp only [if_pos h2]
        cases (GoValue.uint kd v).FieldByName "ID" with
        | none => rfl
        | some o =>
          cases o with
          | none => rfl
          | some value =>
            simp only
            cases toID value with
            | error e => rfl
            | ok id =>
              simp only
              by_cases h4 : id = "0"
              · simp only [h4, ne_eq, not_true_eq_false, if_false]
              · simp only [ne_eq, h4, not_false_eq_true, if_true]
      · simp only [if_neg h2]
        by_cases h3 : (ro || decide (pkg ≠ "")) = true
        · simp only [if_pos h3]
        · simp only [if_neg h3]
  | str s =>
    simp only [List.cons_append, traceFields, fieldStep]
    by_cases h1 : jsonify fname = "id"
    · simp only [if_pos h1]
      cases toID (GoValue.str s) with
      | error e => rfl
      | ok id => rfl
    · simp only [if_neg h1]
      by_cases h2 : (GoValue.str s).kind = Kind.Struct
      · simp only [if_pos h2]
        cases (GoValue.str s).FieldByName "ID" with
        | none => rfl
        | some o =>
          cases o with
          | none => rfl
          | some value =>
            simp only
            cases toID value with
            | error e => rfl
            | ok id =>
              simp only
              by_cases h4 : id = "0"
              · simp only [h4, ne_eq, not_true_eq_false, if_false]
              · simp only [ne_eq, h4, not_false_eq_true, if_true]
      · simp only [if_neg h2]
        by_cases h3 : (ro || decide (pkg ≠ "")) = true
        · simp only [if_pos h3]
        · simp only [if_neg h3]
  | other kd p =>
    simp only [List.cons_append, traceFields, fieldStep]
    by_cases h1 : jsonify fname = "id"
    · simp only [if_pos h1]
      cases toID (GoValue.other kd p) with
      | error e => rfl
      | ok id => rfl
    · simp only [if_neg h1]
      by_cases h2 : (GoValue.other kd p).kind = Kind.Struct
      · simp only [if_pos h2]
        cases (GoValue.other kd p).FieldByName "ID" with
        | none => rfl
        | some o =>
          cases o with
          | none => rfl
          | some value =>
            simp only
            cases toID value with
            | error e => rfl
            | ok id =>
              simp only
              by_cases h4 : id = "0"
              · simp only [h4, ne_eq, not_true_eq_false, if_false]
              · simp only [ne_eq, h4, not_false_eq_true, if_true]
      · simp only [if_neg h2]
        by_cases h3 : (ro || decide (pkg ≠ "")) = true
        · simp only [if_pos h3]
        · simp only [if_neg h3]
  | struct tn fs =>
    simp only [List.cons_append, traceFields, fieldStep]
    by_cases h1 : jsonify fname = "id"
    · simp only [if_pos h1]
      cases toID (GoValue.struct tn fs) with
      | error e => rfl
      | ok id => rfl
    · simp only [if_neg h1]
      by_cases h2 : (GoValue.struct tn fs).kind = Kind.Struct
      · simp only [if_pos h2]
        cases (GoValue.struct tn fs).FieldByName "ID" with
        | none => rfl
        | some o =>
          cases o with
          | none => rfl
          | some value =>
            simp only
            cases toID value with
            | error e => rfl
            | ok id =>
              simp only
              by_cases h4 : id = "0"
              · simp only [h4, ne_eq, not_true_eq_false, if_false]
              · simp only [ne_eq, h4, not_false_eq_true, if_true]
      · simp only [if_neg h2]
        by_cases h3 : (ro || decide (pkg ≠ "")) = true
        · simp only [if_pos h3]
        · simp only [if_neg h3]

theorem traceFields_cons_records (jsonify pluralize : String → String) (fname pkg : String)
    (elem : GoType) (elems : List GoValue) (rest : List (StructField GoValue)) (ro : Bool)
    (result : Resource) (linksMap : SMap LinkVal) (hs : elem.kind = Kind.Struct) :
    traceFields jsonify pluralize (⟨fname, pkg, GoValue.slice elem elems⟩ :: rest) ro result
        linksMap
      = match traceElems jsonify pluralize elems (ro || decide (pkg ≠ "")) [] with
        | (subs, Except.error err) => (subs, Except.error err)
        | (subs, Except.ok ids) =>
          (subs ++ (traceFields jsonify pluralize rest ro result
              (mapSet linksMap (jsonify fname) (LinkVal.many ids))).1,
            (traceFields jsonify pluralize rest ro result
              (mapSet linksMap (jsonify fname) (LinkVal.many ids))).2) := by
  simp only [traceFields, if_pos hs]

theorem traceFields_cons_scalars (jsonify pluralize : String → String) (fname pkg : String)
    (elem : GoType) (elems : List GoValue) (rest : List (StructField GoValue)) (ro : Bool)
    (result : Resource) (linksMap : SMap LinkVal) (hs : elem.kind ≠ Kind.Struct) :
    traceFields jsonify pluralize (⟨fname, pkg, GoValue.slice elem elems⟩ :: rest) ro result
        linksMap
      = if (match mapGet linksMap (TrimSuffix (jsonify fname) "IDs") with
            | none => true
            | some (LinkVal.many l) => l.length == 0
            | some (LinkVal.one _) => false) = true then
          match toIDs elems [] with
          | Except.error err => ([], Except.error err)
          | Except.ok ids =>
            traceFields jsonify pluralize rest ro result
              (mapSet linksMap (TrimSuffix (jsonify fname) "IDs") (LinkVal.many ids))
        else traceFields jsonify pluralize rest ro result linksMap := by
  simp only [traceFields, if_neg hs]

theorem kind_eq_slice (v : GoValue) (h : v.kind = Kind.Slice) :
    ∃ elem elems, v = GoValue.slice elem elems := by
  cases v with
  | slice elem elems => exact ⟨elem, elems, rfl⟩
  | int k a => cases k <;> simp [GoValue.kind, IntKind.toKind] at h
  | uint k a => cases k <;> simp [GoValue.kind, UintKind.toKind] at h
  | str s => simp [GoValue.kind] at h
  | other k p => cases k <;> simp [GoValue.kind, OtherKind.toKind] at h
  | struct tn fs => simp [GoValue.kind] at h

theorem traceFields_append_full (jsonify pluralize : String → String)
    (a b : List (StructField GoValue)) (ro : Bool) (result : Resource)
    (linksMap : SMap LinkVal) :
    traceFields jsonify pluralize (a ++ b) ro result linksMap
      = match traceFields jsonify pluralize a ro result linksMap with
        | (subs, Except.error err) => (subs, Except.error err)
        | (subs, Except.ok (result1, linksMap1)) =>
          (subs ++ (traceFields jsonify pluralize b ro result1 linksMap1).1,
            (traceFields jsonify pluralize b ro result1 linksMap1).2) := by
  induction a generalizing result linksMap with
  | nil => simp [traceFields]
  | cons f tl ih =>
    obtain ⟨fname, pkg, field⟩ := f
    by_cases hk : field.kind = Kind.Slice
    · obtain ⟨elem, elems, rfl⟩ := kind_eq_slice field hk
      by_cases hs : elem.kind = Kind.Struct
      · rw [List.cons_append, traceFields_cons_records _ _ _ _ _ _ _ _ _ _ hs,
          traceFields_cons_records _ _ _ _ _ _ _ _ _ _ hs]
        generalize traceElems jsonify pluralize elems (ro || decide (pkg ≠ "")) [] = t
        obtain ⟨subs, out⟩ := t
        cases out with
        | error e => rfl
        | ok ids =>
          simp only [ih]
          generalize traceFields jsonify pluralize tl ro result
            (mapSet linksMap (jsonify fname) (LinkVal.many ids)) = t2
          obtain ⟨s2, out2⟩ := t2
          cases out2 with
          | error e => rfl
          | ok p => simp
      · rw [List.cons_append, traceFields_cons_scalars _ _ _ _ _ _ _ _ _ _ hs,
          traceFields_cons_scalars _ _ _ _ _ _ _ _ _ _ hs]
        split
        · cases toIDs elems [] with
          | error e => rfl
          | ok ids => exact ih _ _
        · exact ih _ _
    · rw [List.cons_append, traceFields_cons_nonslice _ _ _ _ _ _ _ _ _ hk,
        traceFields_cons_nonslice _ _ _ _ _ _ _ _ _ hk]
      cases fieldStep jsonify fname pkg field ro result linksMap with
      | error e => rfl
      | ok p => exact ih _ _

theorem traceFields_invariant (jsonify pluralize : String → String)
    (P : Resource → SMap LinkVal → Prop) (fields : List (StructField GoValue)) (ro : Bool)
    (hNS : ∀ f ∈ fields, ∀ res lm r1 l1, P res lm → f.value.kind ≠ Kind.Slice →
      fieldStep jsonify f.Name f.PkgPath f.value ro res lm = Except.ok (r1, l1) → P r1 l1)
    (hrec : ∀ f ∈ fields, ∀ elem elems ids res lm, f.value = GoValue.slice elem elems →
      elem.kind = Kind.Struct → P res lm → P res (mapSet lm (jsonify f.Name) (LinkVal.many ids)))
    (hsc : ∀ f ∈ fields, ∀ elem elems ids res lm, f.value = GoValue.slice elem elems →
      elem.kind ≠ Kind.Struct → P res lm →
      P res (mapSet lm (TrimSuffix (jsonify f.Name) "IDs") (LinkVal.many ids)))
    (result : Resource) (linksMap : SMap LinkVal) (out : Resource × SMap LinkVal)
    (h0 : P result linksMap)
    (h : (traceFields jsonify pluralize fields ro result linksMap).2 = Except.ok out) :
    P out.1 out.2 := by
  induction fields generalizing result linksMap with
  | nil =>
    simp only [traceFields, Except.ok.injEq] at h
    rw [← h]
    exact h0
  | cons f tl ih =>
    have ihtl := ih (fun g hg => hNS g (List.mem_cons_of_mem _ hg))
      (fun g hg => hrec g (List.mem_cons_of_mem _ hg))
      (fun g hg => hsc g (List.mem_cons_of_mem _ hg))
    have hNSf := hNS f (List.mem_cons_self _ _)
    have hrecf := hrec f (List.mem_cons_self _ _)
    have hscf := hsc f (List.mem_cons_self _ _)
    obtain ⟨fname, pkg, field⟩ := f
    by_cases hk : field.kind = Kind.Slice
    · obtain ⟨elem, elems, rfl⟩ := kind_eq_slice field hk
      by_cases hs : elem.kind = Kind.Struct
      · rw [traceFields_cons_records _ _ _ _ _ _ _ _ _ _ hs] at h
        generalize traceElems jsonify pluralize elems (ro || decide (pkg ≠ "")) [] = t at h
        obtain ⟨subs, o⟩ := t
        cases o with
        | error e => simp at h
        | ok ids => exact ihtl _ _ (hrecf elem elems ids _ _ rfl hs h0) h
      · rw [traceFields_cons_scalars _ _ _ _ _ _ _ _ _ _ hs] at h
        split at h
        · cases ht : toIDs elems [] with
          | error e => rw [ht] at h; simp at h
          | ok ids =>
            rw [ht] at h
            exact ihtl _ _ (hscf elem elems ids _ _ rfl hs h0) h
        · exact ihtl _ _ h0 h
    · rw [traceFields_cons_nonslice _ _ _ _ _ _ _ _ _ hk] at h
      cases hst : fieldStep jsonify fname pkg field ro result linksMap with
      | error e => rw [hst] at h; simp at h
      | ok p =>
        obtain ⟨r1, l1⟩ := p
        rw [hst] at h
        exact ihtl _ _ (hNSf _ _ _ _ h0 hk hst) h

theorem fieldStep_ok_cases (jsonify : String → String) (fname pkg : String) (field : GoValue)
    (ro : Bool) (res r1 : Resource) (lm l1 : SMap LinkVal)
    (h : fieldStep jsonify fname pkg field ro res lm = Except.ok (r1, l1)) :
    (jsonify fname = "id" ∧ ∃ id, toID field = Except.ok id
        ∧ r1 = { res with id := some id } ∧ l1 = lm)
    ∨ (jsonify fname ≠ "id" ∧ field.kind = Kind.Struct ∧ r1 = res
        ∧ ((l1 = lm ∧ ∀ v id, field.FieldByName "ID" = some (some v) → toID v = Except.ok id →
              id = "0")
          ∨ ∃ v id, field.FieldByName "ID" = some (some v) ∧ toID v = Except.ok id ∧ id ≠ "0"
              ∧ l1 = mapSet lm (jsonify fname) (LinkVal.one id)))
    ∨ (jsonify fname ≠ "id" ∧ field.kind ≠ Kind.Struct ∧ (ro || decide (pkg ≠ "")) = false
        ∧ r1 = { res with fields := mapSet res.fields (jsonify fname) (JVal.raw field) }
        ∧ l1 = lm) := by
  unfold fieldStep at h
  by_cases h1 : jsonify fname = "id"
  · rw [if_pos h1] at h
    left
    cases ht : toID field with
    | error e => rw [ht] at h; simp at h
    | ok id =>
      rw [ht] at h
      simp only [Except.ok.injEq, Prod.mk.injEq] at h
      exact ⟨h1, id, rfl, h.1.symm, h.2.symm⟩
  · rw [if_neg h1] at h
    right
    by_cases h2 : field.kind = Kind.Struct
    · rw [if_pos h2] at h
      left
      refine ⟨h1, h2, ?_⟩
      cases hf : field.FieldByName "ID" with
      | none =>
        rw [hf] at h
        simp only [Except.ok.injEq, Prod.mk.injEq] at h
        exact ⟨h.1.symm, Or.inl ⟨h.2.symm, by simp⟩⟩
      | some o =>
        cases o with
        | none =>
          rw [hf] at h
          simp only [Except.ok.injEq, Prod.mk.injEq] at h
          exact ⟨h.1.symm, Or.inl ⟨h.2.symm, by simp⟩⟩
        | some value =>
          rw [hf] at h
          simp only at h
          cases ht : toID value with
          | error e => rw [ht] at h; simp at h
          | ok id =>
            rw [ht] at h
            simp only at h
            by_cases h4 : id = "0"
            · simp only [h4, ne_eq, not_true_eq_false, if_false, Except.ok.injEq,
                Prod.mk.injEq] at h
              refine ⟨h.1.symm, Or.inl ⟨h.2.symm, ?_⟩⟩
              intro v id2 hv hid2
              simp only [Option.some.injEq] at hv
              subst hv
              rw [ht] at hid2
              simp only [Except.ok.injEq] at hid2
              rw [← hid2, h4]
            · simp only [ne_eq, h4, not_false_eq_true, if_true, Except.ok.injEq,
                Prod.mk.injEq] at h
              exact ⟨h.1.symm, Or.inr ⟨value, id, rfl, ht, h4, h.2.symm⟩⟩
    · rw [if_neg h2] at h
      right
      by_cases h3 : (ro || decide (pkg ≠ "")) = true
      · rw [if_pos h3] at h
        simp at h
      · rw [if_neg h3] at h
        simp only [Except.ok.injEq, Prod.mk.injEq] at h
        exact ⟨h1, h2, by simpa using h3, h.1.symm, h.2.symm⟩

theorem rawOnly_mapSet (m : SMap JVal) (k : String) (v : GoValue) (h : rawOnly m) :
    rawOnly (mapSet m k (JVal.raw v)) := by
  intro k2 lm
  by_cases hk : k = k2
  · subst hk
    rw [mapGet_mapSet_same]
    simp
  · rw [mapGet_mapSet_ne _ _ _ _ hk]
    exact h k2 lm

theorem traceFields_rawOnly (jsonify pluralize : String → String)
    (fields : List (StructField GoValue)) (ro : Bool) (result : Resource)
    (linksMap : SMap LinkVal) (out : Resource × SMap LinkVal) (h0 : rawOnly result.fields)
    (h : (traceFields jsonify pluralize fields ro result linksMap).2 = Except.ok out) :
    rawOnly out.1.fields := by
  refine traceFields_invariant jsonify pluralize (fun res _ => rawOnly res.fields) fields ro
    ?_ ?_ ?_ result linksMap out h0 h
  · intro f _ res lm r1 l1 hP _ hst
    rcases fieldStep_ok_cases jsonify _ _ _ ro res r1 lm l1 hst with
      ⟨_, id, _, hr, _⟩ | ⟨_, _, hr, _⟩ | ⟨_, _, _, hr, _⟩
    · rw [hr]; exact hP
    · rw [hr]; exact hP
    · rw [hr]; exact rawOnly_mapSet _ _ _ hP
  · intro f _ elem elems ids res lm _ _ hP
    exact hP
  · intro f _ elem elems ids res lm _ _ hP
    exact hP

theorem finishResource_link_eq (result : Resource) (linksMap : SMap LinkVal) (k : String)
    (h : rawOnly result.fields) : (finishResource result linksMap).link k = mapGet linksMap k := by
  cases linksMap with
  | nil =>
    simp only [finishResource, List.length_nil, gt_iff_lt, lt_self_iff_false, if_false,
      Resource.link, mapGet]
    cases hm : mapGet result.fields "links" with
    | none => rfl
    | some v =>
      cases v with
      | raw g => rfl
      | links m => exact absurd hm (h "links" m)
  | cons hd tl =>
    simp [finishResource, Resource.link, mapGet_mapSet_same]

theorem resourceOf_links (jsonify pluralize : String → String) (typeName : String)
    (fields : List (StructField GoValue)) (ro : Bool) (r : Resource)
    (h : resourceOf jsonify pluralize (GoValue.struct typeName fields) ro = Except.ok r) :
    ∃ result linksMap,
      (traceFields jsonify pluralize fields ro ⟨none, []⟩ []).2 = Except.ok (result, linksMap)
      ∧ r = finishResource result linksMap ∧ rawOnly result.fields
      ∧ ∀ k, r.link k = mapGet linksMap k := by
  obtain ⟨result, linksMap, ht, hr⟩ := resourceOf_ok jsonify pluralize typeName fields ro r h
  have hraw : rawOnly result.fields :=
    traceFields_rawOnly jsonify pluralize fields ro ⟨none, []⟩ [] (result, linksMap)
      (by intro k lm; simp [mapGet]) ht
  refine ⟨result, linksMap, ht, hr, hraw, ?_⟩
  intro k
  rw [hr]
  exact finishResource_link_eq result linksMap k hraw

theorem traceFields_attr_frame (jsonify pluralize : String → String) (k : String)
    (fields : List (StructField GoValue)) (ro : Bool) (result : Resource)
    (linksMap : SMap LinkVal) (out : Resource × SMap LinkVal)
    (hothers : ∀ f ∈ fields, attrKey jsonify f ≠ some k)
    (h : (traceFields jsonify pluralize fields ro result linksMap).2 = Except.ok out) :
    mapGet out.1.fields k = mapGet result.fields k := by
  refine traceFields_invariant jsonify pluralize
    (fun res _ => mapGet res.fields k = mapGet result.fields k) fields ro
    ?_ ?_ ?_ result linksMap out rfl h
  · intro f hf res lm r1 l1 hP hns hst
    have hak := hothers f hf
    rcases fieldStep_ok_cases jsonify _ _ _ ro res r1 lm l1 hst with
      ⟨_, id, _, hr, _⟩ | ⟨_, _, hr, _⟩ | ⟨hid, hst2, _, hr, _⟩
    · rw [hr]; exact hP
    · rw [hr]; exact hP
    · rw [hr]
      have hne : jsonify f.Name ≠ k := by
        intro e
        apply hak
        rw [← e]
        simp only [attrKey, if_neg hns, if_neg hid, if_neg hst2]
      show mapGet (mapSet res.fields (jsonify f.Name) _) k = _
      rw [mapGet_mapSet_ne _ _ _ _ hne]
      exact hP
  · intro f _ elem elems ids res lm _ _ hP
    exact hP
  · intro f _ elem elems ids res lm _ _ hP
    exact hP

/-! ## To-one relations -/

theorem toID_int (k : IntKind) (n : Int) :
    toID (GoValue.int k n) = Except.ok (FormatInt n 10) := by
  cases k <;> rfl

theorem FormatInt_eq_zero_iff (n : Int) : FormatInt n 10 = "0" ↔ n = 0 := by
  constructor
  · intro h
    have := ParseInt_FormatInt n
    rw [h] at this
    rw [← this]
    rfl
  · intro h
    subst h
    rfl

theorem traceFields_single_nonslice_ok (jsonify pluralize : String → String)
    (fname pkg : String) (field : GoValue) (ro : Bool) (result : Resource)
    (linksMap : SMap LinkVal) (out : Resource × SMap LinkVal) (hk : field.kind ≠ Kind.Slice)
    (h : (traceFields jsonify pluralize [⟨fname, pkg, field⟩] ro result linksMap).2
      = Except.ok out) :
    fieldStep jsonify fname pkg field ro result linksMap = Except.ok out := by
  rw [traceFields_cons_nonslice _ _ _ _ _ _ _ _ _ hk] at h
  cases hst : fieldStep jsonify fname pkg field ro result linksMap with
  | error e => rw [hst] at h; simp at h
  | ok p =>
    rw [hst] at h
    simp only [traceFields, Except.ok.injEq] at h
    rw [← h]

theorem fieldStep_record_with_id (jsonify : String → String) (fname pkg tn : String)
    (fs : List (StructField GoValue)) (idVal : GoValue) (id : String) (ro : Bool)
    (res : Resource) (lm : SMap LinkVal) (hkey : jsonify fname ≠ "id")
    (hid : (GoValue.struct tn fs).FieldByName "ID" = some (some idVal))
    (hto : toID idVal = Except.ok id) :
    fieldStep jsonify fname pkg (GoValue.struct tn fs) ro res lm
      = if id ≠ "0" then Except.ok (res, mapSet lm (jsonify fname) (LinkVal.one id))
        else Except.ok (res, lm) := by
  have hkind : (GoValue.struct tn fs).kind = Kind.Struct := rfl
  unfold fieldStep
  rw [if_neg hkey, if_pos hkind, hid]
  simp only [hto]

theorem fieldStep_record_with_bad_id (jsonify : String → String) (fname pkg tn : String)
    (fs : List (StructField GoValue)) (idVal : GoValue) (err : Fault) (ro : Bool)
    (res : Resource) (lm : SMap LinkVal) (hkey : jsonify fname ≠ "id")
    (hid : (GoValue.struct tn fs).FieldByName "ID" = some (some idVal))
    (hto : toID idVal = Except.error err) :
    fieldStep jsonify fname pkg (GoValue.struct tn fs) ro res lm = Except.error err := by
  have hkind : (GoValue.struct tn fs).kind = Kind.Struct := rfl
  unfold fieldStep
  rw [if_neg hkey, if_pos hkind, hid]
  simp only [hto]

/-- C11 (as amended): for a record with a single nested record field that has an ID field
(the field not keyed "id", no other field writing the same links key), the submitted
resource has a links entry under the field's transformed name exactly when the string toID
gives for that ID is not "0", and the entry is that string.  So an integer identifier is
omitted exactly when it is 0; a string identifier is omitted exactly when it is "0", and
the empty string is recorded. -/
theorem to_one_link_iff_id_not_zero_string (jsonify pluralize : String → String)
    (typeName : String) (pre post : List (StructField GoValue)) (fname pkg tn : String)
    (fs : List (StructField GoValue)) (idVal : GoValue) (ro : Bool)
    (ctx ctx1 : marshalingContext) (hkey : jsonify fname ≠ "id")
    (hid : (GoValue.struct tn fs).FieldByName "ID" = some (some idVal))
    (hothers : ∀ f ∈ pre ++ post, linkKey jsonify f ≠ some (jsonify fname))
    (h : marshalStruct jsonify pluralize ctx (GoValue.struct typeName
        (pre ++ ⟨fname, pkg, GoValue.struct tn fs⟩ :: post)) ro = Except.ok ctx1) :
    ∃ r subs id, addValues ctx (subs ++ [(pluralize (jsonify typeName), r)]) = Except.ok ctx1
      ∧ toID idVal = Except.ok id
      ∧ r.link (jsonify fname) = (if id = "0" then none else some (LinkVal.one id))
      ∧ (∀ k n, idVal = GoValue.int k n → (r.link (jsonify fname) = none ↔ n = 0))
      ∧ (∀ s, idVal = GoValue.str s → (r.link (jsonify fname) = none ↔ s = "0")) := by
  obtain ⟨r, subs, hres, _, hadd⟩ := marshalStruct_submits jsonify pluralize ctx ctx1 _ _ ro h
  obtain ⟨result, linksMap, ht, _, _, hlink⟩ := resourceOf_links jsonify pluralize _ _ ro r hres
  obtain ⟨r1, l1, hpre, ht⟩ := traceFields_append_ok jsonify pluralize pre _ ro _ _ _ ht
  obtain ⟨r2, l2, hf, hpost⟩ := traceFields_cons_ok jsonify pluralize _ _ ro _ _ _ ht
  have hstep := traceFields_single_nonslice_ok jsonify pluralize fname pkg _ ro r1 l1 (r2, l2)
    (by simp [GoValue.kind]) hf
  have hprek := traceFields_frame jsonify pluralize (jsonify fname) pre ro ⟨none, []⟩ [] (r1, l1)
    (fun f hf => hothers f (by simp [hf])) hpre
  have hpostk := traceFields_frame jsonify pluralize (jsonify fname) post ro r2 l2
    (result, linksMap) (fun f hf => hothers f (by simp [hf])) hpost
  simp only [mapGet] at hprek hpostk
  cases hto : toID idVal with
  | error e =>
    rw [fieldStep_record_with_bad_id jsonify fname pkg tn fs idVal e ro r1 l1 hkey hid hto]
      at hstep
    simp at hstep
  | ok id =>
    rw [fieldStep_record_with_id jsonify fname pkg tn fs idVal id ro r1 l1 hkey hid hto]
      at hstep
    have hl : r.link (jsonify fname) = (if id = "0" then none else some (LinkVal.one id)) := by
      rw [hlink, hpostk]
      by_cases hz : id = "0"
      · simp only [hz, ne_eq, not_true_eq_false, if_false, Except.ok.injEq, Prod.mk.injEq,
          if_true] at hstep ⊢
        rw [← hstep.2]
        exact hprek
      · simp only [ne_eq, hz, not_false_eq_true, if_true, Except.ok.injEq, Prod.mk.injEq,
          if_false] at hstep ⊢
        rw [← hstep.2]
        exact mapGet_mapSet_same _ _ _
    refine ⟨r, subs, id, hadd, rfl, hl, ?_, ?_⟩
    · intro k n hv
      subst hv
      rw [toID_int] at hto
      simp only [Except.ok.injEq] at hto
      rw [hl, ← hto, ← FormatInt_eq_zero_iff n]
      by_cases hz : FormatInt n 10 = "0" <;> simp [hz]
    · intro s hv
      subst hv
      have hs : id = s := by
        simp only [toID, GoValue.kind, GoValue.asString, Except.ok.injEq] at hto
        exact hto.symm
      rw [hl, hs]
      by_cases hz : s = "0" <;> simp [hz]

/-- C11 (witness): a post whose author has the identifier 9 is submitted with
links["author"] equal to "9". -/
theorem to_one_link_iff_id_not_zero_string_witness :
    sampleJsonify "Author" ≠ "id"
    ∧ ∃ r subs id, addValues (makeContext "posts") (subs ++ [("posts", r)])
          = Except.ok ⟨[("posts", DocVal.list
              [⟨some "1", [("links", JVal.links [("author", LinkVal.one "9")])]⟩])], "posts"⟩
        ∧ toID (GoValue.int IntKind.Int 9) = Except.ok id
        ∧ r.link "author" = (if id = "0" then none else some (LinkVal.one id)) := by
  refine ⟨by decide, ?_⟩
  obtain ⟨r, subs, id, h1, h2, h3, _⟩ :=
    to_one_link_iff_id_not_zero_string sampleJsonify samplePluralize "Post"
      [⟨"ID", "", GoValue.int IntKind.Int 1⟩] [] "Author" "" "User"
      [⟨"ID", "", GoValue.int IntKind.Int 9⟩] (GoValue.int IntKind.Int 9) false
      (makeContext "posts")
      ⟨[("posts", DocVal.list
        [⟨some "1", [("links", JVal.links [("author", LinkVal.one "9")])]⟩])], "posts"⟩
      (by decide) (by decide) (by decide) (by decide)
  exact ⟨r, subs, id, h1, h2, h3⟩

/-- C11 (counterexample): an author whose string identifier is the zero value "" is
recorded, as links["author"] = "", while an author whose string identifier is "0", not the
zero value, is omitted. -/
theorem empty_string_id_is_recorded :
    Marshal sampleJsonify samplePluralize (some (samplePostWithAuthor (GoValue.str "")))
        = Except.ok [("posts", DocVal.list
            [⟨some "1", [("links", JVal.links [("author", LinkVal.one "")])]⟩])]
    ∧ Marshal sampleJsonify samplePluralize (some (samplePostWithAuthor (GoValue.str "0")))
        = Except.ok [("posts", DocVal.list [⟨some "1", []⟩])] := by
  decide

/-! ## The links attribute, single nested records -/

theorem marshalFields_ok (jsonify pluralize : String → String) (ctx ctx1 : marshalingContext)
    (fields : List (StructField GoValue)) (ro : Bool) (result result1 : Resource)
    (linksMap linksMap1 : SMap LinkVal)
    (h : marshalFields jsonify pluralize ctx fields ro result linksMap
      = Except.ok (ctx1, result1, linksMap1)) :
    (traceFields jsonify pluralize fields ro result linksMap).2 = Except.ok (result1, linksMap1)
      ∧ addValues ctx (traceFields jsonify pluralize fields ro result linksMap).1
          = Except.ok ctx1 := by
  rw [marshalFields_eq_replay] at h
  generalize traceFields jsonify pluralize fields ro result linksMap = t at h
  obtain ⟨subs, out⟩ := t
  simp only [replay] at h
  cases hrun : addValues ctx subs with
  | error e => rw [hrun] at h; simp at h
  | ok c =>
    rw [hrun] at h
    cases out with
    | error e => simp at h
    | ok p =>
      simp only [Except.ok.injEq, Prod.mk.injEq] at h
      obtain ⟨h1, h2⟩ := h
      subst h1
      subst h2
      exact ⟨rfl, rfl⟩

/-- C15: for every record visited by marshalStruct, the submitted resource has a links map
under "links" if and only if at least one relationship was collected from its fields, and
then the entry is exactly the map of collected relationships; when none was collected the
resource is `result` as the fields left it, with no "links" key at all unless a field value
was copied under that key. -/
theorem links_entry_iff_relationships (jsonify pluralize : String → String)
    (ctx ctx1 : marshalingContext) (typeName : String) (fields : List (StructField GoValue))
    (ro : Bool)
    (h : marshalStruct jsonify pluralize ctx (GoValue.struct typeName fields) ro
      = Except.ok ctx1) :
    ∃ ctx0 result linksMap r,
      marshalFields jsonify pluralize ctx fields ro ⟨none, []⟩ []
          = Except.ok (ctx0, result, linksMap)
      ∧ addValue ctx0 (pluralize (jsonify typeName)) r = Except.ok ctx1
      ∧ ((∃ m, mapGet r.fields "links" = some (JVal.links m)) ↔ linksMap ≠ [])
      ∧ (linksMap ≠ [] → mapGet r.fields "links" = some (JVal.links linksMap))
      ∧ (linksMap = [] → r = result)
      ∧ ((∀ f ∈ fields, attrKey jsonify f ≠ some "links") →
          (mapGet r.fields "links" ≠ none ↔ linksMap ≠ [])) := by
  simp only [marshalStruct] at h
  cases hm : marshalFields jsonify pluralize ctx fields ro ⟨none, []⟩ [] with
  | error e => rw [hm] at h; simp at h
  | ok p =>
    obtain ⟨ctx0, result, linksMap⟩ := p
    rw [hm] at h
    simp only at h
    obtain ⟨ht, _⟩ := marshalFields_ok jsonify pluralize ctx ctx0 fields ro _ result _ linksMap hm
    have hraw : rawOnly result.fields :=
      traceFields_rawOnly jsonify pluralize fields ro ⟨none, []⟩ [] (result, linksMap)
        (by intro k lm; simp [mapGet]) ht
    cases linksMap with
    | nil =>
      refine ⟨ctx0, result, [], result, rfl, by simpa using h, ?_, ?_, fun _ => rfl, ?_⟩
      · simp only [ne_eq, not_true_eq_false, iff_false, not_exists]
        exact fun m => hraw "links" m
      · intro hne
        exact absurd rfl hne
      · intro hattr
        have := traceFields_attr_frame jsonify pluralize "links" fields ro ⟨none, []⟩ []
          (result, []) hattr ht
        simp only [mapGet] at this
        simp [this]
    | cons hd tl =>
      refine ⟨ctx0, result, hd :: tl,
        { result with fields := mapSet result.fields "links" (JVal.links (hd :: tl)) }, rfl,
        by simpa using h, ?_, ?_, ?_, ?_⟩
      · simp [mapGet_mapSet_same]
      · intro _
        exact mapGet_mapSet_same _ _ _
      · intro hnil
        simp at hnil
      · intro _
        simp [mapGet_mapSet_same]

/-- C15 (witness): the sample post with one comment is submitted with the links map that
holds its one relationship. -/
theorem links_entry_iff_relationships_witness :
    ∃ ctx0 result linksMap r,
      marshalFields sampleJsonify samplePluralize (makeContext "posts")
          [⟨"ID", "", GoValue.int IntKind.Int 1⟩,
            ⟨"Comments", "", GoValue.slice ⟨Kind.Struct, "Comment"⟩ [sampleComment 7 "a"]⟩]
          false ⟨none, []⟩ [] = Except.ok (ctx0, result, linksMap)
      ∧ addValue ctx0 (samplePluralize (sampleJsonify "Post")) r
          = Except.ok ⟨[("posts", DocVal.list [samplePostResource "1" ["7"]]),
              ("linked", DocVal.linked [("comments", [sampleCommentResource "7" "a"])])], "posts"⟩
      ∧ (linksMap ≠ [] → mapGet r.fields "links" = some (JVal.links linksMap)) := by
  obtain ⟨ctx0, result, linksMap, r, h1, h2, _, h4, _⟩ :=
    links_entry_iff_relationships sampleJsonify samplePluralize (makeContext "posts")
      ⟨[("posts", DocVal.list [samplePostResource "1" ["7"]]),
        ("linked", DocVal.linked [("comments", [sampleCommentResource "7" "a"])])], "posts"⟩ "Post"
      [⟨"ID", "", GoValue.int IntKind.Int 1⟩,
        ⟨"Comments", "", GoValue.slice ⟨Kind.Struct, "Comment"⟩ [sampleComment 7 "a"]⟩]
      false (by decide)
  exact ⟨ctx0, result, linksMap, r, h1, h2, h4⟩

theorem fieldStep_record_without_id (jsonify : String → String) (fname pkg tn : String)
    (fs : List (StructField GoValue)) (ro : Bool) (res : Resource) (lm : SMap LinkVal)
    (hkey : jsonify fname ≠ "id")
    (hid : (GoValue.struct tn fs).FieldByName "ID" = some none) :
    fieldStep jsonify fname pkg (GoValue.struct tn fs) ro res lm = Except.ok (res, lm) := by
  have hkind : (GoValue.struct tn fs).kind = Kind.Struct := rfl
  unfold fieldStep
  rw [if_neg hkey, if_pos hkind, hid]

theorem traceStruct_plain_single (jsonify pluralize : String → String) (typeName : String)
    (fields : List (StructField GoValue)) (ro : Bool)
    (hplain : fields.all (fun f => !hasNestedCollection f) = true)
    (h : (traceStruct jsonify pluralize (GoValue.struct typeName fields) ro).2 = Except.ok ()) :
    ∃ r, resourceOf jsonify pluralize (GoValue.struct typeName fields) ro = Except.ok r
      ∧ (traceStruct jsonify pluralize (GoValue.struct typeName fields) ro).1
          = [(pluralize (jsonify typeName), r)] := by
  have h3 := traceFields_plain jsonify pluralize fields ro ⟨none, []⟩ [] hplain
  simp only [traceStruct, resourceOf] at h ⊢
  generalize traceFields jsonify pluralize fields ro ⟨none, []⟩ [] = t at h h3 ⊢
  obtain ⟨subs, out⟩ := t
  simp only at h3
  subst h3
  cases out with
  | error e => simp at h
  | ok a =>
    obtain ⟨result, linksMap⟩ := a
    exact ⟨finishResource result linksMap, rfl, rfl⟩

/-- C19: a single nested record (to-one) field is never submitted to the builder.  The visit
of a field of record kind returns the builder it was given, leaves `result` as it was and
adds at most one entry, an id string under the field's transformed name, to `linksMap`.  So
the visit of a record none of whose fields holds a collection of records makes exactly one
call of addValue, for the record itself: the records it reaches through to-one fields are
not submitted. -/
theorem to_one_field_not_submitted (jsonify pluralize : String → String)
    (ctx ctx1 : marshalingContext) (fname pkg tn : String) (fs : List (StructField GoValue))
    (ro : Bool) (result result1 : Resource) (linksMap linksMap1 : SMap LinkVal)
    (h : marshalFields jsonify pluralize ctx [⟨fname, pkg, GoValue.struct tn fs⟩] ro result
      linksMap = Except.ok (ctx1, result1, linksMap1))
    (ctx2 ctx3 : marshalingContext) (typeName : String) (fields : List (StructField GoValue))
    (hplain : fields.all (fun f => !hasNestedCollection f) = true)
    (h2 : marshalStruct jsonify pluralize ctx2 (GoValue.struct typeName fields) ro
      = Except.ok ctx3) :
    (ctx1 = ctx ∧ result1 = result
      ∧ (linksMap1 = linksMap
        ∨ ∃ id, linksMap1 = mapSet linksMap (jsonify fname) (LinkVal.one id)))
    ∧ ∃ r, resourceOf jsonify pluralize (GoValue.struct typeName fields) ro = Except.ok r
        ∧ (traceStruct jsonify pluralize (GoValue.struct typeName fields) ro).1
            = [(pluralize (jsonify typeName), r)]
        ∧ addValue ctx2 (pluralize (jsonify typeName)) r = Except.ok ctx3 := by
  constructor
  · obtain ⟨ht, hrun⟩ := marshalFields_ok jsonify pluralize ctx ctx1 _ ro result result1
      linksMap linksMap1 h
    have hk : (GoValue.struct tn fs).kind ≠ Kind.Slice := by simp [GoValue.kind]
    have hstep := traceFields_single_nonslice_ok jsonify pluralize fname pkg _ ro result
      linksMap (result1, linksMap1) hk ht
    rw [traceFields_cons_nonslice _ _ _ _ _ _ _ _ _ hk, hstep] at hrun
    simp only [traceFields, addValues, Except.ok.injEq] at hrun
    refine ⟨hrun.symm, ?_⟩
    rcases fieldStep_ok_cases jsonify _ _ _ ro result result1 linksMap linksMap1 hstep with
      ⟨_, id, hto, _, _⟩ | ⟨_, _, hr, hl⟩ | ⟨_, hns, _⟩
    · simp [toID, GoValue.kind] at hto
    · refine ⟨hr, ?_⟩
      rcases hl with ⟨hl, _⟩ | ⟨v, id, _, _, _, hl⟩
      · exact Or.inl hl
      · exact Or.inr ⟨id, hl⟩
    · exact absurd rfl hns
  · obtain ⟨h3, h4⟩ := marshalStruct_ok jsonify pluralize ctx2 ctx3 _ ro h2
    obtain ⟨r, hr, htr⟩ := traceStruct_plain_single jsonify pluralize typeName fields ro hplain h3
    refine ⟨r, hr, htr, ?_⟩
    rw [htr] at h4
    simp only [addValues] at h4
    cases hadd : addValue ctx2 (pluralize (jsonify typeName)) r with
    | error e => rw [hadd] at h4; simp at h4
    | ok c =>
      rw [hadd] at h4
      simp only [Except.ok.injEq] at h4
      rw [h4]

/-- C19 (witness): the visit of the author field of a post leaves the builder unchanged, and
the document of that post holds the post alone. -/
theorem to_one_field_not_submitted_witness :
    marshalFields sampleJsonify samplePluralize (makeContext "posts")
        [⟨"Author", "", GoValue.struct "User" [⟨"ID", "", GoValue.int IntKind.Int 9⟩]⟩] false
        ⟨some "1", []⟩ [] = Except.ok (makeContext "posts", ⟨some "1", []⟩,
          [("author", LinkVal.one "9")])
    ∧ Marshal sampleJsonify samplePluralize
        (some (samplePostWithAuthor (GoValue.int IntKind.Int 9)))
        = Except.ok [("posts", DocVal.list
            [⟨some "1", [("links", JVal.links [("author", LinkVal.one "9")])]⟩])]
    ∧ (makeContext "posts" = makeContext "posts" ∧ (⟨some "1", []⟩ : Resource) = ⟨some "1", []⟩
      ∧ ([("author", LinkVal.one "9")] = ([] : SMap LinkVal)
        ∨ ∃ id, [("author", LinkVal.one "9")]
            = mapSet ([] : SMap LinkVal) (sampleJsonify "Author") (LinkVal.one id))) :=
  ⟨by decide, by decide,
    (to_one_field_not_submitted sampleJsonify samplePluralize (makeContext "posts")
      (makeContext "posts") "Author" "" "User" [⟨"ID", "", GoValue.int IntKind.Int 9⟩] false
      ⟨some "1", []⟩ ⟨some "1", []⟩ [] [("author", LinkVal.one "9")] (by decide)
      (makeContext "posts")
      ⟨[("posts", DocVal.list
        [⟨some "1", [("links", JVal.links [("author", LinkVal.one "9")])]⟩])], "posts"⟩
      "Post" [⟨"ID", "", GoValue.int IntKind.Int 1⟩,
        ⟨"Author", "", GoValue.struct "User" [⟨"ID", "", GoValue.int IntKind.Int 9⟩]⟩]
      (by decide) (by decide)).1⟩

/-- C20: a field of record kind that has no ID field, and is not keyed "id", is dropped
silently.  marshalStruct behaves on the record exactly as on the record without that field:
the same result, the same failures.  And when no other field is keyed like it (and the key
is not "links"), the submitted resource has no attribute and no links entry under the
field's transformed name. -/
theorem record_field_without_id_dropped (jsonify pluralize : String → String)
    (typeName : String) (pre post : List (StructField GoValue)) (fname pkg tn : String)
    (fs : List (StructField GoValue)) (ro : Bool) (ctx : marshalingContext)
    (hkey : jsonify fname ≠ "id")
    (hid : (GoValue.struct tn fs).FieldByName "ID" = some none) :
    marshalStruct jsonify pluralize ctx
        (GoValue.struct typeName (pre ++ ⟨fname, pkg, GoValue.struct tn fs⟩ :: post)) ro
      = marshalStruct jsonify pluralize ctx (GoValue.struct typeName (pre ++ post)) ro
    ∧ ∀ r, resourceOf jsonify pluralize
          (GoValue.struct typeName (pre ++ ⟨fname, pkg, GoValue.struct tn fs⟩ :: post)) ro
          = Except.ok r →
        (∀ g ∈ pre ++ post, linkKey jsonify g ≠ some (jsonify fname)
          ∧ attrKey jsonify g ≠ some (jsonify fname)) →
        jsonify fname ≠ "links" →
        r.link (jsonify fname) = none ∧ mapGet r.fields (jsonify fname) = none := by
  have hk : (GoValue.struct tn fs).kind ≠ Kind.Slice := by simp [GoValue.kind]
  have hfields : traceFields jsonify pluralize
      (pre ++ ⟨fname, pkg, GoValue.struct tn fs⟩ :: post) ro ⟨none, []⟩ []
      = traceFields jsonify pluralize (pre ++ post) ro ⟨none, []⟩ [] := by
    rw [traceFields_append_full, traceFields_append_full]
    generalize traceFields jsonify pluralize pre ro ⟨none, []⟩ [] = t
    obtain ⟨subs, out⟩ := t
    cases out with
    | error e => rfl
    | ok p =>
      obtain ⟨r1, l1⟩ := p
      simp only
      rw [traceFields_cons_nonslice _ _ _ _ _ _ _ _ _ hk,
        fieldStep_record_without_id jsonify fname pkg tn fs ro r1 l1 hkey hid]
  constructor
  · rw [marshalStruct_eq_replay, marshalStruct_eq_replay]
    simp only [traceStruct, hfields]
  · intro r hr hothers hlinks
    simp only [resourceOf, hfields] at hr
    have hr2 : resourceOf jsonify pluralize (GoValue.struct typeName (pre ++ post)) ro
        = Except.ok r := by
      simp only [resourceOf]
      exact hr
    obtain ⟨result, linksMap, ht, hfin, _, hlink⟩ :=
      resourceOf_links jsonify pluralize typeName (pre ++ post) ro r hr2
    have hl := traceFields_frame jsonify pluralize (jsonify fname) (pre ++ post) ro ⟨none, []⟩ []
      (result, linksMap) (fun g hg => (hothers g hg).1) ht
    have ha := traceFields_attr_frame jsonify pluralize (jsonify fname) (pre ++ post) ro
      ⟨none, []⟩ [] (result, linksMap) (fun g hg => (hothers g hg).2) ht
    simp only [mapGet] at hl ha
    refine ⟨by rw [hlink, hl], ?_⟩
    rw [hfin]
    unfold finishResource
    split
    · show mapGet (mapSet result.fields "links" _) (jsonify fname) = none
      rw [mapGet_mapSet_ne _ _ _ _ (fun e => hlinks e.symm)]
      exact ha
    · exact ha

/-- C20 (witness): the sample post with a Meta record that has no ID field gives the
document of the post without that field. -/
theorem record_field_without_id_dropped_witness :
    sampleJsonify "Meta" ≠ "id"
    ∧ (GoValue.struct "Meta" [⟨"Note", "", GoValue.str "n"⟩]).FieldByName "ID" = some none
    ∧ marshalStruct sampleJsonify samplePluralize (makeContext "posts") samplePostWithMeta false
        = Except.ok ⟨[("posts", DocVal.list
            [⟨some "1", [("title", JVal.raw (GoValue.str "t"))]⟩])], "posts"⟩ :=
  ⟨by decide, by decide,
    ((record_field_without_id_dropped sampleJsonify samplePluralize "Post"
      [⟨"ID", "", GoValue.int IntKind.Int 1⟩] [⟨"Title", "", GoValue.str "t"⟩] "Meta" "" "Meta"
      [⟨"Note", "", GoValue.str "n"⟩] false (makeContext "posts") (by decide)
      (by decide)).1).trans (by decide)⟩

/-! ## To-many relations from collections of records -/

theorem traceStruct_ok_own (jsonify pluralize : String → String) (val : GoValue) (ro : Bool)
    (h : (traceStruct jsonify pluralize val ro).2 = Except.ok ()) :
    ∃ own subs, ownSubmission jsonify pluralize ro val = some own
      ∧ (traceStruct jsonify pluralize val ro).1 = subs ++ [own] := by
  cases val with
  | struct tn fs =>
    obtain ⟨r, subs, h1, h2⟩ := traceStruct_ok_resourceOf jsonify pluralize tn fs ro h
    exact ⟨_, subs, by simp [ownSubmission, h1, GoValue.typeName], h2⟩
  | int k v => simp [traceStruct] at h
  | uint k v => simp [traceStruct] at h
  | str s => simp [traceStruct] at h
  | other k p => simp [traceStruct] at h
  | slice t es => simp [traceStruct] at h

theorem traceElems_own (jsonify pluralize : String → String) (elems : List GoValue)
    (ro : Bool) (ids out : List String)
    (h : (traceElems jsonify pluralize elems ro ids).2 = Except.ok out) :
    ∃ own : List (String × Resource),
      elems.map (ownSubmission jsonify pluralize ro) = own.map some
      ∧ own.Sublist (traceElems jsonify pluralize elems ro ids).1 := by
  induction elems generalizing ids with
  | nil => exact ⟨[], rfl, by simp [traceElems]⟩
  | cons e rest ih =>
    simp only [traceElems] at h
    cases hf : e.FieldByName "ID" with
    | none => rw [hf] at h; simp at h
    | some o =>
      cases o with
      | none => rw [hf] at h; simp at h
      | some idVal =>
        rw [hf] at h
        simp only at h
        cases ht : toID idVal with
        | error err => rw [ht] at h; simp at h
        | ok idString =>
          rw [ht] at h
          simp only at h
          have hown := traceStruct_ok_own jsonify pluralize e ro
          cases hts : traceStruct jsonify pluralize e ro with
          | mk subs o2 =>
            rw [hts] at h hown
            cases o2 with
            | error err => simp at h
            | ok u =>
              simp only at h
              obtain ⟨own, pre, ho, hs⟩ := hown rfl
              obtain ⟨owns, hm, hsub⟩ := ih _ h
              simp only at hs
              have hgoal : (traceElems jsonify pluralize (e :: rest) ro ids).1
                  = subs ++ (traceElems jsonify pluralize rest ro (ids ++ [idString])).1 := by
                simp only [traceElems, hf, ht, hts]
              refine ⟨own :: owns, by simp [ho, hm], ?_⟩
              rw [hgoal, hs]
              have h1 : [own].Sublist (pre ++ [own]) := List.sublist_append_right _ _
              exact List.Sublist.append h1 hsub

theorem records_map_idOf (jsonify pluralize : String → String) (elems : List GoValue)
    (ro : Bool) (ids out : List String)
    (h : (traceElems jsonify pluralize elems ro ids).2 = Except.ok out) :
    elems.map idOf = (recordIDs elems).map some := by
  induction elems generalizing ids with
  | nil => rfl
  | cons e rest ih =>
    simp only [traceElems] at h
    cases hf : e.FieldByName "ID" with
    | none => rw [hf] at h; simp at h
    | some o =>
      cases o with
      | none => rw [hf] at h; simp at h
      | some idVal =>
        rw [hf] at h
        simp only at h
        cases ht : toID idVal with
        | error err => rw [ht] at h; simp at h
        | ok idString =>
          rw [ht] at h
          simp only at h
          have hid : idOf e = some idString := by simp [idOf, hf, ht]
          generalize traceStruct jsonify pluralize e ro = t at h
          obtain ⟨subs, o2⟩ := t
          cases o2 with
          | error err => simp at h
          | ok u =>
            simp only at h
            have := ih _ h
            simp only [recordIDs] at this
            simp [recordIDs, List.filterMap_cons, hid, this]

/-- C17 (as amended): for every record with a field holding a collection of records, when
the visit goes through and no later field of the record writes the same links key, the
submitted resource's links under the field's transformed name is the sequence of
toID(element ID) for the elements in collection order (same length, same order, duplicates
kept, the empty sequence for an empty collection); and each element is itself submitted to
the builder, in collection order and before its parent resource is submitted. -/
theorem record_collection_links_and_submissions (jsonify pluralize : String → String)
    (typeName : String) (pre post : List (StructField GoValue)) (sname spkg : String)
    (selem : GoType) (records : List GoValue) (ro : Bool) (ctx ctx1 : marshalingContext)
    (hs : selem.kind = Kind.Struct)
    (hpost : ∀ f ∈ post, linkKey jsonify f ≠ some (jsonify sname))
    (h : marshalStruct jsonify pluralize ctx (GoValue.struct typeName
        (pre ++ ⟨sname, spkg, GoValue.slice selem records⟩ :: post)) ro = Except.ok ctx1) :
    ∃ (r : Resource) (subs own : List (String × Resource)),
      addValues ctx (subs ++ [(pluralize (jsonify typeName), r)]) = Except.ok ctx1
      ∧ r.link (jsonify sname) = some (LinkVal.many (recordIDs records))
      ∧ records.map idOf = (recordIDs records).map some
      ∧ (recordIDs records).length = records.length
      ∧ records.map (ownSubmission jsonify pluralize (ro || decide (spkg ≠ ""))) = own.map some
      ∧ own.Sublist subs := by
  obtain ⟨r, subs, hres, htr, hadd⟩ := marshalStruct_submits jsonify pluralize ctx ctx1 _ _ ro h
  obtain ⟨result, linksMap, ht, hfin, _, hlink⟩ :=
    resourceOf_links jsonify pluralize _ _ ro r hres
  have hsubs : (traceFields jsonify pluralize
      (pre ++ ⟨sname, spkg, GoValue.slice selem records⟩ :: post) ro ⟨none, []⟩ []).1 = subs := by
    simp only [traceStruct] at htr
    generalize traceFields jsonify pluralize
      (pre ++ ⟨sname, spkg, GoValue.slice selem records⟩ :: post) ro ⟨none, []⟩ [] = t at htr ht ⊢
    obtain ⟨s, o⟩ := t
    simp only at ht
    subst ht
    simp only at htr
    rw [hfin] at htr
    exact List.append_cancel_right htr
  rw [traceFields_append_full] at ht hsubs
  generalize traceFields jsonify pluralize pre ro ⟨none, []⟩ [] = tpre at ht hsubs
  obtain ⟨spre, opre⟩ := tpre
  cases opre with
  | error e => simp at ht
  | ok p =>
    obtain ⟨r1, l1⟩ := p
    simp only at ht hsubs
    rw [traceFields_cons_records _ _ _ _ _ _ _ _ _ _ hs] at ht hsubs
    have hids := traceElems_ids jsonify pluralize records (ro || decide (spkg ≠ "")) []
    have hmap := records_map_idOf jsonify pluralize records (ro || decide (spkg ≠ "")) []
    have hown := traceElems_own jsonify pluralize records (ro || decide (spkg ≠ "")) []
    generalize traceElems jsonify pluralize records (ro || decide (spkg ≠ "")) [] = te
      at ht hsubs hids hmap hown
    obtain ⟨se, oe⟩ := te
    cases oe with
    | error e => simp at ht
    | ok ids =>
      simp only at ht hsubs
      obtain ⟨hid1, hid2⟩ := hids ids rfl
      obtain ⟨own, hown1, hown2⟩ := hown ids rfl
      simp only [List.nil_append] at hid1
      subst hid1
      have hframe := traceFields_frame jsonify pluralize (jsonify sname) post ro r1 _
        (result, linksMap) hpost ht
      simp only at hframe
      refine ⟨r, subs, own, hadd, ?_, hmap (recordIDs records) rfl, hid2, hown1, ?_⟩
      · rw [hlink, hframe]
        exact mapGet_mapSet_same _ _ _
      · rw [← hsubs]
        simp only at hown2
        exact (hown2.trans (List.sublist_append_left _ _)).trans (List.sublist_append_right _ _)

/-- C17 (witness): the sample post with the comments 7 and 8 is submitted with
links["comments"] = ["7", "8"], after its two comments. -/
theorem record_collection_links_and_submissions_witness :
    (⟨Kind.Struct, "Comment"⟩ : GoType).kind = Kind.Struct
    ∧ ∃ (r : Resource) (subs own : List (String × Resource)),
        addValues (makeContext "posts") (subs ++ [(samplePluralize (sampleJsonify "Post"), r)])
          = Except.ok ⟨[("posts", DocVal.list [samplePostResource "1" ["7", "8"]]),
              ("linked", DocVal.linked [("comments",
                [sampleCommentResource "7" "a", sampleCommentResource "8" "b"])])], "posts"⟩
        ∧ r.link (sampleJsonify "Comments")
            = some (LinkVal.many (recordIDs [sampleComment 7 "a", sampleComment 8 "b"]))
        ∧ [sampleComment 7 "a", sampleComment 8 "b"].map
            (ownSubmission sampleJsonify samplePluralize (false || decide ("" ≠ "")))
            = own.map some
        ∧ own.Sublist subs := by
  refine ⟨by decide, ?_⟩
  obtain ⟨r, subs, own, h1, h2, _, _, h5, h6⟩ :=
    record_collection_links_and_submissions sampleJsonify samplePluralize "Post"
      [⟨"ID", "", GoValue.int IntKind.Int 1⟩] [] "Comments" "" ⟨Kind.Struct, "Comment"⟩
      [sampleComment 7 "a", sampleComment 8 "b"] false (makeContext "posts")
      ⟨[("posts", DocVal.list [samplePostResource "1" ["7", "8"]]),
        ("linked", DocVal.linked [("comments",
          [sampleCommentResource "7" "a", sampleCommentResource "8" "b"])])], "posts"⟩
      (by decide) (by decide) (by decide)
  exact ⟨r, subs, own, h1, h2, h5, h6⟩

/-- C17 (counterexample): a post with an empty collection of comment records, followed by
the raw comment ids 5 and 6, is submitted with links["comments"] = ["5", "6"], not with the
empty sequence of the record collection's ids. -/
theorem record_ids_replaced_by_later_raw_list :
    resourceOf sampleJsonify samplePluralize (samplePostBoth [] [5, 6]) false
        = Except.ok (samplePostResource "1" ["5", "6"])
    ∧ (samplePostResource "1" ["5", "6"]).link (sampleJsonify "Comments")
        = some (LinkVal.many ["5", "6"])
    ∧ recordIDs ([] : List GoValue) = []
    ∧ (samplePostResource "1" ["5", "6"]).link (sampleJsonify "Comments")
        ≠ some (LinkVal.many (recordIDs ([] : List GoValue))) := by
  decide

/-! ## Referential integrity -/

theorem submittedIn_append_left (jsonify pluralize : String → String) (e : GoValue)
    (a b : List (String × Resource)) (h : submittedIn jsonify pluralize e a) :
    submittedIn jsonify pluralize e (a ++ b) := by
  obtain ⟨id, own, ro, h1, h2, h3⟩ := h
  exact ⟨id, own, ro, h1, h2, List.mem_append_left _ h3⟩

theorem submittedIn_append_right (jsonify pluralize : String → String) (e : GoValue)
    (a b : List (String × Resource)) (h : submittedIn jsonify pluralize e b) :
    submittedIn jsonify pluralize e (a ++ b) := by
  obtain ⟨id, own, ro, h1, h2, h3⟩ := h
  exact ⟨id, own, ro, h1, h2, List.mem_append_right _ h3⟩

mutual
theorem nestedStruct_submitted (jsonify pluralize : String → String) :
    ∀ (val : GoValue) (ro : Bool),
      (traceStruct jsonify pluralize val ro).2 = Except.ok () →
      ∀ e ∈ nestedStruct val, submittedIn jsonify pluralize e (traceStruct jsonify pluralize val ro).1
  | GoValue.struct typeName fields, ro => by
    have ih := nestedFields_submitted jsonify pluralize fields ro ⟨none, []⟩ []
    intro h e he
    simp only [nestedStruct] at he
    simp only [traceStruct] at h ⊢
    generalize traceFields jsonify pluralize fields ro ⟨none, []⟩ [] = t at h ih ⊢
    obtain ⟨subs, out⟩ := t
    cases out with
    | error err => simp at h
    | ok p =>
      exact submittedIn_append_left jsonify pluralize e _ _ (ih p rfl e he)
  | GoValue.int _ _, ro => by intro _ e he; simp [nestedStruct] at he
  | GoValue.uint _ _, ro => by intro _ e he; simp [nestedStruct] at he
  | GoValue.str _, ro => by intro _ e he; simp [nestedStruct] at he
  | GoValue.other _ _, ro => by intro _ e he; simp [nestedStruct] at he
  | GoValue.slice _ _, ro => by intro _ e he; simp [nestedStruct] at he
theorem nestedFields_submitted (jsonify pluralize : String → String) :
    ∀ (fields : List (StructField GoValue)) (ro : Bool) (result : Resource)
      (linksMap : SMap LinkVal) (out : Resource × SMap LinkVal),
      (traceFields jsonify pluralize fields ro result linksMap).2 = Except.ok out →
      ∀ e ∈ nestedFields fields,
        submittedIn jsonify pluralize e (traceFields jsonify pluralize fields ro result linksMap).1
  | [], ro, result, linksMap, out => by
    intro _ e he
    simp [nestedFields] at he
  | ⟨fname, pkg, field⟩ :: rest, ro, result, linksMap, out => by
    have ihR := nestedFields_submitted jsonify pluralize rest ro
    cases field with
    | slice elem elems =>
      have ihE := nestedElems_submitted jsonify pluralize elems (ro || decide (pkg ≠ "")) []
      intro h e he
      simp only [nestedFields, List.mem_append] at he
      by_cases hs : elem.kind = Kind.Struct
      · rw [traceFields_cons_records _ _ _ _ _ _ _ _ _ _ hs] at h ⊢
        rw [if_pos hs] at he
        generalize traceElems jsonify pluralize elems (ro || decide (pkg ≠ "")) [] = t at h ihE ⊢
        obtain ⟨subs, o⟩ := t
        cases o with
        | error err => simp at h
        | ok ids =>
          simp only at h ⊢
          rcases he with he | he
          · exact submittedIn_append_left jsonify pluralize e _ _ (ihE ids rfl e he)
          · exact submittedIn_append_right jsonify pluralize e _ _ (ihR _ _ out h e he)
      · rw [traceFields_cons_scalars _ _ _ _ _ _ _ _ _ _ hs] at h ⊢
        rw [if_neg hs] at he
        simp only [List.not_mem_nil, false_or] at he
        split at h
        · rename_i hfree
          rw [if_pos hfree]
          cases ht : toIDs elems [] with
          | error err => rw [ht] at h; simp at h
          | ok ids =>
            rw [ht] at h
            exact ihR _ _ out h e he
        · rename_i hfree
          rw [if_neg hfree]
          exact ihR _ _ out h e he
    | int kd v =>
      intro h e he
      have hk : (GoValue.int kd v).kind ≠ Kind.Slice := by
        cases kd <;> simp [GoValue.kind, IntKind.toKind]
      rw [traceFields_cons_nonslice _ _ _ _ _ _ _ _ _ hk] at h ⊢
      simp only [nestedFields] at he
      cases hst : fieldStep jsonify fname pkg (GoValue.int kd v) ro result linksMap with
      | error err => rw [hst] at h; simp at h
      | ok p =>
        rw [hst] at h
        exact ihR _ _ out h e he
    | uint kd v =>
      intro h e he
      have hk : (GoValue.uint kd v).kind ≠ Kind.Slice := by
        cases kd <;> simp [GoValue.kind, UintKind.toKind]
      rw [traceFields_cons_nonslice _ _ _ _ _ _ _ _ _ hk] at h ⊢
      simp only [nestedFields] at he
      cases hst : fieldStep jsonify fname pkg (GoValue.uint kd v) ro result linksMap with
      | error err => rw [hst] at h; simp at h
      | ok p =>
        rw [hst] at h
        exact ihR _ _ out h e he
    | str s =>
      intro h e he
      have hk : (GoValue.str s).kind ≠ Kind.Slice := by simp [GoValue.kind]
      rw [traceFields_cons_nonslice _ _ _ _ _ _ _ _ _ hk] at h ⊢
      simp only [nestedFields] at he
      cases hst : fieldStep jsonify fname pkg (GoValue.str s) ro result linksMap with
      | error err => rw [hst] at h; simp at h
      | ok p =>
        rw [hst] at h
        exact ihR _ _ out h e he
    | other kd pl =>
      intro h e he
      have hk : (GoValue.other kd pl).kind ≠ Kind.Slice := by
        cases kd <;> simp [GoValue.kind, OtherKind.toKind]
      rw [traceFields_cons_nonslice _ _ _ _ _ _ _ _ _ hk] at h ⊢
      simp only [nestedFields] at he
      cases hst : fieldStep jsonify fname pkg (GoValue.other kd pl) ro result linksMap with
      | error err => rw [hst] at h; simp at h
      | ok p =>
        rw [hst] at h
        exact ihR _ _ out h e he
    | struct tn fs =>
      intro h e he
      have hk : (GoValue.struct tn fs).kind ≠ Kind.Slice := by simp [GoValue.kind]
      rw [traceFields_cons_nonslice _ _ _ _ _ _ _ _ _ hk] at h ⊢
      simp only [nestedFields] at he
      cases hst : fieldStep jsonify fname pkg (GoValue.struct tn fs) ro result linksMap with
      | error err => rw [hst] at h; simp at h
      | ok p =>
        rw [hst] at h
        exact ihR _ _ out h e he
theorem nestedElems_submitted (jsonify pluralize : String → String) :
    ∀ (elems : List GoValue) (ro : Bool) (ids out : List String),
      (traceElems jsonify pluralize elems ro ids).2 = Except.ok out →
      ∀ e ∈ nestedElems elems,
        submittedIn jsonify pluralize e (traceElems jsonify pluralize elems ro ids).1
  | [], ro, ids, out => by
    intro _ e he
    simp [nestedElems] at he
  | e0 :: rest, ro, ids, out => by
    have ih1 := nestedStruct_submitted jsonify pluralize e0 ro
    have ih2 := nestedElems_submitted jsonify pluralize rest ro
    intro h e he
    simp only [traceElems] at h
    cases hf : e0.FieldByName "ID" with
    | none => rw [hf] at h; simp at h
    | some o =>
      cases o with
      | none => rw [hf] at h; simp at h
      | some idVal =>
        rw [hf] at h
        simp only at h
        cases ht : toID idVal with
        | error err => rw [ht] at h; simp at h
        | ok idString =>
          rw [ht] at h
          simp only at h
          have hown := traceStruct_ok_own jsonify pluralize e0 ro
          cases hts : traceStruct jsonify pluralize e0 ro with
          | mk subs o2 =>
            rw [hts] at h hown ih1
            cases o2 with
            | error err => simp at h
            | ok u =>
              simp only at h
              have hgoal : (traceElems jsonify pluralize (e0 :: rest) ro ids).1
                  = subs ++ (traceElems jsonify pluralize rest ro (ids ++ [idString])).1 := by
                simp only [traceElems, hf, ht, hts]
              rw [hgoal]
              simp only [nestedElems, List.mem_cons, List.mem_append] at he
              rcases he with he | he | he
              · subst he
                obtain ⟨own, pre, ho, hs⟩ := hown rfl
                simp only at hs
                refine submittedIn_append_left jsonify pluralize _ _ _
                  ⟨idString, own, ro, by simp [idOf, hf, ht], ho, ?_⟩
                rw [hs]
                simp
              · exact submittedIn_append_left jsonify pluralize e _ _ (ih1 rfl e he)
              · exact submittedIn_append_right jsonify pluralize e _ _ (ih2 _ _ h e he)
end

theorem nestedAll_submitted (jsonify pluralize : String → String) (elems : List GoValue)
    (h : (traceAll jsonify pluralize elems).2 = Except.ok ()) :
    ∀ e ∈ nestedAll elems, submittedIn jsonify pluralize e (traceAll jsonify pluralize elems).1 := by
  induction elems with
  | nil =>
    intro e he
    simp [nestedAll] at he
  | cons e0 rest ih =>
    intro e he
    have ih1 := nestedStruct_submitted jsonify pluralize e0 false
    simp only [traceAll] at h
    cases hts : traceStruct jsonify pluralize e0 false with
    | mk subs o2 =>
      rw [hts] at h ih1
      cases o2 with
      | error err => simp at h
      | ok u =>
        simp only at h
        have hgoal : (traceAll jsonify pluralize (e0 :: rest)).1
            = subs ++ (traceAll jsonify pluralize rest).1 := by
          simp only [traceAll, hts]
        rw [hgoal]
        simp only [nestedAll, List.mem_append] at he
        rcases he with he | he
        · exact submittedIn_append_left jsonify pluralize e _ _ (ih1 rfl e he)
        · exact submittedIn_append_right jsonify pluralize e _ _ (ih h e he)

theorem nestedOf_submitted (jsonify pluralize : String → String) (data : GoValue)
    (h : (traceMarshal jsonify pluralize data).2 = Except.ok ()) :
    ∀ e ∈ nestedOf data, submittedIn jsonify pluralize e (submissions jsonify pluralize data) := by
  cases data with
  | slice elem elems => exact nestedAll_submitted jsonify pluralize elems h
  | struct tn fs => exact nestedStruct_submitted jsonify pluralize _ false h
  | int k v => intro e he; simp [nestedOf, nestedStruct] at he
  | uint k v => intro e he; simp [nestedOf, nestedStruct] at he
  | str s => intro e he; simp [nestedOf, nestedStruct] at he
  | other k p => intro e he; simp [nestedOf, nestedStruct] at he

theorem toID_ok_kind_ne_slice (v : GoValue) (s : String) (h : toID v = Except.ok s) :
    v.kind ≠ Kind.Slice := by
  cases v with
  | slice t es => simp [toID, GoValue.kind] at h
  | int k a => cases k <;> simp [GoValue.kind, IntKind.toKind]
  | uint k a => cases k <;> simp [GoValue.kind, UintKind.toKind]
  | str s2 => simp [GoValue.kind]
  | other k p => cases k <;> simp [GoValue.kind, OtherKind.toKind]
  | struct tn fs => simp [GoValue.kind]

theorem finishResource_id (result : Resource) (linksMap : SMap LinkVal) :
    (finishResource result linksMap).id = result.id := by
  unfold finishResource
  split <;> rfl

theorem resourceOf_id (jsonify pluralize : String → String) (typeName : String)
    (fields : List (StructField GoValue)) (ro : Bool) (r : Resource) (id : String)
    (hID : jsonify "ID" = "id")
    (hkeys : idKeyedByID jsonify (GoValue.struct typeName fields))
    (hid : idOf (GoValue.struct typeName fields) = some id)
    (h : resourceOf jsonify pluralize (GoValue.struct typeName fields) ro = Except.ok r) :
    r.id = some id := by
  -- the ID field and its value
  have hfb : ∃ idVal, (GoValue.struct typeName fields).FieldByName "ID" = some (some idVal)
      ∧ toID idVal = Except.ok id := by
    simp only [idOf] at hid
    cases hf : (GoValue.struct typeName fields).FieldByName "ID" with
    | none => rw [hf] at hid; simp at hid
    | some o =>
      cases o with
      | none => rw [hf] at hid; simp at hid
      | some idVal =>
        rw [hf] at hid
        simp only at hid
        cases ht : toID idVal with
        | error e => rw [ht] at hid; simp at hid
        | ok s =>
          rw [ht] at hid
          simp only [Option.some.injEq] at hid
          exact ⟨idVal, rfl, by rw [ht, hid]⟩
  obtain ⟨idVal, hfb, hto⟩ := hfb
  obtain ⟨⟨f0, hf0, hname⟩, hsame⟩ := hkeys typeName fields rfl
  have hval : f0.value = idVal := by
    have hv := hsame f0 hf0 (by rw [hname]; exact hID)
    rw [hfb] at hv
    simp only [Option.some.injEq] at hv
    exact hv.symm
  obtain ⟨pre, post, hsplit⟩ := List.append_of_mem hf0
  obtain ⟨result, linksMap, ht, hfin⟩ := resourceOf_ok jsonify pluralize typeName fields ro r h
  rw [hfin, finishResource_id]
  rw [hsplit] at ht
  obtain ⟨r1, l1, _, ht⟩ := traceFields_append_ok jsonify pluralize pre _ ro _ _ _ ht
  obtain ⟨r2, l2, hstep, hpost⟩ := traceFields_cons_ok jsonify pluralize _ _ ro _ _ _ ht
  obtain ⟨n0, p0, v0⟩ := f0
  simp only at hname hval
  subst hname
  subst hval
  have hstep2 := traceFields_single_nonslice_ok jsonify pluralize "ID" p0 v0 ro r1 l1 (r2, l2)
    (toID_ok_kind_ne_slice v0 id hto) hstep
  have h2 : r2.id = some id := by
    rcases fieldStep_ok_cases jsonify _ _ _ ro r1 r2 l1 l2 hstep2 with
      ⟨_, id2, hto2, hr, _⟩ | ⟨hne, _⟩ | ⟨hne, _⟩
    · rw [hto] at hto2
      simp only [Except.ok.injEq] at hto2
      rw [hr, hto2]
    · exact absurd hID hne
    · exact absurd hID hne
  have hinv := traceFields_invariant jsonify pluralize (fun res _ => res.id = some id) post ro
    ?_ ?_ ?_ r2 l2 (result, linksMap) h2 hpost
  · exact hinv
  · intro f hf res lm ra la hP _ hst
    rcases fieldStep_ok_cases jsonify _ _ _ ro res ra lm la hst with
      ⟨hk, id2, hto2, hr, _⟩ | ⟨_, _, hr, _⟩ | ⟨_, _, _, hr, _⟩
    · have hmem : f ∈ fields := by
        rw [hsplit]
        exact List.mem_append_right _ (List.mem_cons_of_mem _ hf)
      have := hsame f hmem hk
      rw [hfb] at this
      simp only [Option.some.injEq] at this
      rw [← this, hto] at hto2
      simp only [Except.ok.injEq] at hto2
      rw [hr, hto2]
    · rw [hr]; exact hP
    · rw [hr]; exact hP
  · intro f _ elem elems ids res lm _ _ hP
    exact hP
  · intro f _ elem elems ids res lm _ _ hP
    exact hP

theorem built_collection_has_id (rn : String) (calls : List (String × Resource))
    (ctx : marshalingContext) (hb : Built rn calls ctx) (name : String) (r : Resource)
    (hmem : (name, r) ∈ calls) :
    ∃ l r2, collectionOf ctx.root rn name = some l ∧ r2 ∈ l ∧ r2.id = r.id := by
  have hsub : r ∈ subsUnder name calls := (mem_subsUnder name r calls).mpr hmem
  by_cases hname : name = rn
  · subst hname
    refine ⟨subsUnder name calls, r, ?_, hsub, rfl⟩
    simp [collectionOf, hb.rootList]
  · have hne : subsUnder name calls ≠ [] := List.ne_nil_of_mem hsub
    have hbucket := built_linkedBucket rn calls ctx hb name
    have hids := (mem_ids_firstSeenFrom [] (subsUnder name calls) r.id).mpr
      (Or.inl (List.mem_map.mpr ⟨r, hsub, rfl⟩))
    simp only [List.map_nil, List.not_mem_nil, or_false, List.mem_map] at hids
    obtain ⟨r2, hr2, hid2⟩ := hids
    refine ⟨firstSeen (subsUnder name calls), r2, ?_, hr2, hid2⟩
    simp [collectionOf, hname, hbucket, bucketSpec, hne]

/-- C18 (amended): referential integrity of the to-many links that come from collections of
records.  Assume the key-naming function maps "ID" to "id" and every nested record
declares its field "ID" itself (it is not promoted from an embedded struct) and holds, in
every field keyed "id", the value that `FieldByName "ID"` returns.  Then for every input on
which Marshal succeeds and every element of a collection of records reached by the visit,
at any depth, the element has an id string (the one recorded in its parent's links) and
the returned document holds a resource with that id in the collection of the element's
type: the root list if that type is the root type, else the linked bucket of that type. -/
theorem links_refer_to_resources (jsonify pluralize : String → String) (data : GoValue)
    (doc : SMap DocVal) (h : Marshal jsonify pluralize (some data) = Except.ok doc)
    (hID : jsonify "ID" = "id") (hkeys : ∀ e ∈ nestedOf data, idKeyedByID jsonify e) :
    ∀ e ∈ nestedOf data, ∃ id l r, idOf e = some id
      ∧ collectionOf doc (rootNameOf jsonify pluralize data)
          (pluralize (jsonify e.typeName)) = some l
      ∧ r ∈ l ∧ r.id = some id := by
  intro e he
  obtain ⟨_, hout, _⟩ := (Marshal_ok_iff jsonify pluralize data doc).mp h
  have hb := Marshal_built jsonify pluralize data doc h
  obtain ⟨id, own, ro, hid, hown, hmem⟩ := nestedOf_submitted jsonify pluralize data hout e he
  obtain ⟨name, r0⟩ := own
  have hres : name = pluralize (jsonify e.typeName)
      ∧ resourceOf jsonify pluralize e ro = Except.ok r0 := by
    simp only [ownSubmission] at hown
    cases hr : resourceOf jsonify pluralize e ro with
    | error err => rw [hr] at hown; simp at hown
    | ok r =>
      rw [hr] at hown
      simp only [Option.some.injEq, Prod.mk.injEq] at hown
      exact ⟨hown.1.symm, by rw [hown.2]⟩
  obtain ⟨hn, hr0⟩ := hres
  subst hn
  have hid0 : r0.id = some id := by
    cases e with
    | struct tn fs =>
      exact resourceOf_id jsonify pluralize tn fs ro r0 id hID (hkeys _ he) hid hr0
    | int k v => simp [resourceOf] at hr0
    | uint k v => simp [resourceOf] at hr0
    | str s => simp [resourceOf] at hr0
    | other k p => simp [resourceOf] at hr0
    | slice t es => simp [resourceOf] at hr0
  obtain ⟨l, r2, hl, hr2, hid2⟩ := built_collection_has_id _ _ _ hb _ r0 hmem
  exact ⟨id, l, r2, hid, hl, hr2, by rw [hid2, hid0]⟩

/-- C18 (witness): in the document of the two sample posts, the comment with id 7 that both
posts link to is found in the bucket "comments". -/
theorem links_refer_to_resources_witness :
    Marshal sampleJsonify samplePluralize (some sampleSharedComments) = Except.ok sampleSharedDoc
    ∧ sampleJsonify "ID" = "id"
    ∧ sampleComment 7 "a" ∈ nestedOf sampleSharedComments
    ∧ ∃ id l r, idOf (sampleComment 7 "a") = some id
        ∧ collectionOf sampleSharedDoc (rootNameOf sampleJsonify samplePluralize sampleSharedComments)
            (samplePluralize (sampleJsonify (sampleComment 7 "a").typeName)) = some l
        ∧ r ∈ l ∧ r.id = some id :=
  ⟨by decide, by decide, by decide,
    links_refer_to_resources sampleJsonify samplePluralize sampleSharedComments sampleSharedDoc
      (by decide) (by decide)
      (by
        intro e he tn fs hstruct
        have hmem : e ∈ [sampleComment 7 "a", sampleComment 7 "b", sampleComment 7 "c"] := by
          have : nestedOf sampleSharedComments
              = [sampleComment 7 "a", sampleComment 7 "b", sampleComment 7 "c"] := by decide
          rw [this] at he
          exact he
        simp only [List.mem_cons, List.mem_singleton, List.not_mem_nil, or_false] at hmem
        rcases hmem with rfl | rfl | rfl <;>
        · simp only [sampleComment, GoValue.struct.injEq] at hstruct
          obtain ⟨_, rfl⟩ := hstruct
          refine ⟨⟨_, List.mem_cons_self _ _, rfl⟩, ?_⟩
          intro f hf hk
          simp only [List.mem_cons, List.mem_singleton, List.not_mem_nil, or_false] at hf
          rcases hf with rfl | rfl
          · rfl
          · exact absurd hk (by decide))
      (sampleComment 7 "a") (by decide)⟩

/-- C18 (counterexample): the claim as stated, with no condition on the other fields, fails.
The key-naming function maps "ID" to "id"; the post nests one comment whose field `ID` is 7
and whose later field `id` is "x".  Marshal succeeds, the post's links list the id "7"
under "comments", and the only resource of the bucket "comments" has the id "x": line 82
reads the link id from the field named `ID`, lines 114-120 write `result["id"]` for every
field keyed "id", so the last one stays. -/
theorem link_id_overwritten_by_later_id_field :
    sampleJsonify "ID" = "id"
    ∧ sampleCommentTwoIDs ∈ nestedOf samplePostTwoIDs
    ∧ idOf sampleCommentTwoIDs = some "7"
    ∧ Marshal sampleJsonify samplePluralize (some samplePostTwoIDs)
        = Except.ok [("posts", DocVal.list [samplePostResource "1" ["7"]]),
            ("linked", DocVal.linked [("comments", [⟨some "x", []⟩])])]
    ∧ (samplePostResource "1" ["7"]).link "comments" = some (LinkVal.many ["7"])
    ∧ collectionOf [("posts", DocVal.list [samplePostResource "1" ["7"]]),
          ("linked", DocVal.linked [("comments", [⟨some "x", []⟩])])]
        (rootNameOf sampleJsonify samplePluralize samplePostTwoIDs)
        (samplePluralize (sampleJsonify sampleCommentTwoIDs.typeName)) = some [⟨some "x", []⟩]
    ∧ ¬ ∃ r ∈ ([⟨some "x", []⟩] : List Resource), r.id = some "7" := by
  refine ⟨by decide, by decide, by decide, by decide, by decide, by decide, ?_⟩
  simp

/-! ## Failures of Marshal -/

theorem toID_error_msg (v : GoValue) (e : Fault) (h : toID v = Except.error e) :
    e = Fault.error "need int or string as type of ID" := by
  unfold toID at h
  split at h
  all_goals first | (simp only [Except.error.injEq] at h; exact h.symm) | simp at h

theorem toIDs_error_msg (elems : List GoValue) (ids : List String) (e : Fault)
    (h : toIDs elems ids = Except.error e) :
    e = Fault.error "need int or string as type of ID" := by
  induction elems generalizing ids with
  | nil => simp [toIDs] at h
  | cons hd tl ih =>
    simp only [toIDs] at h
    cases ht : toID hd with
    | error err =>
      rw [ht] at h
      simp only [Except.error.injEq] at h
      rw [← h]
      exact toID_error_msg hd err ht
    | ok id =>
      rw [ht] at h
      exact ih _ h

theorem fieldStep_error_msg (jsonify : String → String) (fname pkg : String) (field : GoValue)
    (ro : Bool) (res : Resource) (lm : SMap LinkVal) (m : String)
    (h : fieldStep jsonify fname pkg field ro res lm = Except.error (Fault.error m)) :
    m = "need int or string as type of ID" := by
  unfold fieldStep at h
  by_cases h1 : jsonify fname = "id"
  · rw [if_pos h1] at h
    cases ht : toID field with
    | error e =>
      rw [ht] at h
      simp only [Except.error.injEq] at h
      have := toID_error_msg field e ht
      rw [h] at this
      simpa using this
    | ok id => rw [ht] at h; simp at h
  · rw [if_neg h1] at h
    by_cases h2 : field.kind = Kind.Struct
    · rw [if_pos h2] at h
      cases hf : field.FieldByName "ID" with
      | none => rw [hf] at h; simp at h
      | some o =>
        cases o with
        | none => rw [hf] at h; simp at h
        | some value =>
          rw [hf] at h
          simp only at h
          cases ht : toID value with
          | error e =>
            rw [ht] at h
            simp only [Except.error.injEq] at h
            have := toID_error_msg value e ht
            rw [h] at this
            simpa using this
          | ok id =>
            rw [ht] at h
            simp only at h
            split at h <;> simp at h
    · rw [if_neg h2] at h
      split at h <;> simp at h

mutual
theorem traceStruct_error_msg (jsonify pluralize : String → String) :
    ∀ (val : GoValue) (ro : Bool) (m : String),
      (traceStruct jsonify pluralize val ro).2 = Except.error (Fault.error m) →
      m = "need int or string as type of ID"
  | GoValue.struct typeName fields, ro, m => by
    have ih := traceFields_error_msg jsonify pluralize fields ro ⟨none, []⟩ [] m
    intro h
    simp only [traceStruct] at h
    generalize traceFields jsonify pluralize fields ro ⟨none, []⟩ [] = t at h ih
    obtain ⟨subs, out⟩ := t
    cases out with
    | error err =>
      have he : err = Fault.error m := by simpa using h
      exact ih (by rw [he])
    | ok p => simp at h
  | GoValue.int _ _, ro, m => by intro h; simp [traceStruct] at h
  | GoValue.uint _ _, ro, m => by intro h; simp [traceStruct] at h
  | GoValue.str _, ro, m => by intro h; simp [traceStruct] at h
  | GoValue.other _ _, ro, m => by intro h; simp [traceStruct] at h
  | GoValue.slice _ _, ro, m => by intro h; simp [traceStruct] at h
theorem traceFields_error_msg (jsonify pluralize : String → String) :
    ∀ (fields : List (StructField GoValue)) (ro : Bool) (result : Resource)
      (linksMap : SMap LinkVal) (m : String),
      (traceFields jsonify pluralize fields ro result linksMap).2
        = Except.error (Fault.error m) →
      m = "need int or string as type of ID"
  | [], ro, result, linksMap, m => by
    intro h
    simp [traceFields] at h
  | ⟨fname, pkg, field⟩ :: rest, ro, result, linksMap, m => by
    have ihR := fun r l => traceFields_error_msg jsonify pluralize rest ro r l
    cases field with
    | slice elem elems =>
      have ihE := traceElems_error_msg jsonify pluralize elems (ro || decide (pkg ≠ "")) [] m
      intro h
      by_cases hs : elem.kind = Kind.Struct
      · rw [traceFields_cons_records _ _ _ _ _ _ _ _ _ _ hs] at h
        generalize traceElems jsonify pluralize elems (ro || decide (pkg ≠ "")) [] = t at h ihE
        obtain ⟨subs, o⟩ := t
        cases o with
        | error err =>
          have he : err = Fault.error m := by simpa using h
          exact ihE (by rw [he])
        | ok ids =>
          simp only at h
          exact ihR _ _ m h
      · rw [traceFields_cons_scalars _ _ _ _ _ _ _ _ _ _ hs] at h
        split at h
        · cases ht : toIDs elems [] with
          | error err =>
            rw [ht] at h
            simp only [Except.error.injEq] at h
            have := toIDs_error_msg elems [] err ht
            rw [h] at this
            simpa using this
          | ok ids =>
            rw [ht] at h
            exact ihR _ _ m h
        · exact ihR _ _ m h
    | int kd v =>
      intro h
      have hk : (GoValue.int kd v).kind ≠ Kind.Slice := by
        cases kd <;> simp [GoValue.kind, IntKind.toKind]
      rw [traceFields_cons_nonslice _ _ _ _ _ _ _ _ _ hk] at h
      cases hst : fieldStep jsonify fname pkg (GoValue.int kd v) ro result linksMap with
      | error err =>
        rw [hst] at h
        simp only [Except.error.injEq] at h
        rw [h] at hst
        exact fieldStep_error_msg jsonify _ _ _ ro result linksMap m hst
      | ok p =>
        rw [hst] at h
        exact ihR _ _ m h
    | uint kd v =>
      intro h
      have hk : (GoValue.uint kd v).kind ≠ Kind.Slice := by
        cases kd <;> simp [GoValue.kind, UintKind.toKind]
      rw [traceFields_cons_nonslice _ _ _ _ _ _ _ _ _ hk] at h
      cases hst : fieldStep jsonify fname pkg (GoValue.uint kd v) ro result linksMap with
      | error err =>
        rw [hst] at h
        simp only [Except.error.injEq] at h
        rw [h] at hst
        exact fieldStep_error_msg jsonify _ _ _ ro result linksMap m hst
      | ok p =>
        rw [hst] at h
        exact ihR _ _ m h
    | str s =>
      intro h
      have hk : (GoValue.str s).kind ≠ Kind.Slice := by
        simp [GoValue.kind]
      rw [traceFields_cons_nonslice _ _ _ _ _ _ _ _ _ hk] at h
      cases hst : fieldStep jsonify fname pkg (GoValue.str s) ro result linksMap with
      | error err =>
        rw [hst] at h
        simp only [Except.error.injEq] at h
        rw [h] at hst
        exact fieldStep_error_msg jsonify _ _ _ ro result linksMap m hst
      | ok p =>
        rw [hst] at h
        exact ihR _ _ m h
    | other kd pl =>
      intro h
      have hk : (GoValue.other kd pl).kind ≠ Kind.Slice := by
        cases kd <;> simp [GoValue.kind, OtherKind.toKind]
      rw [traceFields_cons_nonslice _ _ _ _ _ _ _ _ _ hk] at h
      cases hst : fieldStep jsonify fname pkg (GoValue.other kd pl) ro result linksMap with
      | error err =>
        rw [hst] at h
        simp only [Except.error.injEq] at h
        rw [h] at hst
        exact fieldStep_error_msg jsonify _ _ _ ro result linksMap m hst
      | ok p =>
        rw [hst] at h
        exact ihR _ _ m h
    | struct tn fs =>
      intro h
      have hk : (GoValue.struct tn fs).kind ≠ Kind.Slice := by
        simp [GoValue.kind]
      rw [traceFields_cons_nonslice _ _ _ _ _ _ _ _ _ hk] at h
      cases hst : fieldStep jsonify fname pkg (GoValue.struct tn fs) ro result linksMap with
      | error err =>
        rw [hst] at h
        simp only [Except.error.injEq] at h
        rw [h] at hst
        exact fieldStep_error_msg jsonify _ _ _ ro result linksMap m hst
      | ok p =>
        rw [hst] at h
        exact ihR _ _ m h
theorem traceElems_error_msg (jsonify pluralize : String → String) :
    ∀ (elems : List GoValue) (ro : Bool) (ids : List String) (m : String),
      (traceElems jsonify pluralize elems ro ids).2 = Except.error (Fault.error m) →
      m = "need int or string as type of ID"
  | [], ro, ids, m => by
    intro h
    simp [traceElems] at h
  | e0 :: rest, ro, ids, m => by
    have ih1 := traceStruct_error_msg jsonify pluralize e0 ro m
    have ih2 := fun i => traceElems_error_msg jsonify pluralize rest ro i m
    intro h
    simp only [traceElems] at h
    cases hf : e0.FieldByName "ID" with
    | none => rw [hf] at h; simp at h
    | some o =>
      cases o with
      | none => rw [hf] at h; simp at h
      | some idVal =>
        rw [hf] at h
        simp only at h
        cases ht : toID idVal with
        | error err =>
          rw [ht] at h
          simp only [Except.error.injEq] at h
          have := toID_error_msg idVal err ht
          rw [h] at this
          simpa using this
        | ok idString =>
          rw [ht] at h
          simp only at h
          cases hts : traceStruct jsonify pluralize e0 ro with
          | mk subs o2 =>
            rw [hts] at h ih1
            cases o2 with
            | error err =>
              have he : err = Fault.error m := by simpa using h
              exact ih1 (by rw [he])
            | ok u =>
              simp only at h
              exact ih2 _ h
end

theorem traceAll_error_msg (jsonify pluralize : String → String) (elems : List GoValue)
    (m : String) (h : (traceAll jsonify pluralize elems).2 = Except.error (Fault.error m)) :
    m = "need int or string as type of ID" := by
  induction elems with
  | nil => simp [traceAll] at h
  | cons e0 rest ih =>
    have ih1 := traceStruct_error_msg jsonify pluralize e0 false m
    simp only [traceAll] at h
    cases hts : traceStruct jsonify pluralize e0 false with
    | mk subs o2 =>
      rw [hts] at h ih1
      cases o2 with
      | error err =>
        have he : err = Fault.error m := by simpa using h
        exact ih1 (by rw [he])
      | ok u =>
        simp only at h
        exact ih h

theorem traceMarshal_error_msg (jsonify pluralize : String → String) (data : GoValue)
    (m : String) (h : (traceMarshal jsonify pluralize data).2 = Except.error (Fault.error m)) :
    m = "need int or string as type of ID" := by
  cases data with
  | slice elem elems => exact traceAll_error_msg jsonify pluralize elems m h
  | struct tn fs => exact traceStruct_error_msg jsonify pluralize _ false m h
  | int k v => simp [traceMarshal, traceStruct] at h
  | uint k v => simp [traceMarshal, traceStruct] at h
  | str s => simp [traceMarshal, traceStruct] at h
  | other k p => simp [traceMarshal, traceStruct] at h

theorem addValue_error_panic (ctx : marshalingContext) (name : String) (r : Resource)
    (e : Fault) (h : addValue ctx name r = Except.error e) : ∃ msg, e = Fault.panic msg := by
  unfold addValue at h
  repeat' split at h
  all_goals first
    | (simp only [Except.error.injEq] at h; exact ⟨_, h.symm⟩)
    | simp at h

theorem addValues_error_panic (ctx : marshalingContext) (calls : List (String × Resource))
    (e : Fault) (h : addValues ctx calls = Except.error e) : ∃ msg, e = Fault.panic msg := by
  induction calls generalizing ctx with
  | nil => simp [addValues] at h
  | cons hd tl ih =>
    obtain ⟨name, r⟩ := hd
    simp only [addValues] at h
    cases hadd : addValue ctx name r with
    | error err =>
      rw [hadd] at h
      simp only [Except.error.injEq] at h
      rw [← h]
      exact addValue_error_panic ctx name r err hadd
    | ok c =>
      rw [hadd] at h
      exact ih c h

theorem Marshal_eq_replay (jsonify pluralize : String → String) (data : GoValue)
    (hname : ∀ elem elems, data = GoValue.slice elem elems → pluralize (jsonify elem.name) ≠ "") :
    Marshal jsonify pluralize (some data)
      = match addValues (makeContext (rootNameOf jsonify pluralize data))
            (submissions jsonify pluralize data) with
        | Except.error err => Except.error err
        | Except.ok ctx =>
          match (traceMarshal jsonify pluralize data).2 with
          | Except.error err => Except.error err
          | Except.ok _ => Except.ok ctx.root := by
  cases data with
  | slice elem elems =>
    have hrn := hname elem elems rfl
    simp only [Marshal, if_neg hrn, marshalAll_eq_replay, rootNameOf, submissions, traceMarshal]
    generalize traceAll jsonify pluralize elems = t
    obtain ⟨subs, out⟩ := t
    simp only [replay]
    cases addValues (makeContext (pluralize (jsonify elem.name))) subs with
    | error e => rfl
    | ok c => cases out <;> rfl
  | int k v =>
    simp only [Marshal, marshalStruct_eq_replay, rootNameOf, submissions, traceMarshal]
    generalize traceStruct jsonify pluralize (GoValue.int k v) false = t
    obtain ⟨subs, out⟩ := t
    simp only [replay]
    cases addValues (makeContext (pluralize (jsonify (GoValue.int k v).typeName))) subs with
    | error e => rfl
    | ok c => cases out <;> rfl
  | uint k v =>
    simp only [Marshal, marshalStruct_eq_replay, rootNameOf, submissions, traceMarshal]
    generalize traceStruct jsonify pluralize (GoValue.uint k v) false = t
    obtain ⟨subs, out⟩ := t
    simp only [replay]
    cases addValues (makeContext (pluralize (jsonify (GoValue.uint k v).typeName))) subs with
    | error e => rfl
    | ok c => cases out <;> rfl
  | str s =>
    simp only [Marshal, marshalStruct_eq_replay, rootNameOf, submissions, traceMarshal]
    generalize traceStruct jsonify pluralize (GoValue.str s) false = t
    obtain ⟨subs, out⟩ := t
    simp only [replay]
    cases addValues (makeContext (pluralize (jsonify (GoValue.str s).typeName))) subs with
    | error e => rfl
    | ok c => cases out <;> rfl
  | other k p =>
    simp only [Marshal, marshalStruct_eq_replay, rootNameOf, submissions, traceMarshal]
    generalize traceStruct jsonify pluralize (GoValue.other k p) false = t
    obtain ⟨subs, out⟩ := t
    simp only [replay]
    cases addValues (makeContext (pluralize (jsonify (GoValue.other k p).typeName))) subs with
    | error e => rfl
    | ok c => cases out <;> rfl
  | struct tn fs =>
    simp only [Marshal, marshalStruct_eq_replay, rootNameOf, submissions, traceMarshal]
    generalize traceStruct jsonify pluralize (GoValue.struct tn fs) false = t
    obtain ⟨subs, out⟩ := t
    simp only [replay]
    cases addValues (makeContext (pluralize (jsonify (GoValue.struct tn fs).typeName))) subs with
    | error e => rfl
    | ok c => cases out <;> rfl

/-- C12: failure is atomic.  In the model `Except.error (Fault.error msg)` is the return
`nil, err` of lines 48 and 58: an error comes with no document.  Marshal returns a document
only when the traversal ends without a failed conversion.  When a conversion of the
traversal fails (every addValue call made before it having returned), Marshal returns that
error, whatever has been added to the builder, and in no case a document.  And every error
Marshal returns is the error of a failed toID conversion of the traversal.  A sequence whose
second post nests a comment with a floating-point ID gives the error although the first post
and its comment were added before. -/
theorem failure_is_atomic (jsonify pluralize : String → String) (data : GoValue) :
    (∀ doc, Marshal jsonify pluralize (some data) = Except.ok doc →
      (traceMarshal jsonify pluralize data).2 = Except.ok ())
    ∧ (∀ msg ctx, (traceMarshal jsonify pluralize data).2 = Except.error (Fault.error msg) →
        (∀ elem elems, data = GoValue.slice elem elems → pluralize (jsonify elem.name) ≠ "") →
        addValues (makeContext (rootNameOf jsonify pluralize data))
          (submissions jsonify pluralize data) = Except.ok ctx →
        Marshal jsonify pluralize (some data) = Except.error (Fault.error msg))
    ∧ (∀ msg, (traceMarshal jsonify pluralize data).2 = Except.error (Fault.error msg) →
        ∀ doc, Marshal jsonify pluralize (some data) ≠ Except.ok doc)
    ∧ (∀ msg, Marshal jsonify pluralize (some data) = Except.error (Fault.error msg) →
        (traceMarshal jsonify pluralize data).2 = Except.error (Fault.error msg)
          ∧ msg = "need int or string as type of ID")
    ∧ Marshal sampleJsonify samplePluralize (some sampleLateFailure)
        = Except.error (Fault.error "need int or string as type of ID")
    ∧ submissions sampleJsonify samplePluralize sampleLateFailure
        = [("comments", sampleCommentResource "7" "a"), ("posts", samplePostResource "1" ["7"])] := by
  refine ⟨?_, ?_, ?_, ?_, by decide, by decide⟩
  · intro doc h
    exact ((Marshal_ok_iff jsonify pluralize data doc).mp h).2.1
  · intro msg ctx hout hname hrun
    rw [Marshal_eq_replay jsonify pluralize data hname, hrun, hout]
  · intro msg hout doc h
    have := ((Marshal_ok_iff jsonify pluralize data doc).mp h).2.1
    rw [hout] at this
    simp at this
  · intro msg h
    have hname : ∀ elem elems, data = GoValue.slice elem elems →
        pluralize (jsonify elem.name) ≠ "" := by
      intro elem elems hd hrn
      subst hd
      simp [Marshal, hrn] at h
    rw [Marshal_eq_replay jsonify pluralize data hname] at h
    cases hrun : addValues (makeContext (rootNameOf jsonify pluralize data))
        (submissions jsonify pluralize data) with
    | error e =>
      rw [hrun] at h
      obtain ⟨pm, hp⟩ := addValues_error_panic _ _ e hrun
      simp only [Except.error.injEq] at h
      rw [hp] at h
      simp at h
    | ok c =>
      rw [hrun] at h
      simp only at h
      cases hout : (traceMarshal jsonify pluralize data).2 with
      | error e =>
        rw [hout] at h
        simp only [Except.error.injEq] at h
        subst h
        exact ⟨rfl, traceMarshal_error_msg jsonify pluralize data msg hout⟩
      | ok u =>
        rw [hout] at h
        simp at h

/-- C12 (witness): the sample sequence with a late floating-point ID returns the error; its
traversal ends with that error after two resources were submitted. -/
theorem failure_is_atomic_witness :
    (traceMarshal sampleJsonify samplePluralize sampleLateFailure).2
        = Except.error (Fault.error "need int or string as type of ID")
    ∧ ∀ doc, Marshal sampleJsonify samplePluralize (some sampleLateFailure) ≠ Except.ok doc :=
  ⟨by decide,
    (failure_is_atomic sampleJsonify samplePluralize sampleLateFailure).2.2.1
      "need int or string as type of ID" (by decide)⟩

/-- C13 (as amended): programmer errors are signalled by a panic.  Marshal panics when given
nil and when given a sequence whose root name is empty; the loop over a collection of
records panics at an element that has no ID field; so the visit of a record panics when it
reaches such a collection after fields visited without failure, and so does Marshal on that
record.  (When an identifier conversion fails before the collection is reached, Marshal
returns that error instead.) -/
theorem programmer_errors_panic (jsonify pluralize : String → String) :
    Marshal jsonify pluralize none = Except.error (Fault.panic "nil passed to Marshal")
    ∧ (∀ elem elems, pluralize (jsonify elem.name) = "" →
        Marshal jsonify pluralize (some (GoValue.slice elem elems))
          = Except.error (Fault.panic "You passed a slice of interfaces to Marshal"))
    ∧ (∀ ctx e rest ro ids, e.FieldByName "ID" = some none →
        marshalElems jsonify pluralize ctx (e :: rest) ro ids
          = Except.error (Fault.panic "structs passed to Marshal need to contain ID fields"))
    ∧ (∀ ctx typeName pre post sname spkg selem e rest ro out,
        selem.kind = Kind.Struct → e.FieldByName "ID" = some none →
        (traceFields jsonify pluralize pre ro ⟨none, []⟩ []).2 = Except.ok out →
        ∃ msg, marshalStruct jsonify pluralize ctx (GoValue.struct typeName
            (pre ++ ⟨sname, spkg, GoValue.slice selem (e :: rest)⟩ :: post)) ro
          = Except.error (Fault.panic msg))
    ∧ (∀ typeName pre post sname spkg selem e rest out,
        selem.kind = Kind.Struct → e.FieldByName "ID" = some none →
        (traceFields jsonify pluralize pre false ⟨none, []⟩ []).2 = Except.ok out →
        ∃ msg, Marshal jsonify pluralize (some (GoValue.struct typeName
            (pre ++ ⟨sname, spkg, GoValue.slice selem (e :: rest)⟩ :: post)))
          = Except.error (Fault.panic msg)) := by
  have h4 : ∀ ctx typeName pre post sname spkg selem e rest ro out,
      selem.kind = Kind.Struct → e.FieldByName "ID" = some none →
      (traceFields jsonify pluralize pre ro ⟨none, []⟩ []).2 = Except.ok out →
      ∃ msg, marshalStruct jsonify pluralize ctx (GoValue.struct typeName
          (pre ++ ⟨sname, spkg, GoValue.slice selem (e :: rest)⟩ :: post)) ro
        = Except.error (Fault.panic msg) := by
    intro ctx typeName pre post sname spkg selem e rest ro out hs hid hpre
    have helems : traceElems jsonify pluralize (e :: rest) (ro || decide (spkg ≠ "")) []
        = ([], Except.error
            (Fault.panic "structs passed to Marshal need to contain ID fields")) := by
      simp only [traceElems, hid]
    rw [marshalStruct_eq_replay]
    simp only [traceStruct]
    rw [traceFields_append_full]
    generalize traceFields jsonify pluralize pre ro ⟨none, []⟩ [] = t at hpre
    obtain ⟨subs, o⟩ := t
    simp only at hpre
    subst hpre
    obtain ⟨r1, l1⟩ := out
    simp only
    rw [traceFields_cons_records _ _ _ _ _ _ _ _ _ _ hs, helems]
    simp only [replay, List.append_nil]
    cases hrun : addValues ctx subs with
    | error err =>
      obtain ⟨msg, hm⟩ := addValues_error_panic ctx subs err hrun
      exact ⟨msg, by rw [hm]⟩
    | ok c => exact ⟨_, rfl⟩
  refine ⟨rfl, ?_, ?_, h4, ?_⟩
  · intro elem elems hrn
    simp [Marshal, hrn]
  · intro ctx e rest ro ids hid
    simp only [marshalElems, hid]
  · intro typeName pre post sname spkg selem e rest out hs hid hpre
    obtain ⟨msg, hm⟩ := h4 (makeContext (pluralize (jsonify typeName))) typeName pre post sname
      spkg selem e rest false out hs hid hpre
    refine ⟨msg, ?_⟩
    simp only [Marshal, GoValue.typeName, hm]

/-- C13 (witness): Marshal panics on the sample post whose tag records have no ID field. -/
theorem programmer_errors_panic_witness :
    (⟨Kind.Struct, "Tag"⟩ : GoType).kind = Kind.Struct
    ∧ (GoValue.struct "Tag" [⟨"Name", "", GoValue.str "x"⟩]).FieldByName "ID" = some none
    ∧ Marshal sampleJsonify samplePluralize (some samplePostWithTags)
        = Except.error (Fault.panic "structs passed to Marshal need to contain ID fields")
    ∧ ∃ msg, Marshal sampleJsonify samplePluralize (some samplePostWithTags)
        = Except.error (Fault.panic msg) :=
  ⟨by decide, by decide, by decide,
    (programmer_errors_panic sampleJsonify samplePluralize).2.2.2.2 "Post"
      [⟨"ID", "", GoValue.int IntKind.Int 1⟩] [] "Tags" "" ⟨Kind.Struct, "Tag"⟩
      (GoValue.struct "Tag" [⟨"Name", "", GoValue.str "x"⟩]) [] (⟨some "1", []⟩, [])
      (by decide) (by decide) (by decide)⟩

/-- C13 (counterexample): the tag records nested in this post have no ID field, yet Marshal
returns normally with an error, because the conversion of the post's own floating-point ID
fails first. -/
theorem missing_id_field_masked_by_error :
    Marshal sampleJsonify samplePluralize (some sampleBadIDAndTags)
        = Except.error (Fault.error "need int or string as type of ID")
    ∧ (GoValue.struct "Tag" [⟨"Name", "", GoValue.str "x"⟩]).FieldByName "ID" = some none := by
  decide

/-! ## A record of scalars -/

theorem mapSet_append_of_not_mem {β : Type} (m : SMap β) (k : String) (v : β)
    (h : k ∉ mapKeys m) : mapSet m k v = m ++ [(k, v)] := by
  induction m with
  | nil => rfl
  | cons hd tl ih =>
    obtain ⟨k2, v2⟩ := hd
    simp only [mapKeys, List.map_cons, List.mem_cons, not_or] at h
    have h2 : ¬ k2 = k := fun e => h.1 e.symm
    simp only [mapSet, if_neg h2, List.cons_append, List.cons.injEq, true_and]
    exact ih h.2

theorem fieldStep_attribute (jsonify : String → String) (f : StructField GoValue)
    (res : Resource) (lm : SMap LinkVal) (h : scalarAttribute jsonify f) :
    fieldStep jsonify f.Name f.PkgPath f.value false res lm
      = Except.ok ({ res with fields := mapSet res.fields (jsonify f.Name) (JVal.raw f.value) },
          lm) := by
  obtain ⟨h1, _, h3, h4⟩ := h
  unfold fieldStep
  rw [if_neg h4, if_neg h3, h1]
  rfl

theorem traceFields_attributes (jsonify pluralize : String → String)
    (attrs : List (StructField GoValue)) (res : Resource) (lm : SMap LinkVal)
    (hattrs : ∀ f ∈ attrs, scalarAttribute jsonify f)
    (hnodup : (mapKeys res.fields ++ attrs.map (fun f => jsonify f.Name)).Nodup) :
    traceFields jsonify pluralize attrs false res lm
      = ([], Except.ok ({ res with fields := res.fields ++ attrs.map (attrEntry jsonify) }, lm)) := by
  induction attrs generalizing res with
  | nil => simp [traceFields]
  | cons f tl ih =>
    have hf := hattrs f (List.mem_cons_self _ _)
    have hstep := fieldStep_attribute jsonify f res lm hf
    obtain ⟨n, p, v⟩ := f
    simp only at hstep
    rw [traceFields_cons_nonslice _ _ _ _ _ _ _ _ _ hf.2.1, hstep]
    simp only
    have hk : jsonify n ∉ mapKeys res.fields := by
      intro hmem
      rw [List.nodup_append] at hnodup
      exact hnodup.2.2 hmem (by simp)
    rw [mapSet_append_of_not_mem _ _ _ hk]
    rw [ih _ (fun g hg => hattrs g (List.mem_cons_of_mem _ hg))]
    · simp [attrEntry]
    · simp only [mapKeys, List.map_append, List.map_cons, List.map_nil, List.append_assoc,
        List.singleton_append] at hnodup ⊢
      exact hnodup

theorem fieldStep_id (jsonify : String → String) (pkg : String) (idv : GoValue) (s : String)
    (ro : Bool) (res : Resource) (lm : SMap LinkVal) (hID : jsonify "ID" = "id")
    (hto : toID idv = Except.ok s) :
    fieldStep jsonify "ID" pkg idv ro res lm = Except.ok ({ res with id := some s }, lm) := by
  unfold fieldStep
  rw [if_pos hID]
  simp only [hto]

theorem traceFields_scalar_record (jsonify pluralize : String → String)
    (pre post : List (StructField GoValue)) (pkg : String) (idv : GoValue) (s : String)
    (hID : jsonify "ID" = "id") (hto : toID idv = Except.ok s)
    (hattrs : ∀ f ∈ pre ++ post, scalarAttribute jsonify f)
    (hnodup : ((pre ++ post).map (fun f => jsonify f.Name)).Nodup) :
    traceFields jsonify pluralize (pre ++ ⟨"ID", pkg, idv⟩ :: post) false ⟨none, []⟩ []
      = ([], Except.ok (⟨some s, (pre ++ post).map (attrEntry jsonify)⟩, [])) := by
  have hpre := traceFields_attributes jsonify pluralize pre ⟨none, []⟩ []
    (fun f hf => hattrs f (List.mem_append_left _ hf))
    (by
      simp only [mapKeys, List.map_nil, List.nil_append]
      rw [List.map_append] at hnodup
      exact (List.nodup_append.mp hnodup).1)
  rw [traceFields_append_full, hpre]
  simp only [List.nil_append]
  rw [traceFields_cons_nonslice _ _ _ _ _ _ _ _ _ (toID_ok_kind_ne_slice idv s hto),
    fieldStep_id jsonify pkg idv s false _ _ hID hto]
  simp only
  rw [traceFields_attributes jsonify pluralize post _ []
    (fun f hf => hattrs f (List.mem_append_right _ hf))
    (by
      simp only [mapKeys, List.map_map, List.nil_append]
      rw [List.map_append] at hnodup
      have : (List.map (Prod.fst ∘ attrEntry jsonify) pre)
          = List.map (fun f => jsonify f.Name) pre := by
        apply List.map_congr_left
        intro f _
        rfl
      rw [this]
      exact hnodup)]
  simp

/-- C14 (as amended): assume the key-naming function maps "ID" to "id".  For every single
record whose fields are an identifier field ID holding an integer n that toID converts and
otherwise only exported scalar (no slice, no struct) fields whose transformed keys are
pairwise different and not "id", Marshal succeeds and returns a document with exactly one
key, the pluralized transformed type name, mapped to a list of exactly one resource whose
id is the decimal string of n and whose other entries are the field values, copied
unchanged under their transformed keys; the resource has no "links" key unless a field is
keyed "links", and the document has no "linked" key beside the root key. -/
theorem marshal_scalar_record (jsonify pluralize : String → String) (typeName : String)
    (pre post : List (StructField GoValue)) (pkg : String) (idv : GoValue) (n : Int)
    (s : String) (hID : jsonify "ID" = "id") (hint : idv.integer = some n)
    (hto : toID idv = Except.ok s)
    (hattrs : ∀ f ∈ pre ++ post, scalarAttribute jsonify f)
    (hnodup : ((pre ++ post).map (fun f => jsonify f.Name)).Nodup) :
    Marshal jsonify pluralize (some (GoValue.struct typeName (pre ++ ⟨"ID", pkg, idv⟩ :: post)))
        = Except.ok [(pluralize (jsonify typeName),
            DocVal.list [⟨some (toString n), (pre ++ post).map (attrEntry jsonify)⟩])]
    ∧ s = toString n
    ∧ ((∀ f ∈ pre ++ post, jsonify f.Name ≠ "links") →
        mapGet ((pre ++ post).map (attrEntry jsonify)) "links" = none)
    ∧ (∀ f ∈ pre ++ post, mapGet ((pre ++ post).map (attrEntry jsonify)) (jsonify f.Name)
        = some (JVal.raw f.value)) := by
  have hs : s = toString n := by
    rw [toID_integer_eq idv n s hint hto, FormatInt_eq_toString]
  have hkeys : mapKeys ((pre ++ post).map (attrEntry jsonify))
      = (pre ++ post).map (fun f => jsonify f.Name) := by
    simp only [mapKeys, List.map_map]
    apply List.map_congr_left
    intro f _
    rfl
  refine ⟨?_, hs, ?_, ?_⟩
  · have htrace := traceFields_scalar_record jsonify pluralize pre post pkg idv s hID hto hattrs
      hnodup
    simp only [Marshal, marshalStruct_eq_replay, traceStruct, htrace, GoValue.typeName]
    simp [replay, addValues, addValue, makeContext, mapSet, mapGet, finishResource, hs]
  · intro hl
    apply mapGet_eq_none_of_not_mem
    rw [hkeys]
    intro hmem
    obtain ⟨f, hf, hk⟩ := List.mem_map.mp hmem
    exact hl f hf hk
  · intro f hf
    generalize pre ++ post = attrs at hnodup hf
    induction attrs with
    | nil => simp at hf
    | cons g tl ih =>
      rw [List.map_cons, List.nodup_cons] at hnodup
      rcases List.mem_cons.mp hf with e | e
      · subst e
        simp [attrEntry, mapGet]
      · have hne : ¬ jsonify g.Name = jsonify f.Name := by
          intro e2
          exact hnodup.1 (e2 ▸ List.mem_map.mpr ⟨f, e, rfl⟩)
        simp only [List.map_cons, attrEntry, mapGet, if_neg hne]
        exact ih hnodup.2 e

/-- C14 (witness): the comment record with id 42 and body "hello" gives the document with
the single key "comments" and the single resource with id "42" and the body. -/
theorem marshal_scalar_record_witness :
    sampleJsonify "ID" = "id"
    ∧ (GoValue.int IntKind.Int 42).integer = some 42
    ∧ toID (GoValue.int IntKind.Int 42) = Except.ok "42"
    ∧ Marshal sampleJsonify samplePluralize (some (sampleComment 42 "hello"))
        = Except.ok [("comments", DocVal.list [sampleCommentResource "42" "hello"])] :=
  ⟨by decide, by decide, by decide,
    (marshal_scalar_record sampleJsonify samplePluralize "Comment" []
      [⟨"Body", "", GoValue.str "hello"⟩] "" (GoValue.int IntKind.Int 42) 42 "42" (by decide)
      (by decide) (by decide)
      (by
        intro f hf
        simp only [List.nil_append, List.mem_singleton] at hf
        subst hf
        exact ⟨rfl, by decide, by decide, by decide⟩)
      (by decide)).1⟩

/-- C14 (counterexample): a post with the integer identifier 42 and one scalar attribute
that is an unexported field makes Marshal panic instead of returning a document. -/
theorem unexported_attribute_panics :
    Marshal sampleJsonify samplePluralize (some samplePostUnexported)
      = Except.error (Fault.panic
          "reflect.Value.Interface: cannot return value obtained from unexported field or method") := by
  decide

end Api2go
